import Mathlib

/-! mini-shell: line parser, command descriptor and pipeline orchestrator

A shallow embedding of `src/shell.cpp`.  A `std::string` is a list of
characters, a `std::stringstream` read with `>>` is the list of the
whitespace-separated tokens still to be read, `size_t` arithmetic is taken
modulo `2^64`, and the operating system is a record of oracles (`Env`)
together with the descriptor table of the shell process.
-/

namespace MiniShell

/-- A `std::string`. -/
abbrev Str := List Char

/-! ## String helpers of the C++ standard library -/

/-- The members of `chars`, as the predicate `find_first_not_of` skips over. -/
def in_set (chars : Str) (c : Char) : Bool := chars.contains c

/-- Model of `std::string::find_first_not_of`: `none` is `npos`. -/
def find_first_not_of (s chars : Str) : Option Nat :=
  let i := s.findIdx (fun c => !in_set chars c)
  if i < s.length then some i else none

/-- Model of `std::string::find_last_not_of`: `none` is `npos`. -/
def find_last_not_of (s chars : Str) : Option Nat :=
  let k := s.reverse.findIdx (fun c => !in_set chars c)
  if k < s.length then some (s.length - 1 - k) else none

/-- Model of `std::string::substr (pos, n)` for `pos ≤ size`. -/
def substr (s : Str) (pos n : Nat) : Str := (s.drop pos).take n

/-- The two characters `delim_remove` strips: space and tab. -/
def blanks : Str := [' ', '\t']

/-- `delim_remove` (shell.cpp 231-243).  When `find_last_not_of` returns
`npos` (which cannot happen once `find_first_not_of` found a character) the
length `end - start + 1` wraps around to `2^64 - start`. -/
def delim_remove (command : Str) : Str :=
  match find_first_not_of command blanks with
  | none => []
  | some start =>
    match find_last_not_of command blanks with
    | some e => substr command start (e - start + 1)
    | none => substr command start (2 ^ 64 - start)

/-- Model of `std::getline (ss, cmd, delim)` on a string stream whose unread
part is `ss`: it fails when nothing is left, otherwise it returns the
characters before the first delimiter and discards that delimiter. -/
def getline (ss : Str) (delim : Char) : Option (Str × Str) :=
  match ss with
  | [] => none
  | _ :: _ =>
    some (ss.takeWhile (fun c => c != delim), (ss.dropWhile (fun c => c != delim)).drop 1)

/-- The `while (getline (ss, cmd, '|'))` loop of `parse_pipeline`. -/
def parse_pipeline_loop : Nat → Str → List Str → List Str
  | 0, _, commands => commands
  | fuel + 1, ss, commands =>
    match getline ss '|' with
    | none => commands
    | some (cmd, rest) =>
      let cmd := delim_remove cmd
      if cmd ≠ [] then parse_pipeline_loop fuel rest (commands ++ [cmd])
      else parse_pipeline_loop fuel rest commands

/-- `parse_pipeline` (shell.cpp 536-550).  Every successful `getline`
consumes at least one character, so `length + 1` rounds always suffice. -/
def parse_pipeline (command : Str) : List Str :=
  parse_pipeline_loop (command.length + 1) command []

/-! ### The specification of `parse_pipeline`, in the words of the spec -/

/-- All pieces of `s` between occurrences of `d`, empty pieces included. -/
def pieces (d : Char) : Str → List Str
  | [] => [[]]
  | c :: cs =>
    if c = d then [] :: pieces d cs
    else
      match pieces d cs with
      | [] => [[c]]
      | p :: ps => (c :: p) :: ps

/-- Strip leading and trailing spaces and tabs. -/
def strip_blanks (s : Str) : Str :=
  ((s.dropWhile (in_set blanks)).reverse.dropWhile (in_set blanks)).reverse

/-- Split at every `|`, strip each piece, drop the pieces that became empty. -/
def parse_pipeline_spec (line : Str) : List Str :=
  ((pieces '|' line).map strip_blanks).filter (fun s => decide (s ≠ []))


/-! ## Tokens of a segment -/

/-- `isspace` in the C locale: what `operator>>` skips between tokens. -/
def isspace (c : Char) : Bool :=
  c = ' ' || c = '\t' || c = '\n' || c = '\x0b' || c = '\x0c' || c = '\r'

/-- Scan of a string stream: `cur` is the token being read. -/
def tokens_from : Str → Str → List Str
  | [], cur => if cur = [] then [] else [cur]
  | c :: cs, cur =>
    if isspace c then
      if cur = [] then tokens_from cs [] else cur :: tokens_from cs []
    else tokens_from cs (cur ++ [c])

/-- The tokens that successive `ss >> arg` extract from `stringstream ss (s)`. -/
def tokens (s : Str) : List Str := tokens_from s []

/-! ## The command descriptor -/

/-- What the `runtime_error` caught in `parse_command` says. -/
inductive ParseError where
  | expected_input_file
  | expected_output_file
  | no_command
  | glob_error (pattern : Str)
  | open_input (file : Str)
  | open_output (file : Str)
  deriving DecidableEq, Repr

/-- The data members of `class Command` (shell.cpp 35-43). -/
structure Command where
  command : Str
  arguments : List Str
  input_fd : Int
  output_fd : Int
  input_file : Str
  output_file : Str
  pid : Int
  pipe_mode : Bool
  deriving DecidableEq, Repr

/-- The member initialisers of the constructor (shell.cpp 45). -/
def Command.init (cmd : Str) : Command :=
  { command := cmd, arguments := [], input_fd := 0, output_fd := 1,
    input_file := [], output_file := [], pid := -1, pipe_mode := false }

/-- The test `arg.length () > 0 && arg[arg.size () - 1] == '\\'`. -/
def ends_in_backslash (arg : Str) : Bool :=
  decide (arg.length > 0) && (arg.getLast? == some '\\')

/-- The assignment `temp[temp.size () - 1] = ' '`. -/
def set_last_to_space (temp : Str) : Str := temp.dropLast ++ [' ']

/-- The `while (ss >> arg)` loop of `parse_arguments` (shell.cpp 81-115); the
stream is the list of tokens still unread, `temp` and `backslash` are the
two locals. -/
def parse_arguments_loop : List Str → Str → Bool → Command → Except ParseError Command
  | [], _, _, c => .ok c
  | arg :: ss, temp, backslash, c =>
    if arg = ['<'] then
      match ss with
      | [] => .error .expected_input_file
      | file :: rest => parse_arguments_loop rest temp false { c with input_file := file }
    else if arg = ['>'] then
      match ss with
      | [] => .error .expected_output_file
      | file :: rest => parse_arguments_loop rest temp false { c with output_file := file }
    else if ends_in_backslash arg then
      parse_arguments_loop ss (set_last_to_space (temp ++ arg)) true c
    else if backslash then
      parse_arguments_loop ss [] false { c with arguments := c.arguments ++ [temp ++ arg] }
    else
      parse_arguments_loop ss temp false { c with arguments := c.arguments ++ [arg] }

/-- `Command::parse_arguments` (shell.cpp 74-122). -/
def parse_arguments (c : Command) : Except ParseError Command :=
  match parse_arguments_loop (tokens c.command) [] false c with
  | .error e => .error e
  | .ok c1 =>
    match c1.arguments with
    | [] => .error .no_command
    | a0 :: _ => .ok { c1 with command := a0 }

/-- What `glob (pattern, GLOB_TILDE, NULL, &result)` reports: return value 0
with at least one path, `GLOB_NOMATCH`, or another nonzero value. -/
inductive GlobResult where
  | matched (first : Str) (more : List Str)
  | no_match
  | failed
  deriving DecidableEq, Repr

/-- The test `arg.find ('*') != npos || arg.find ('?') != npos`. -/
def has_wildcard (arg : Str) : Bool := arg.contains '*' || arg.contains '?'

/-- The `for (auto &arg : arguments)` loop of `handle_wildcards`
(shell.cpp 127-156), `temp_args` being the vector it fills. -/
def handle_wildcards_loop (glob : Str → GlobResult) :
    List Str → List Str → Except ParseError (List Str)
  | [], temp_args => .ok temp_args
  | arg :: rest, temp_args =>
    if has_wildcard arg then
      match glob arg with
      | .no_match => handle_wildcards_loop glob rest (temp_args ++ [arg])
      | .failed => .error (.glob_error arg)
      | .matched p ps => handle_wildcards_loop glob rest (temp_args ++ (p :: ps))
    else handle_wildcards_loop glob rest (temp_args ++ [arg])

/-- `Command::handle_wildcards` (shell.cpp 124-159), on the argument vector. -/
def handle_wildcards (glob : Str → GlobResult) (arguments : List Str) :
    Except ParseError (List Str) :=
  handle_wildcards_loop glob arguments []

/-- The expansion of one argument, in the words of the spec: a token with
`*` or `?` is replaced by the matches, or kept when nothing matches. -/
def expand_argument (glob : Str → GlobResult) (arg : Str) : List Str :=
  if has_wildcard arg then
    match glob arg with
    | .matched p ps => p :: ps
    | _ => [arg]
  else [arg]

/-- The glob of this argument is attempted and reports an error. -/
def glob_fails (glob : Str → GlobResult) (arg : Str) : Bool :=
  has_wildcard arg && decide (glob arg = .failed)

/-- Specification of `handle_wildcards`: every argument is expanded in place;
the first argument whose glob reports an error makes the parse fail. -/
def handle_wildcards_spec (glob : Str → GlobResult) (arguments : List Str) :
    Except ParseError (List Str) :=
  match arguments.find? (glob_fails glob) with
  | some bad => .error (.glob_error bad)
  | none => .ok (arguments.flatMap (expand_argument glob))

/-! ## The operating system, as seen by the shell process -/

/-- `size_t` arithmetic: unsigned, modulo `2^64`. -/
def SIZE_MOD : Nat := 18446744073709551616

/-- `a - b` on `size_t`: the difference modulo `2^64`, which wraps around when
`b` exceeds `a`. -/
def size_sub (a b : Nat) : Nat :=
  if b % SIZE_MOD ≤ a % SIZE_MOD then a % SIZE_MOD - b % SIZE_MOD
  else a % SIZE_MOD + SIZE_MOD - b % SIZE_MOD

/-- `a * b` on `size_t`. -/
def size_mul (a b : Nat) : Nat := (a * b) % SIZE_MOD

/-- `a + b` on `size_t`. -/
def size_add (a b : Nat) : Nat := (a + b) % SIZE_MOD

/-- What an open descriptor refers to. -/
inductive FdObj where
  /-- Open under number `n` before the pipeline started; 0, 1 and 2 are the
  standard streams. -/
  | inherited (n : Nat)
  /-- Read end of the `k`-th pipe of the pipeline. -/
  | pipe_read (k : Nat)
  /-- Write end of the `k`-th pipe of the pipeline. -/
  | pipe_write (k : Nat)
  /-- Read end of the side-channel pipe made for segment `i`. -/
  | comm_read (i : Nat)
  /-- Write end of the side-channel pipe made for segment `i`. -/
  | comm_write (i : Nat)
  /-- A file opened with `O_RDONLY` for `<`. -/
  | file_in (path : Str)
  /-- A file opened with `O_WRONLY | O_CREAT | O_TRUNC` for `>`. -/
  | file_out (path : Str)
  deriving DecidableEq, Repr

/-- The descriptor table of one process: number and object. -/
abbrev FdTable := List (Int × FdObj)

/-- The object open under `fd`, if any. -/
def fd_lookup (t : FdTable) (fd : Int) : Option FdObj :=
  (t.find? (fun e => e.1 = fd)).map (fun e => e.2)

/-- The table after `close (fd)`; closing a number that is not open changes nothing. -/
def fd_close (t : FdTable) (fd : Int) : FdTable := t.filter (fun e => e.1 ≠ fd)

/-- The smallest descriptor number that is not open. -/
def lowest_free (t : FdTable) : Int :=
  match (List.range (t.length + 1)).find? (fun (n : Nat) => (fd_lookup t (Int.ofNat n)).isNone) with
  | some n => Int.ofNat n
  | none => Int.ofNat t.length

/-- A new descriptor for `obj`, under the lowest free number. -/
def fd_alloc (t : FdTable) (obj : FdObj) : Int × FdTable :=
  (lowest_free t, t ++ [(lowest_free t, obj)])

/-- The table after `dup2 (oldfd, newfd)`; `none` when `oldfd` is not open. -/
def fd_dup2 (t : FdTable) (oldfd newfd : Int) : Option FdTable :=
  match fd_lookup t oldfd with
  | none => none
  | some obj => if oldfd = newfd then some t else some (fd_close t newfd ++ [(newfd, obj)])

/-- The answers of the operating system and of the user.  `pipe_ok`,
`open_ok` and `fork` are asked with the number of system calls of these three
kinds made so far, so that any one call can fail. -/
structure Env where
  /-- Result of `glob (pattern, GLOB_TILDE, ...)`. -/
  glob : Str → GlobResult
  /-- Does the `open` made as call number `t` on this path succeed. -/
  open_ok : Nat → Str → Bool
  /-- Does the `pipe` made as call number `t` succeed. -/
  pipe_ok : Nat → Bool
  /-- Result of the `fork` made as call number `t`, in the parent: `none` is
  `-1`, `some pid` the pid of the child. -/
  fork : Nat → Option Nat
  /-- Does `execvp` of this file succeed in the child. -/
  execvp_ok : Str → Bool
  /-- The value of `getenv ("HOME")`. -/
  home : Option Str
  /-- Does `chdir` to this path succeed. -/
  chdir_ok : Str → Bool
  /-- The result of `getcwd`; `none` when it fails. -/
  getcwd : Option Str
  /-- Does the `write` of this data to this descriptor succeed. -/
  write_ok : Int → Str → Bool
  /-- What the `read` loop on the side channel of the child `pid` returns: the
  chunks read, and whether the loop ended on a read error. -/
  comm_data : Nat → List Str × Bool
  /-- The word `cin >> response` reads; `none` when the read fails. -/
  response : Option Str
  /-- Does `kill (pid, SIGKILL)` succeed. -/
  kill_ok : Int → Bool
  /-- Does `remove (file)` succeed. -/
  remove_ok : Str → Bool

/-- The global variables of shell.cpp that the claims are about, the
descriptor table of the shell process and the count of `pipe`, `open` and
`fork` calls made. -/
structure Shell where
  job_number : Nat
  is_background : Bool
  foreground_pid : Nat
  background_pids : Finset Nat
  fds : FdTable
  clock : Nat
  deriving DecidableEq

/-- The exceptions thrown inside the `try` of `execute_pipeline`. -/
inductive Failure where
  /-- `Failed to parse command: <cmd>`, thrown by the constructor. -/
  | failed_to_parse (cmd : Str)
  /-- `Failed to create pipe: ...`. -/
  | pipe_creation
  /-- `Failed to create communication pipe`. -/
  | comm_pipe_creation
  /-- `Failed to fork: ...`. -/
  | fork_failure
  deriving DecidableEq, Repr

/-- Lines written to standard error. -/
inductive Diagnostic where
  /-- `Error parsing command: <what>` (shell.cpp 69). -/
  | parsing (e : ParseError)
  /-- `Pipeline execution error: <what>` (shell.cpp 666). -/
  | pipeline (f : Failure)
  /-- `cd: too many arguments`. -/
  | cd_too_many_arguments
  /-- `perror ("cd")`. -/
  | perror_cd
  /-- `perror ("pwd")`. -/
  | perror_pwd
  /-- `pwd: <what>`, when the working directory cannot be read. -/
  | pwd_failed
  /-- `perror ("read delep output")`. -/
  | perror_read
  /-- `Warning: Invalid PID in delep output: <pid_str>`. -/
  | invalid_pid (pid_str : Str)
  /-- `Failed to kill process <pid>: ...`. -/
  | kill_failed (pid : Int)
  /-- `Error deleting file <file>: ...`. -/
  | remove_failed (file : Str)
  deriving DecidableEq, Repr

/-- The signals the shell sends. -/
inductive Signal where
  | SIGKILL
  | SIGTERM
  | SIGSTOP
  deriving DecidableEq, Repr

/-- What becomes of the child forked for a segment. -/
inductive ChildResult where
  /-- The image is replaced by `execvp (file, argv)`, with this descriptor table. -/
  | exec (file : Str) (argv : List Str) (fds : FdTable)
  /-- The child runs `delep (path, write_fd)` and exits with status 0. -/
  | delep (path : Str) (write_fd : Int) (fds : FdTable)
  /-- The child constructs the process inspector for `target_pid`, which is
  positive, and runs it; it exits with status 0, or with -1 when the
  constructor cannot open `/proc`. -/
  | sb (target_pid : Int) (suggest : Bool)
  /-- `execute_child_process` returns -1 and the child exits: usage error, no
  argument, a pid that is not a positive number, a failed `dup2` or a failed
  `execvp`. -/
  | gave_up (fds : FdTable)
  deriving DecidableEq, Repr

/-- What the shell process does that can be observed, in order. -/
inductive Event where
  /-- `pipe` succeeded for the `k`-th pipe of the pipeline. -/
  | pipe (k : Nat) (rd wr : Int)
  /-- `pipe` failed for the `k`-th pipe of the pipeline. -/
  | pipe_failed (k : Nat)
  /-- `pipe (comm_pipe)` succeeded for segment `i`. -/
  | comm_pipe (i : Nat) (rd wr : Int)
  /-- `pipe (comm_pipe)` failed for segment `i`. -/
  | comm_pipe_failed (i : Nat)
  /-- `open` succeeded. -/
  | opened (file : Str) (fd : Int)
  /-- `open` returned -1. -/
  | open_failed (file : Str)
  /-- `fork` succeeded for segment `i`; `own` is the descriptor as constructed,
  `cmd` the descriptor the child runs with, `child` what the child does. -/
  | fork (i : Nat) (pid : Nat) (own cmd : Command) (child : ChildResult)
  /-- `fork` returned -1 for segment `i`. -/
  | fork_failed (i : Nat)
  /-- `close (fd)`. -/
  | close (fd : Int)
  /-- `kill (pid, sig)`. -/
  | kill (pid : Int) (sig : Signal)
  /-- `waitpid (pid, &status, 0)`. -/
  | waitpid (pid : Nat)
  /-- A line on standard output. -/
  | out (line : Str)
  /-- A line on standard error. -/
  | err (d : Diagnostic)
  /-- `chdir (path)`. -/
  | chdir (path : Str)
  /-- `write (fd, data)`. -/
  | write (fd : Int) (data : Str)
  /-- `remove (file)`. -/
  | remove (file : Str)
  deriving DecidableEq, Repr

/-- How a call of `execute_pipeline` ends. -/
inductive Outcome where
  /-- It returns to the read loop. -/
  | returned
  /-- The shell process terminates with this status. -/
  | shell_exit (status : Nat)
  deriving DecidableEq, Repr

/-- `pipe (fds)`: two new descriptors, `none` on failure. -/
def sys_pipe (env : Env) (sh : Shell) (rd wr : FdObj) : Option (Int × Int) × Shell :=
  if env.pipe_ok sh.clock then
    let a := fd_alloc sh.fds rd
    let b := fd_alloc a.2 wr
    (some (a.1, b.1), { sh with fds := b.2, clock := sh.clock + 1 })
  else (none, { sh with clock := sh.clock + 1 })

/-- `open (file, ...)`: a new descriptor, `none` for -1. -/
def sys_open (env : Env) (sh : Shell) (file : Str) (obj : FdObj) : Option Int × Shell :=
  if env.open_ok sh.clock file then
    let a := fd_alloc sh.fds obj
    (some a.1, { sh with fds := a.2, clock := sh.clock + 1 })
  else (none, { sh with clock := sh.clock + 1 })

/-- `close (fd)` in the shell process. -/
def sys_close (sh : Shell) (fd : Int) : Shell := { sh with fds := fd_close sh.fds fd }

/-! ## Construction and destruction of a command descriptor -/

/-- `Command::setup_io_redirection` (shell.cpp 161-180). -/
def setup_io_redirection (env : Env) (sh : Shell) (c : Command) :
    List Event × Shell × Except ParseError Command :=
  let r1 : List Event × Shell × Except ParseError Command :=
    if c.input_file ≠ [] then
      match sys_open env sh c.input_file (.file_in c.input_file) with
      | (none, sh1) => ([.open_failed c.input_file], sh1, .error (.open_input c.input_file))
      | (some fd, sh1) => ([.opened c.input_file fd], sh1, .ok { c with input_fd := fd })
    else ([], sh, .ok c)
  match r1 with
  | (ev, sh1, .error e) => (ev, sh1, .error e)
  | (ev, sh1, .ok c1) =>
    if c1.output_file ≠ [] then
      match sys_open env sh1 c1.output_file (.file_out c1.output_file) with
      | (none, sh2) =>
        (ev ++ [.open_failed c1.output_file], sh2, .error (.open_output c1.output_file))
      | (some fd, sh2) =>
        (ev ++ [.opened c1.output_file fd], sh2, .ok { c1 with output_fd := fd })
    else (ev, sh1, .ok c1)

/-- The `try` block of `Command::parse_command` (shell.cpp 63-67). -/
def parse_command (env : Env) (sh : Shell) (c : Command) :
    List Event × Shell × Except ParseError Command :=
  match parse_arguments c with
  | .error e => ([], sh, .error e)
  | .ok c1 =>
    match handle_wildcards env.glob c1.arguments with
    | .error e => ([], sh, .error e)
    | .ok args => setup_io_redirection env sh { c1 with arguments := args }

/-- The constructor `Command::Command (cmd)` (shell.cpp 45-50): on a parse
error the message is printed and `Failed to parse command` is thrown. -/
def Command.construct (env : Env) (sh : Shell) (cmd : Str) :
    List Event × Shell × Except Failure Command :=
  match parse_command env sh (Command.init cmd) with
  | (ev, sh1, .error e) => (ev ++ [.err (.parsing e)], sh1, .error (.failed_to_parse cmd))
  | (ev, sh1, .ok c) => (ev, sh1, .ok c)

/-- The destructor `Command::~Command` (shell.cpp 52-58). -/
def Command.destroy (c : Command) (sh : Shell) : List Event × Shell :=
  let r1 : List Event × Shell :=
    if c.input_fd ≠ 0 ∧ c.input_fd ≠ -1 then ([.close c.input_fd], sys_close sh c.input_fd)
    else ([], sh)
  if c.output_fd ≠ 1 ∧ c.output_fd ≠ -1 then
    (r1.1 ++ [.close c.output_fd], sys_close r1.2 c.output_fd)
  else r1

/-! ## Built-in commands -/

/-- How `handle_builtin_command` ends. -/
inductive BuiltinResult where
  /-- `exit (EXIT_SUCCESS)` was called. -/
  | exits
  /-- It returned `true`. -/
  | handled
  /-- It returned `false`. -/
  | not_builtin
  deriving DecidableEq, Repr

/-- `handle_builtin_command` (shell.cpp 366-403). -/
def handle_builtin_command (env : Env) (c : Command) : List Event × BuiltinResult :=
  if c.command = "exit".toList then ([.out "exit".toList], .exits)
  else if c.command = "cd".toList then
    if c.arguments.length = 1 then
      match env.home with
      | none => ([], .handled)
      | some home =>
        if env.chdir_ok home then ([.chdir home], .handled)
        else ([.chdir home, .err .perror_cd], .handled)
    else if c.arguments.length = 2 then
      if env.chdir_ok (c.arguments.getD 1 []) then ([.chdir (c.arguments.getD 1 [])], .handled)
      else ([.chdir (c.arguments.getD 1 []), .err .perror_cd], .handled)
    else ([.err .cd_too_many_arguments], .handled)
  else if c.command = "pwd".toList then
    match env.getcwd with
    | none => ([.err .pwd_failed], .handled)
    | some cwd =>
      if env.write_ok c.output_fd cwd then
        if env.write_ok c.output_fd ['\n'] then
          ([.write c.output_fd cwd, .write c.output_fd ['\n']], .handled)
        else ([.write c.output_fd cwd, .write c.output_fd ['\n'], .err .perror_pwd], .handled)
      else ([.write c.output_fd cwd, .err .perror_pwd], .handled)
  else ([], .not_builtin)

/-! ## The child process -/

/-- Model of `std::stoi`: leading white space, an optional sign, then decimal
digits; `none` when it throws (no digit, or a value outside `int`). -/
def stoi (s : Str) : Option Int :=
  let s1 := s.dropWhile isspace
  let signed : Bool × Str :=
    match s1 with
    | '-' :: r => (true, r)
    | '+' :: r => (false, r)
    | _ => (false, s1)
  let digits := signed.2.takeWhile Char.isDigit
  if digits = [] then none
  else
    let n : Nat := digits.foldl (fun a d => 10 * a + (d.toNat - 48)) 0
    let v : Int := if signed.1 then - (n : Int) else (n : Int)
    if v < -2147483648 ∨ 2147483647 < v then none else some v

/-- `execute_command` (shell.cpp 245-278), run in the child on the
descriptor table `t`. -/
def execute_command (env : Env) (c : Command) (t : FdTable) : ChildResult :=
  if c.arguments = [] then .gave_up t
  else
    match fd_dup2 t c.input_fd 0 with
    | none => .gave_up t
    | some t1 =>
      match fd_dup2 t1 c.output_fd 1 with
      | none => .gave_up t1
      | some t2 =>
        if env.execvp_ok c.command then .exec c.command c.arguments t2 else .gave_up t2

/-- `execute_child_process` (shell.cpp 406-444).  For `sb` the `try` block
ends in the `catch` (`sb: invalid PID`, return -1) when `stoi` throws and when
the constructor of `squashbug` throws for a pid that is not positive
(squashbug.cpp 5-7). -/
def execute_child_process (env : Env) (c : Command) (pipe_write_fd : Int) (t : FdTable) :
    ChildResult :=
  if c.command = "delep".toList then
    if c.arguments.length ≠ 2 then .gave_up t
    else .delep (c.arguments.getD 1 []) pipe_write_fd t
  else if c.command = "sb".toList then
    if c.arguments.length < 2 ∨ c.arguments.length > 3 then .gave_up t
    else
      let suggest : Bool :=
        decide (c.arguments.length = 3) && decide (c.arguments.getD 2 [] = "-suggest".toList)
      match stoi (c.arguments.getD 1 []) with
      | none => .gave_up t
      | some target_pid => if target_pid ≤ 0 then .gave_up t else .sb target_pid suggest
  else execute_command env c t

/-- The loop `for (j = 0; j < pipe_fds.size (); j++)` of the child
(shell.cpp 611-615) for segment `i`, from index `j` on. -/
def close_unused_pipe_ends (i : Nat) : List Int → Nat → FdTable → FdTable
  | [], _, t => t
  | fd :: rest, j, t =>
    if j ≠ size_mul (size_sub i 1) 2 ∧ j ≠ size_add (size_mul i 2) 1 then
      close_unused_pipe_ends i rest (j + 1) (fd_close t fd)
    else close_unused_pipe_ends i rest (j + 1) t

/-- The branch `pid == 0` of `execute_pipeline` (shell.cpp 607-620): what the
child forked for segment `i` does, starting from a copy `t` of the
descriptor table of the shell. -/
def child_process (env : Env) (pipe_fds : List Int) (i : Nat) (comm_pipe : Int × Int)
    (c : Command) (t : FdTable) : ChildResult :=
  let t1 := close_unused_pipe_ends i pipe_fds 0 t
  let t2 := if comm_pipe.1 ≠ -1 then fd_close t1 comm_pipe.1 else t1
  execute_child_process env c (if comm_pipe.2 ≠ -1 then comm_pipe.2 else -1) t2

/-! ## Post-processing of the lock-holder tool -/

/-- Insertion into a `std::set<int>`, kept as an increasing list. -/
def set_insert (x : Int) : List Int → List Int
  | [] => [x]
  | y :: ys =>
    if x < y then x :: y :: ys
    else if x = y then y :: ys
    else y :: set_insert x ys

/-- Decimal text of an `int`, as `cout << pid` prints it. -/
def show_int (i : Int) : Str :=
  if i < 0 then '-' :: Nat.toDigits 10 i.natAbs else Nat.toDigits 10 i.natAbs

/-- The loop `while (getline (ss, entry, ','))` of `handle_delep_output`
(shell.cpp 467-486). -/
def delep_entries_loop :
    Nat → Str → List Int → List Int → List Event → List Int × List Int × List Event
  | 0, _, pids_lock, pids_nolock, ev => (pids_lock, pids_nolock, ev)
  | fuel + 1, ss, pids_lock, pids_nolock, ev =>
    match getline ss ',' with
    | none => (pids_lock, pids_nolock, ev)
    | some (entry, rest) =>
      if entry = [] then delep_entries_loop fuel rest pids_lock pids_nolock ev
      else if !entry.contains ':' then delep_entries_loop fuel rest pids_lock pids_nolock ev
      else
        let type := entry.takeWhile (fun c => c != ':')
        let pid_str := (entry.dropWhile (fun c => c != ':')).drop 1
        match stoi pid_str with
        | none =>
          delep_entries_loop fuel rest pids_lock pids_nolock (ev ++ [.err (.invalid_pid pid_str)])
        | some pid =>
          if type = "Lock".toList then
            delep_entries_loop fuel rest (set_insert pid pids_lock) pids_nolock ev
          else if type = "NoLock".toList then
            delep_entries_loop fuel rest pids_lock (set_insert pid pids_nolock) ev
          else delep_entries_loop fuel rest pids_lock pids_nolock ev

/-- The kill loop of `handle_delep_output` (shell.cpp 517-523). -/
def kill_all (env : Env) : List Int → List Event
  | [] => []
  | pid :: rest =>
    (if env.kill_ok pid then
      [Event.kill pid .SIGKILL, .out ("Killed process ".toList ++ show_int pid)]
    else [Event.kill pid .SIGKILL, .err (.kill_failed pid)]) ++ kill_all env rest

/-- The second half of `handle_delep_output` (shell.cpp 488-533): the two
sets of pids are shown and, on the answer `yes`, every pid is sent `SIGKILL`
and the file is removed.  `warnings` are the lines printed while parsing. -/
def delep_dialogue (env : Env) (filename : Str) (pids_lock pids_nolock : List Int)
    (warnings : List Event) : List Event :=
  let all_pids := pids_nolock.foldl (fun s p => set_insert p s) pids_lock
  if all_pids = [] then warnings ++ [.out "No process has the file open".toList]
  else
    let listing : List Event :=
      [Event.out "Following PIDs have opened the given file in lock mode:".toList]
        ++ pids_lock.map (fun p => Event.out (show_int p))
        ++ [Event.out "Following PIDs have opened the given file in normal mode:".toList]
        ++ pids_nolock.map (fun p => Event.out (show_int p))
        ++ [Event.out "Do you want to kill all the processes using the file? (yes/no): ".toList]
    match env.response with
    | none => warnings ++ listing ++ [.out "Error reading response".toList]
    | some response =>
      if response = "yes".toList then
        warnings ++ listing ++ kill_all env all_pids
          ++ (if env.remove_ok filename then
                [Event.remove filename, .out ("Deleted file ".toList ++ filename)]
              else [Event.remove filename, .err (.remove_failed filename)])
      else warnings ++ listing ++ [.out "Exiting...".toList]

/-- The text gathered by the `read` loop (shell.cpp 453-456): each chunk is
appended as a C string, so it ends at its first NUL. -/
def gather_chunks (chunks : List Str) : Str :=
  chunks.flatMap (fun chunk => chunk.takeWhile (fun c => c != '\x00'))

/-- `handle_delep_output` (shell.cpp 447-533) for the side channel of the
child `pid`. -/
def handle_delep_output (env : Env) (pid : Nat) (filename : Str) : List Event :=
  if (env.comm_data pid).2 then [.err .perror_read]
  else
    let parsed := delep_entries_loop ((gather_chunks (env.comm_data pid).1).length + 1)
      (gather_chunks (env.comm_data pid).1) [] [] []
    delep_dialogue env filename parsed.1 parsed.2.1 parsed.2.2

/-! ## The pipeline orchestrator -/

/-- The loop that creates the pipes (shell.cpp 559-566): `n` iterations are
left, `k` is the loop index, `pipe_fds` the vector filled so far.  The flag
is `false` when `pipe` failed and the exception is thrown. -/
def create_pipes (env : Env) : Nat → Nat → Shell → List Int → List Event × Shell × List Int × Bool
  | 0, _, sh, pipe_fds => ([], sh, pipe_fds, true)
  | n + 1, k, sh, pipe_fds =>
    match sys_pipe env sh (.pipe_read k) (.pipe_write k) with
    | (none, sh1) => ([.pipe_failed k], sh1, pipe_fds, false)
    | (some (rd, wr), sh1) =>
      let r := create_pipes env n (k + 1) sh1 (pipe_fds ++ [rd, wr])
      (Event.pipe k rd wr :: r.1, r.2)

/-- How one iteration of the loop over the segments ends. -/
inductive Flow where
  /-- The iteration completed; the loop goes on. -/
  | next
  /-- `return` after a built-in (shell.cpp 582). -/
  | returned
  /-- The built-in `exit` terminated the shell. -/
  | exited
  /-- An exception left the `try` block. -/
  | thrown (f : Failure)
  deriving DecidableEq, Repr

/-- The text `[<job_number>] <pid>` (shell.cpp 626). -/
def job_line (job_number pid : Nat) : Str :=
  ['['] ++ Nat.toDigits 10 job_number ++ [']', ' '] ++ Nat.toDigits 10 pid

/-- The parent records the child (shell.cpp 625-630): a background job is
announced and put in the background set, a foreground job takes the
foreground slot. -/
def track_child (pid : Nat) (sh : Shell) : List Event × Shell :=
  if sh.is_background then
    ([.out (job_line sh.job_number pid)],
      { sh with job_number := size_add sh.job_number 1,
                background_pids := insert pid sh.background_pids })
  else ([], { sh with foreground_pid := pid })

/-- The parent closes the pipe ends the child of segment `i` now owns
(shell.cpp 632-638); an index outside the vector reads as -1. -/
def close_used_pipe_ends (n : Nat) (pipe_fds : List Int) (i : Nat) (sh : Shell) :
    List Event × Shell :=
  let r1 : List Event × Shell :=
    if i > 0 then
      ([.close (pipe_fds.getD (size_mul (size_sub i 1) 2) (-1))],
        sys_close sh (pipe_fds.getD (size_mul (size_sub i 1) 2) (-1)))
    else ([], sh)
  if i < size_sub n 1 then
    (r1.1 ++ [.close (pipe_fds.getD (size_add (size_mul i 2) 1) (-1))],
      sys_close r1.2 (pipe_fds.getD (size_add (size_mul i 2) 1) (-1)))
  else r1

/-- The parent handles the side channel of the lock-holder tool
(shell.cpp 640-651). -/
def collect_delep_output (env : Env) (comm_pipe : Int × Int) (c : Command) (pid : Nat)
    (sh : Shell) : List Event × Shell :=
  if c.command = "delep".toList ∧ comm_pipe.1 ≠ -1 then
    let waited : List Event :=
      if !sh.is_background then
        [Event.waitpid pid] ++
          (if c.arguments.length ≥ 2 then handle_delep_output env pid (c.arguments.getD 1 [])
           else [])
      else []
    ([.close comm_pipe.2] ++ waited ++ [.close comm_pipe.1],
      sys_close (sys_close sh comm_pipe.2) comm_pipe.1)
  else ([], sh)

/-- The parent branch after a successful `fork` for segment `i`
(shell.cpp 622-652), followed by the destructor of `shell_command`. -/
def parent_after_fork (env : Env) (n : Nat) (pipe_fds : List Int) (i : Nat)
    (comm_pipe : Int × Int) (c : Command) (pid : Nat) (sh : Shell) : List Event × Shell :=
  let r1 := track_child pid sh
  let r2 := close_used_pipe_ends n pipe_fds i r1.2
  let r3 := collect_delep_output env comm_pipe c pid r2.2
  let r4 := Command.destroy c r3.2
  (r1.1 ++ r2.1 ++ r3.1 ++ r4.1, r4.2)

/-- The test for background execution (shell.cpp 574-575). -/
def wants_background (c : Command) : Bool :=
  decide (c.arguments ≠ []) && (c.arguments.getLast? == some ['&'])

/-- The descriptor after the test for background execution: a trailing `&`
is removed from the arguments (shell.cpp 573-578). -/
def strip_ampersand (c : Command) : Command :=
  if wants_background c then { c with arguments := c.arguments.dropLast } else c

/-- The descriptor after `Set up pipes for command` (shell.cpp 586-591) for
segment `i` of `n`; an index outside the vector reads as -1. -/
def wire_segment (n : Nat) (pipe_fds : List Int) (i : Nat) (own : Command) : Command :=
  let c1 : Command :=
    if i > 0 then { own with input_fd := pipe_fds.getD (size_mul (size_sub i 1) 2) (-1) }
    else own
  if i < size_sub n 1 then { c1 with output_fd := pipe_fds.getD (size_add (size_mul i 2) 1) (-1) }
  else c1

/-- The side-channel pipe of segment `i` (shell.cpp 594-599): `none` when
`pipe` fails and the exception is thrown, `(-1, -1)` when the command is not
the lock-holder tool. -/
def make_comm_pipe (env : Env) (i : Nat) (c : Command) (sh : Shell) :
    List Event × Shell × Option (Int × Int) :=
  if c.command = "delep".toList then
    match sys_pipe env sh (.comm_read i) (.comm_write i) with
    | (none, sh1) => ([.comm_pipe_failed i], sh1, none)
    | (some (rd, wr), sh1) => ([.comm_pipe i rd wr], sh1, some (rd, wr))
  else ([], sh, some (-1, -1))

/-- One iteration of the loop over the segments, from the pipe wiring on
(shell.cpp 585-652): `own` is the descriptor after the `&` test, `n` is
`commands.size ()`. -/
def spawn_segment (env : Env) (n : Nat) (pipe_fds : List Int) (i : Nat) (own : Command)
    (sh : Shell) (child_pids : List Nat) : List Event × Shell × List Nat × Flow :=
  let c := wire_segment n pipe_fds i own
  match make_comm_pipe env i c sh with
  | (ev1, sh1, none) =>
    let d := Command.destroy c sh1
    (ev1 ++ d.1, d.2, child_pids, .thrown .comm_pipe_creation)
  | (ev1, sh1, some comm_pipe) =>
    match env.fork sh1.clock with
    | none =>
      let d := Command.destroy c { sh1 with clock := sh1.clock + 1 }
      (ev1 ++ [.fork_failed i] ++ d.1, d.2, child_pids, .thrown .fork_failure)
    | some pid =>
      let child := child_process env pipe_fds i comm_pipe c sh1.fds
      let p := parent_after_fork env n pipe_fds i comm_pipe c pid
        { sh1 with clock := sh1.clock + 1 }
      (ev1 ++ [.fork i pid own c child] ++ p.1, p.2, child_pids ++ [pid], .next)

/-- One iteration of the loop over the segments (shell.cpp 570-652). -/
def run_segment (env : Env) (n : Nat) (pipe_fds : List Int) (i : Nat) (segment : Str)
    (sh : Shell) (child_pids : List Nat) : List Event × Shell × List Nat × Flow :=
  match Command.construct env sh segment with
  | (ev0, sh0, .error f) => (ev0, sh0, child_pids, .thrown f)
  | (ev0, sh0, .ok c0) =>
    let own : Command := strip_ampersand c0
    let sh1 : Shell := { sh0 with is_background := wants_background c0 }
    let builtin : List Event × BuiltinResult :=
      if n = 1 then handle_builtin_command env own else ([], .not_builtin)
    match builtin with
    | (evb, .exits) => (ev0 ++ evb, sh1, child_pids, .exited)
    | (evb, .handled) =>
      let d := Command.destroy own sh1
      (ev0 ++ evb ++ d.1, d.2, child_pids, .returned)
    | (evb, .not_builtin) =>
      let r := spawn_segment env n pipe_fds i own sh1 child_pids
      (ev0 ++ evb ++ r.1, r.2)

/-- The loop `for (i = 0; i < commands.size (); i++)` (shell.cpp 569-653) over
the segments still to run. -/
def run_segments (env : Env) (n : Nat) (pipe_fds : List Int) :
    List Str → Nat → Shell → List Nat → List Event × Shell × List Nat × Flow
  | [], _, sh, child_pids => ([], sh, child_pids, .next)
  | segment :: rest, i, sh, child_pids =>
    match run_segment env n pipe_fds i segment sh child_pids with
    | (ev, sh1, pids1, .next) =>
      let r := run_segments env n pipe_fds rest (i + 1) sh1 pids1
      (ev ++ r.1, r.2)
    | r => r

/-- The result of one call of `execute_pipeline`. -/
structure Run where
  events : List Event
  sh : Shell
  outcome : Outcome

/-- The `catch` block of `execute_pipeline` (shell.cpp 665-677). -/
def catch_block (f : Failure) (pipe_fds : List Int) (child_pids : List Nat) (sh : Shell) :
    List Event × Shell :=
  ([.err (.pipeline f)] ++ pipe_fds.map Event.close
      ++ child_pids.map (fun pid => Event.kill (pid : Int) .SIGKILL),
    pipe_fds.foldl sys_close sh)

/-- `execute_pipeline` (shell.cpp 552-678). -/
def execute_pipeline (env : Env) (sh : Shell) (commands : List Str) : Run :=
  match create_pipes env (size_sub commands.length 1) 0 sh [] with
  | (ev0, sh0, pipe_fds, false) =>
    let c := catch_block .pipe_creation pipe_fds [] sh0
    { events := ev0 ++ c.1, sh := c.2, outcome := .returned }
  | (ev0, sh0, pipe_fds, true) =>
    match run_segments env commands.length pipe_fds commands 0 sh0 [] with
    | (ev1, sh1, child_pids, .next) =>
      let waits : List Event := if !sh1.is_background then child_pids.map Event.waitpid else []
      { events := ev0 ++ ev1 ++ waits, sh := { sh1 with foreground_pid := 0 },
        outcome := .returned }
    | (ev1, sh1, _, .returned) => { events := ev0 ++ ev1, sh := sh1, outcome := .returned }
    | (ev1, sh1, _, .exited) => { events := ev0 ++ ev1, sh := sh1, outcome := .shell_exit 0 }
    | (ev1, sh1, child_pids, .thrown f) =>
      let c := catch_block f pipe_fds child_pids sh1
      { events := ev0 ++ ev1 ++ c.1, sh := c.2, outcome := .returned }

/-- The state of a shell that has just started: no foreground job, no
background job, job counter 1, the three standard streams open. -/
def Shell.initial : Shell :=
  { job_number := 1, is_background := false, foreground_pid := 0, background_pids := ∅,
    fds := [(0, .inherited 0), (1, .inherited 1), (2, .inherited 2)], clock := 0 }

/-- An environment in which every system call succeeds, `fork` hands out the
pids 100, 101, ..., nothing matches a glob pattern and the user answers
nothing. -/
def Env.friendly : Env :=
  { glob := fun _ => .no_match, open_ok := fun _ _ => true, pipe_ok := fun _ => true,
    fork := fun t => some (100 + t), execvp_ok := fun _ => true, home := none,
    chdir_ok := fun _ => true, getcwd := some ['/'], write_ok := fun _ _ => true,
    comm_data := fun _ => ([], false), response := none, kill_ok := fun _ => true,
    remove_ok := fun _ => true }

/-! ## Signal handlers -/

/-- How a signal handler ends. -/
inductive HandlerExit where
  /-- The handler returns and the interrupted code goes on. -/
  | resumed
  /-- `siglongjmp (env, 42)`: control goes back to the `sigsetjmp` at the top
  of the loop of `main`. -/
  | unwound
  deriving DecidableEq, Repr

/-- `ctrl_c_handler` (shell.cpp 281-291).  `kill_ok pid sig` tells whether
`kill (pid, sig)` succeeds; `cout << endl` is the empty line. -/
def ctrl_c_handler (kill_ok : Int → Signal → Bool) (sh : Shell) :
    List Event × Shell × HandlerExit :=
  if sh.foreground_pid = 0 then ([], sh, .unwound)
  else
    ([Event.out [], .kill (sh.foreground_pid : Int) .SIGTERM]
        ++ (if kill_ok (sh.foreground_pid : Int) .SIGTERM then []
            else [.kill (sh.foreground_pid : Int) .SIGKILL]),
      { sh with foreground_pid := 0 }, .resumed)

/-- `ctrl_z_handler` (shell.cpp 293-302); the result of `kill` is not looked at. -/
def ctrl_z_handler (sh : Shell) : List Event × Shell × HandlerExit :=
  if sh.foreground_pid = 0 then ([], sh, .unwound)
  else
    ([Event.out [], .out (job_line sh.job_number sh.foreground_pid),
        .kill (sh.foreground_pid : Int) .SIGSTOP],
      { sh with job_number := size_add sh.job_number 1,
                background_pids := insert sh.foreground_pid sh.background_pids,
                foreground_pid := 0 },
      .resumed)

/-- `child_signal_handler` (shell.cpp 304-311).  `returns` are the values the
successive calls of `waitpid (-1, &status, WNOHANG)` give; a call made after
the list is used up fails with -1. -/
def child_signal_handler : List Int → Shell → Shell
  | [], sh => sh
  | pid :: returns, sh =>
    if pid > 0 then
      child_signal_handler returns
        { sh with background_pids := sh.background_pids.erase pid.toNat }
    else sh

/-! ## The read-eval loop -/

/-- The signals for which `setup_signal_handlers` installs a handler. -/
inductive TrappedSignal where
  | SIGINT
  | SIGTSTP
  | SIGCHLD
  deriving DecidableEq, Repr

/-- What `main` does that can be observed, in order. -/
inductive MainEvent where
  /-- A call of `sigaction (sig, ...)`. -/
  | sigaction (sig : TrappedSignal)
  /-- The line `perror ("sigaction <sig>")` prints. -/
  | perror_sigaction (sig : TrappedSignal)
  /-- A call of `readline` with the prompt; the text of the prompt is not
  modelled. -/
  | readline
  /-- Something `execute_pipeline` does, or a line `main` prints. -/
  | shell (e : Event)
  deriving DecidableEq, Repr

/-- The installation of one handler in `setup_signal_handlers`. -/
def install_handler (sigaction_ok : TrappedSignal → Bool) (sig : TrappedSignal) :
    List MainEvent :=
  if sigaction_ok sig then [.sigaction sig] else [.sigaction sig, .perror_sigaction sig]

/-- `setup_signal_handlers` (shell.cpp 680-702); `sigaction_ok sig` tells
whether `sigaction` succeeds for `sig`. -/
def setup_signal_handlers (sigaction_ok : TrappedSignal → Bool) : List MainEvent :=
  install_handler sigaction_ok .SIGINT ++ install_handler sigaction_ok .SIGTSTP
    ++ install_handler sigaction_ok .SIGCHLD

/-- The `while (true)` loop of `main` (shell.cpp 719-751) when no signal
arrives: `inputs` are the lines `readline` returns before the end of input.
The result is the trace and the exit status of the process. -/
def main_loop (env : Env) : List Str → Shell → List MainEvent × Nat
  | [], _ => ([.readline, .shell (.out "exit".toList)], 0)
  | input :: inputs, sh =>
    if delim_remove input = [] then
      (.readline :: (main_loop env inputs sh).1, (main_loop env inputs sh).2)
    else if parse_pipeline (delim_remove input) ≠ [] then
      match (execute_pipeline env sh (parse_pipeline (delim_remove input))).outcome with
      | .shell_exit status =>
        (.readline ::
            (execute_pipeline env sh (parse_pipeline (delim_remove input))).events.map
              MainEvent.shell,
          status)
      | .returned =>
        (.readline ::
            ((execute_pipeline env sh (parse_pipeline (delim_remove input))).events.map
                MainEvent.shell
              ++ (main_loop env inputs
                    (execute_pipeline env sh (parse_pipeline (delim_remove input))).sh).1),
          (main_loop env inputs
            (execute_pipeline env sh (parse_pipeline (delim_remove input))).sh).2)
    else (.readline :: (main_loop env inputs sh).1, (main_loop env inputs sh).2)

/-- `main` (shell.cpp 714-759): the handlers are installed, then the loop
runs from the initial state. -/
def main (sigaction_ok : TrappedSignal → Bool) (env : Env) (inputs : List Str) :
    List MainEvent × Nat :=
  (setup_signal_handlers sigaction_ok ++ (main_loop env inputs Shell.initial).1,
    (main_loop env inputs Shell.initial).2)

/-! ## The lock-holder tool (delep.cpp) -/

/-- One entry of the directory `/proc/<pid>/fd`, with what the tool reads
about it. -/
structure FdEntry where
  /-- The name `d_name` of the entry. -/
  name : Str
  /-- What `safe_readlink` returns for the entry: empty when `readlink` fails. -/
  link : Str
  /-- The lines of `/proc/<pid>/fdinfo/<name>`; `none` when the file cannot
  be opened. -/
  fdinfo : Option (List Str)
  deriving DecidableEq, Repr

/-- One entry of the directory `/proc`. -/
structure ProcEntry where
  /-- The name `d_name` of the entry. -/
  name : Str
  /-- The test `d_type == DT_DIR`. -/
  is_dir : Bool
  /-- The entries `readdir` gives for `/proc/<name>/fd`, in order; `none`
  when `opendir` fails. -/
  fds : Option (List FdEntry)
  deriving DecidableEq, Repr

/-- `check_file_lock` (delep.cpp 22-38), on the content of the `fdinfo` file:
some line starts with `lock:`. -/
def check_file_lock (fdinfo : Option (List Str)) : Bool :=
  match fdinfo with
  | none => false
  | some lines => lines.any (fun line => decide (line.take 5 = "lock:".toList))

/-- `is_valid_pid` (delep.cpp 41-49). -/
def is_valid_pid (pid_str : Str) : Bool :=
  if pid_str = [] then false else pid_str.all Char.isDigit

/-- The inner loop over the descriptors of one process (delep.cpp 108-135):
`none` when no descriptor resolves to the target, else whether the first one
that does has a lock. -/
def delep_scan_fds (target_path : Str) : List FdEntry → Option Bool
  | [] => none
  | fd_entry :: rest =>
    if fd_entry.name = ".".toList ∨ fd_entry.name = "..".toList then
      delep_scan_fds target_path rest
    else if fd_entry.link = [] then delep_scan_fds target_path rest
    else if fd_entry.link = target_path then some (check_file_lock fd_entry.fdinfo)
    else delep_scan_fds target_path rest

/-- The loop over the entries of `/proc` (delep.cpp 85-137), with the two
vectors `lock_pids` and `nolock_pids` it fills. -/
def delep_scan (target_path : Str) : List ProcEntry → List Str → List Str → List Str × List Str
  | [], lock_pids, nolock_pids => (lock_pids, nolock_pids)
  | entry :: rest, lock_pids, nolock_pids =>
    if entry.is_dir = false ∨ entry.name = ".".toList ∨ entry.name = "..".toList then
      delep_scan target_path rest lock_pids nolock_pids
    else if is_valid_pid entry.name = false then
      delep_scan target_path rest lock_pids nolock_pids
    else
      match entry.fds with
      | none => delep_scan target_path rest lock_pids nolock_pids
      | some fd_entries =>
        match delep_scan_fds target_path fd_entries with
        | none => delep_scan target_path rest lock_pids nolock_pids
        | some true => delep_scan target_path rest (lock_pids ++ [entry.name]) nolock_pids
        | some false => delep_scan target_path rest lock_pids (nolock_pids ++ [entry.name])

/-- The result string (delep.cpp 141-148). -/
def delep_result (lock_pids nolock_pids : List Str) : Str :=
  lock_pids.flatMap (fun pid => "Lock:".toList ++ pid ++ [','])
    ++ nolock_pids.flatMap (fun pid => "NoLock:".toList ++ pid ++ [','])

/-- `delep` (delep.cpp 51-156): the text written to the descriptor `fd`.
`proc` is what `opendir ("/proc")` and `readdir` give, or the text of
`strerror (errno)` when `opendir` fails; `argpath` is never `NULL` when the
shell calls the tool. -/
def delep (proc : Except Str (List ProcEntry)) (argpath : Str) : Str :=
  if argpath = [] then "Error: Empty path argument".toList
  else
    match proc with
    | .error msg => "Error: Cannot access /proc directory: ".toList ++ msg
    | .ok entries =>
      delep_result (delep_scan argpath entries [] []).1 (delep_scan argpath entries [] []).2

/-! ## The process inspector (squashbug.cpp) -/

/-- The fields of one `/proc/<pid>/status` file: `map<string, string>`. -/
abbrev statusMap := List (Str × Str)

/-- The process table read at construction, `map<int, statusMap>`: the
entries in the order of iteration, which is the order of the pids. -/
abbrev pid_Map := List (Int × statusMap)

/-- `squashbug::get_process_field` (squashbug.cpp 130-143). -/
def get_process_field (pidMap : pid_Map) (pid : Int) (field : Str) : Str :=
  match pidMap.lookup pid with
  | none => []
  | some status =>
    match status.lookup field with
    | none => []
    | some value => value

/-- The body of the loop of `countChildren` (squashbug.cpp 112-126) for one
entry of the table: `below` is the recursive call, `count` the counter so
far, `none` once a recursive call has not returned. -/
def count_entry (pid : Int) (below : Int → Option Int) (count : Option Int)
    (entry : Int × statusMap) : Option Int :=
  match count with
  | none => none
  | some count =>
    match entry.2.lookup "PPid".toList with
    | none => some count
    | some ppid =>
      match stoi ppid with
      | none => some count
      | some parent_pid =>
        if parent_pid = pid then
          match below entry.1 with
          | none => none
          | some children => some (count + 1 + children)
        else some count

/-- `squashbug::countChildren` (squashbug.cpp 109-128).  The recursion of
the source has no bound; here `fuel` bounds its depth and `none` means that
the bound was reached.  The `int` counter is not taken modulo `2^32`: it
counts entries of the table, each at most once when the recursion ends. -/
def countChildren (pidMap : pid_Map) : Nat → Int → Option Int
  | 0, _ => none
  | fuel + 1, pid => pidMap.foldl (count_entry pid (countChildren pidMap fuel)) (some 0)

/-- The list `candidate_pids` of `suggest_malicious_process`
(squashbug.cpp 199-222): the target, its parent and its grandparent. -/
def candidate_pids (pidMap : pid_Map) (sbpid : Int) : List Int :=
  if get_process_field pidMap sbpid "PPid".toList = [] then [sbpid]
  else
    match stoi (get_process_field pidMap sbpid "PPid".toList) with
    | none => [sbpid]
    | some parent_pid =>
      if parent_pid > 0 then
        if get_process_field pidMap parent_pid "PPid".toList = [] then [sbpid, parent_pid]
        else
          match stoi (get_process_field pidMap parent_pid "PPid".toList) with
          | none => [sbpid, parent_pid]
          | some grandparent_pid =>
            if grandparent_pid > 0 then [sbpid, parent_pid, grandparent_pid]
            else [sbpid, parent_pid]
      else [sbpid]

/-- The set `same_name_pids` (squashbug.cpp 225-233), in increasing order. -/
def same_name_pids (pidMap : pid_Map) (sbpid : Int) : List Int :=
  (candidate_pids pidMap sbpid).foldl
    (fun s pid =>
      if get_process_field pidMap pid "Name".toList = get_process_field pidMap sbpid "Name".toList
      then set_insert pid s else s)
    []

/-- The test `!state.empty () && state[0] == 'S'` on the `State` of `pid`. -/
def is_sleeping (pidMap : pid_Map) (pid : Int) : Bool :=
  decide (get_process_field pidMap pid "State".toList ≠ [])
    && ((get_process_field pidMap pid "State".toList).head? == some 'S')

/-- The loop that looks for the candidate with the most descendants
(squashbug.cpp 247-253); `acc` is `(best_candidate, max_children)`. -/
def most_children (pidMap : pid_Map) (fuel : Nat) : List Int → Int × Int → Option (Int × Int)
  | [], acc => some acc
  | pid :: rest, acc =>
    match countChildren pidMap fuel pid with
    | none => none
    | some children =>
      if children > acc.2 then most_children pidMap fuel rest (pid, children)
      else most_children pidMap fuel rest acc

/-- `squashbug::suggest_malicious_process` (squashbug.cpp 197-256); `none`
when the recursion of `countChildren` does not end within `fuel`. -/
def suggest_malicious_process (pidMap : pid_Map) (fuel : Nat) (sbpid : Int) : Option Int :=
  match (same_name_pids pidMap sbpid).find? (is_sleeping pidMap) with
  | some pid => some pid
  | none =>
    match most_children pidMap fuel (same_name_pids pidMap sbpid) (0, -1) with
    | none => none
    | some acc => some (if acc.1 > 0 then acc.1 else sbpid)

/-! ## Notions used to state the properties -/

/-- The test `arg == "<"` or `arg == ">"`. -/
def is_operator (t : Str) : Bool := decide (t = ['<']) || decide (t = ['>'])

/-- Reading the tokens of a segment from the left, where `<` and `>` take
the token after them as their operand: the operator token that is followed by
no further token, if there is one. -/
def dangling_operator : List Str → Option Str
  | [] => none
  | t :: rest =>
    if is_operator t then
      match rest with
      | [] => some t
      | _ :: rest1 => dangling_operator rest1
    else dangling_operator rest

/-- The message for an operator left without operand. -/
def missing_operand (op : Str) : ParseError :=
  if op = ['<'] then .expected_input_file else .expected_output_file

/-- A call of `fork`, successful or not. -/
def Event.is_fork_call : Event → Bool
  | .fork _ _ _ _ _ => true
  | .fork_failed _ => true
  | _ => false

/-- A call of `pipe` for one of the pipes that connect the segments. -/
def Event.is_pipe_call : Event → Bool
  | .pipe _ _ _ => true
  | .pipe_failed _ => true
  | _ => false

/-- A call of `waitpid`. -/
def Event.is_wait : Event → Bool
  | .waitpid _ => true
  | _ => false

/-- An effect of a built-in: `chdir`, or the `write` of `pwd`. -/
def Event.is_builtin_effect : Event → Bool
  | .chdir _ => true
  | .write _ _ => true
  | _ => false

/-- The descriptor refers to an end of some pipe. -/
def FdObj.is_pipe_end : FdObj → Bool
  | .pipe_read _ => true
  | .pipe_write _ => true
  | .comm_read _ => true
  | .comm_write _ => true
  | _ => false

/-- The names `handle_builtin_command` intercepts. -/
def is_builtin_name (name : Str) : Bool :=
  decide (name = "exit".toList) || decide (name = "cd".toList) || decide (name = "pwd".toList)

/-- A run of tokens that end in a backslash, each with the backslash
replaced by a space, followed by the ordinary token that closes it. -/
def join_run (run : List Str) (last : Str) : Str :=
  run.flatMap set_last_to_space ++ last

/-- The three job-control variables agree in two states. -/
def same_jobs (a b : Shell) : Prop :=
  a.job_number = b.job_number ∧ a.foreground_pid = b.foreground_pid
    ∧ a.background_pids = b.background_pids

/-- The file and the argument vector of the `execvp` made by the child of a
successful `fork`, if the child gets that far. -/
def Event.exec_call : Event → Option (Str × List Str)
  | .fork _ _ _ _ (.exec file argv _) => some (file, argv)
  | _ => none

/-- An environment like `Env.friendly` in which the pattern `l*` matches the
one file `ls`. -/
def Env.one_match : Env :=
  { Env.friendly with
    glob := fun p => if p = "l*".toList then .matched "ls".toList [] else .no_match }

/-- An event that is neither a call of `fork`, nor a call of `pipe` for the
pipeline, nor a `waitpid`, nor the effect of a built-in. -/
def Event.is_quiet : Event → Bool
  | .comm_pipe _ _ _ => true
  | .comm_pipe_failed _ => true
  | .opened _ _ => true
  | .open_failed _ => true
  | .close _ => true
  | .kill _ _ => true
  | .out _ => true
  | .err _ => true
  | .remove _ => true
  | _ => false

/-- A line on standard output. -/
def Event.is_out : Event → Bool
  | .out _ => true
  | _ => false

/-- The segment gets through `parse_arguments` and `handle_wildcards`. -/
def parses (env : Env) (segment : Str) : Prop :=
  ∃ c1 args, parse_arguments (Command.init segment) = .ok c1
    ∧ handle_wildcards env.glob c1.arguments = .ok args

/-- The step from `a` to `b` closes descriptors and does nothing else. -/
def closes_only (a b : Shell) : Prop :=
  same_jobs b a ∧ b.is_background = a.is_background ∧ b.clock = a.clock
    ∧ ∀ e ∈ b.fds, e ∈ a.fds

/-! ## Notions used to state the properties of job control -/

/-- The pid and the signal of a `kill` call. -/
def Event.signal_sent : Event → Option (Int × Signal)
  | .kill pid sig => some (pid, sig)
  | _ => none

/-- The text of a line written to standard output. -/
def Event.printed : Event → Option Str
  | .out line => some line
  | _ => none

/-- The pids the reap loop of `child_signal_handler` gets: the values
`waitpid` returns up to the first one that is not positive. -/
def reaped_pids (returns : List Int) : List Nat :=
  (returns.takeWhile (fun pid => decide (pid > 0))).map Int.toNat

/-- A line on standard output that starts with `[`: the announcement of a
job.  No other line the shell prints starts with that character. -/
def Event.is_announcement : Event → Bool
  | .out line => line.head? == some '['
  | _ => false

/-- The announcements `[n] pid` of the jobs `pids`, one after the other from
the counter `n` on, each using the counter and then raising it by one as
`job_number++` does; with them the value of the counter at the end. -/
def announce_all (n : Nat) : List Nat → List Event × Nat
  | [] => ([], n)
  | pid :: pids =>
    (.out (job_line n pid) :: (announce_all (size_add n 1) pids).1,
      (announce_all (size_add n 1) pids).2)

/-- Going from the state `a` to the state `b` with the trace `ev`, the
announcements made are those of some jobs numbered from the counter of `a`
on, and the counter of `b` is the counter after the last of them. -/
def announces (a : Shell) (ev : List Event) (b : Shell) : Prop :=
  ∃ pids, ev.filter Event.is_announcement = (announce_all a.job_number pids).1
    ∧ b.job_number = (announce_all a.job_number pids).2

/-- One thing that happens to the session: a call of `execute_pipeline`, or
the delivery of one of the three signals. -/
inductive Step where
  /-- `execute_pipeline (commands)`, the system answering as `env` says. -/
  | pipeline (env : Env) (commands : List Str)
  /-- `SIGINT`: `ctrl_c_handler` runs. -/
  | interrupt (kill_ok : Int → Signal → Bool)
  /-- `SIGTSTP`: `ctrl_z_handler` runs. -/
  | suspend
  /-- `SIGCHLD`: `child_signal_handler` runs. -/
  | child_exit (returns : List Int)

/-- What `main` prints after a handler unwound to its `sigsetjmp`
(shell.cpp 720-723): an empty line. -/
def after_handler (r : List Event × Shell × HandlerExit) : List Event × Shell × Bool :=
  match r with
  | (ev, sh, .resumed) => (ev, sh, true)
  | (ev, sh, .unwound) => (ev ++ [.out []], sh, true)

/-- The effect of one step: the trace, the new state, and whether the shell
is still running afterwards. -/
def Step.run : Step → Shell → List Event × Shell × Bool
  | .pipeline env commands, sh =>
    ((execute_pipeline env sh commands).events, (execute_pipeline env sh commands).sh,
      decide ((execute_pipeline env sh commands).outcome = .returned))
  | .interrupt kill_ok, sh => after_handler (ctrl_c_handler kill_ok sh)
  | .suspend, sh => after_handler (ctrl_z_handler sh)
  | .child_exit returns, sh => ([], child_signal_handler returns sh, true)

/-- The effect of a sequence of steps; the steps after the end of the shell
do not happen. -/
def run_steps : List Step → Shell → List Event × Shell × Bool
  | [], sh => ([], sh, true)
  | step :: steps, sh =>
    match step.run sh with
    | (ev, sh1, true) => (ev ++ (run_steps steps sh1).1, (run_steps steps sh1).2)
    | (ev, sh1, false) => (ev, sh1, false)

/-- An environment like `Env.friendly` in which every `fork` made as call
number `k` or later fails. -/
def Env.fork_fails_from (k : Nat) : Env :=
  { Env.friendly with fork := fun t => if t < k then some (100 + t) else none }

/-- The pid of the child of a successful `fork`. -/
def Event.forked_pid : Event → Option Nat
  | .fork _ pid _ _ _ => some pid
  | _ => none

/-- The diagnostic of a line written to standard error. -/
def Event.reported : Event → Option Diagnostic
  | .err d => some d
  | _ => none

/-! ## Notions used to state the properties of the two tools -/

/-- The file of a `remove` call. -/
def Event.removed : Event → Option Str
  | .remove file => some file
  | _ => none

/-- A call of `kill` or of `remove`. -/
def Event.is_kill_or_remove : Event → Bool
  | .kill _ _ => true
  | .remove _ => true
  | _ => false

/-- The two sets of pids `handle_delep_output` reads out of the text `data`
of the tool: those listed as `Lock` and those listed as `NoLock`. -/
def listed_pids (data : Str) : List Int × List Int :=
  ((delep_entries_loop (data.length + 1) data [] [] []).1,
    (delep_entries_loop (data.length + 1) data [] [] []).2.1)

/-- An environment like `Env.friendly` in which the tool writes `data` to the
side channel and the user gives the answer `response`. -/
def Env.answering (data : Str) (response : Option Str) : Env :=
  { Env.friendly with comm_data := fun _ => ([data], false), response := response }

/-- The descriptor entry is not `.` or `..` and its link resolves to the
path `target`. -/
def FdEntry.resolves_to (target : Str) (fd : FdEntry) : Bool :=
  decide (fd.name ≠ ".".toList) && decide (fd.name ≠ "..".toList) && decide (fd.link = target)

/-- The descriptors of a process the tool can see: none when the directory
`/proc/<pid>/fd` cannot be opened. -/
def ProcEntry.descriptors (e : ProcEntry) : List FdEntry :=
  match e.fds with
  | none => []
  | some fd_entries => fd_entries

/-- The entry of `/proc` is the directory of a process (its name is a
number), and one of its descriptors resolves to `target`. -/
def ProcEntry.holds (target : Str) (e : ProcEntry) : Bool :=
  e.is_dir && is_valid_pid e.name && e.descriptors.any (FdEntry.resolves_to target)

/-- The process has a lock on `target`: one of its descriptors that resolve
to `target` shows a lock in its `fdinfo`. -/
def ProcEntry.has_lock (target : Str) (e : ProcEntry) : Bool :=
  e.descriptors.any (fun fd => fd.resolves_to target && check_file_lock fd.fdinfo)

/-- The first descriptor of the process that resolves to `target` shows a
lock in its `fdinfo`. -/
def ProcEntry.first_has_lock (target : Str) (e : ProcEntry) : Bool :=
  match e.descriptors.find? (FdEntry.resolves_to target) with
  | some fd => check_file_lock fd.fdinfo
  | none => false

/-- A process table with two processes that have the file `/tmp/f` open:
100 opened it twice and holds a lock through its second descriptor, 200 has it
open without a lock. -/
def proc_locked_second : List ProcEntry :=
  [{ name := "100".toList, is_dir := true,
     fds := some [{ name := "0".toList, link := "/dev/pts/0".toList, fdinfo := some [] },
                  { name := "3".toList, link := "/tmp/f".toList,
                    fdinfo := some ["pos:\t0".toList, "flags:\t0100002".toList] },
                  { name := "4".toList, link := "/tmp/f".toList,
                    fdinfo := some ["pos:\t0".toList, "flags:\t0100002".toList,
                      "lock:\t1: FLOCK  ADVISORY  WRITE 100 08:01:131 0 EOF".toList] }] },
   { name := "200".toList, is_dir := true,
     fds := some [{ name := "3".toList, link := "/tmp/f".toList,
                    fdinfo := some ["pos:\t0".toList, "flags:\t0100000".toList] }] }]

/-- A process table in which every process has the name `bash`: 20 is the
target, 10 its parent, 1 its grandparent, and 30 and 31 are two more
children of 10; 10 is running, the others are stopped or zombies. -/
def table_bash : pid_Map :=
  [(1, [("Name".toList, "bash".toList), ("State".toList, "T (stopped)".toList),
        ("PPid".toList, "0".toList)]),
   (10, [("Name".toList, "bash".toList), ("State".toList, "R (running)".toList),
         ("PPid".toList, "1".toList)]),
   (20, [("Name".toList, "bash".toList), ("State".toList, "T (stopped)".toList),
         ("PPid".toList, "10".toList)]),
   (30, [("Name".toList, "bash".toList), ("State".toList, "Z (zombie)".toList),
         ("PPid".toList, "10".toList)]),
   (31, [("Name".toList, "bash".toList), ("State".toList, "Z (zombie)".toList),
         ("PPid".toList, "10".toList)])]

/-- A height for the processes of `table_bash`: every process is below its
parent. -/
def height_bash (pid : Int) : Nat :=
  if pid = 0 then 4 else if pid = 1 then 3 else if pid = 10 then 2 else 1

/-! ## Notions used to state the last properties -/

/-- For the child of a successful `fork`: the index of its segment, the two
descriptors its `Command` names as input and output, and what becomes of it. -/
def Event.child_outcome : Event → Option (Nat × Int × Int × ChildResult)
  | .fork i _ _ c child => some (i, c.input_fd, c.output_fd, child)
  | _ => none

/-- The line `Pipeline execution error: ...` of the `catch` block. -/
def Event.is_pipeline_error : Event → Bool
  | .err (.pipeline _) => true
  | _ => false

/-- A call that makes or closes a descriptor of the shell: `pipe`, `open`
or `close`. -/
def Event.is_descriptor_call : Event → Bool
  | .pipe _ _ _ => true
  | .comm_pipe _ _ _ => true
  | .opened _ _ => true
  | .close _ => true
  | _ => false

/-- The number a string of decimal digits stands for. -/
def decimal (s : Str) : Nat := s.foldl (fun a d => 10 * a + (d.toNat - 48)) 0

/-- A decimal pid string within the range of `int`: not empty, digits only,
at most `2147483647`. -/
def is_decimal_pid (s : Str) : Bool :=
  decide (s ≠ []) && s.all Char.isDigit && decide (decimal s ≤ 2147483647)

/-- The set of the numbers of the pid strings `pids`, as a `std::set<int>`
holds it: in increasing order, each once. -/
def pid_set (pids : List Str) : List Int :=
  pids.foldl (fun s pid => set_insert (Int.ofNat (decimal pid)) s) []

/-! ## Notions used to state where a pipeline stops -/

/-- The part a token plays in a segment. -/
inductive Role where
  /-- The token `<` or `>`, when it is not itself the operand of an operator. -/
  | operator
  /-- The token right after an operator: its file name, whatever it looks like. -/
  | operand
  /-- A token that ends in a backslash and is not an operand. -/
  | continued
  /-- Any other token. -/
  | ordinary
  deriving DecidableEq, Repr

/-- The roles of the tokens of a segment, read from the left. -/
def roles : List Str → List Role
  | [] => []
  | t :: rest =>
    if is_operator t then
      match rest with
      | [] => [.operator]
      | _ :: rest1 => .operator :: .operand :: roles rest1
    else if ends_in_backslash t then .continued :: roles rest
    else .ordinary :: roles rest

/-- A run of `continued` tokens is left unfinished: the last `continued`
token is not directly followed by an ordinary token. -/
def unfinished_run : List Role → Bool
  | [] => false
  | .continued :: rest =>
    if Role.continued ∈ rest then unfinished_run rest else rest.head? != some .ordinary
  | _ :: rest => unfinished_run rest

/-! ## Notions used to state the suggestion of the process inspector -/

/-- The parent of a process as its `PPid` field names it, when that is a
positive number. -/
def parent_pid (pidMap : pid_Map) (pid : Int) : Option Int :=
  match stoi (get_process_field pidMap pid "PPid".toList) with
  | some parent => if parent > 0 then some parent else none
  | none => none

/-- The ancestor chain of a process: the process, its parent, the parent of
its parent and so on, cut after `n` members. -/
def ancestor_chain (pidMap : pid_Map) : Nat → Int → List Int
  | 0, _ => []
  | n + 1, pid =>
    pid :: (match parent_pid pidMap pid with
      | none => []
      | some parent => ancestor_chain pidMap n parent)

/-- Like `table_bash`, but the parent 10 of the target 20 is sleeping. -/
def table_sleeping : pid_Map :=
  [(1, [("Name".toList, "bash".toList), ("State".toList, "T (stopped)".toList),
        ("PPid".toList, "0".toList)]),
   (10, [("Name".toList, "bash".toList), ("State".toList, "S (sleeping)".toList),
         ("PPid".toList, "1".toList)]),
   (20, [("Name".toList, "bash".toList), ("State".toList, "T (stopped)".toList),
         ("PPid".toList, "10".toList)]),
   (30, [("Name".toList, "bash".toList), ("State".toList, "Z (zombie)".toList),
         ("PPid".toList, "10".toList)]),
   (31, [("Name".toList, "bash".toList), ("State".toList, "Z (zombie)".toList),
         ("PPid".toList, "10".toList)])]

/-- A chain of four processes named `bash`: 4 is the child of 3, 3 of 2 and 2
of 1; only 1 is sleeping. -/
def table_chain : pid_Map :=
  [(1, [("Name".toList, "bash".toList), ("State".toList, "S (sleeping)".toList),
        ("PPid".toList, "0".toList)]),
   (2, [("Name".toList, "bash".toList), ("State".toList, "R (running)".toList),
        ("PPid".toList, "1".toList)]),
   (3, [("Name".toList, "bash".toList), ("State".toList, "R (running)".toList),
        ("PPid".toList, "2".toList)]),
   (4, [("Name".toList, "bash".toList), ("State".toList, "R (running)".toList),
        ("PPid".toList, "3".toList)])]
/-! ## Theorems: the line splitter -/

theorem findIdx_reverse_of_dropWhile (p : Char → Bool) (s : Str)
    (h : s.dropWhile p ≠ []) :
    (s.dropWhile p).reverse.findIdx (fun c => !p c) = s.reverse.findIdx (fun c => !p c) := by
  have hs : s = s.takeWhile p ++ s.dropWhile p := (List.takeWhile_append_dropWhile p s).symm
  have hex : ∃ x ∈ (s.dropWhile p).reverse, (fun c => !p c) x = true := by
    refine ⟨(s.dropWhile p).head h, ?_, ?_⟩
    · simp
    · simp [List.head_dropWhile_not p s h]
  have hlt := List.findIdx_lt_length_of_exists hex
  rw [List.length_reverse] at hlt
  conv_rhs => rw [hs, List.reverse_append, List.findIdx_append]
  rw [List.length_reverse, if_pos hlt]

theorem delim_remove_eq_strip (s : Str) : delim_remove s = strip_blanks s := by
  unfold delim_remove find_first_not_of find_last_not_of strip_blanks substr
  by_cases h : s.dropWhile (in_set blanks) = []
  · have hall : ∀ x ∈ s, (fun c => !in_set blanks c) x = false := by
      intro x hx
      have := (List.dropWhile_eq_nil_iff.mp h) x hx
      simp [this]
    have hidx := List.findIdx_eq_length.mpr hall
    simp [hidx, h]
  · have hex : ∃ x ∈ s, (fun c => !in_set blanks c) x = true := by
      by_contra hc
      apply h
      rw [List.dropWhile_eq_nil_iff]
      intro x hx
      by_contra hx2
      exact hc ⟨x, hx, by simpa using hx2⟩
    have hlt := List.findIdx_lt_length_of_exists hex
    have hex2 : ∃ x ∈ s.reverse, (fun c => !in_set blanks c) x = true := by
      obtain ⟨x, hx, hp⟩ := hex
      exact ⟨x, by simpa using hx, hp⟩
    have hlt2 := List.findIdx_lt_length_of_exists hex2
    rw [List.length_reverse] at hlt2
    have hk := findIdx_reverse_of_dropWhile (in_set blanks) s h
    have hd : s.dropWhile (in_set blanks) = s.drop (s.findIdx (fun c => !in_set blanks c)) :=
      List.dropWhile_eq_drop_findIdx_not
    have hklt : (s.dropWhile (in_set blanks)).reverse.findIdx (fun c => !in_set blanks c)
        < (s.dropWhile (in_set blanks)).length := by
      have := @List.findIdx_lt_length_of_exists _ (fun c => !in_set blanks c)
        (s.dropWhile (in_set blanks)).reverse
        ⟨(s.dropWhile (in_set blanks)).head h, by simp, by
          simp [List.head_dropWhile_not (in_set blanks) s h]⟩
      simpa using this
    simp only [hlt, hlt2, if_true]
    rw [@List.dropWhile_eq_drop_findIdx_not _ ((s.dropWhile (in_set blanks)).reverse) _,
      List.drop_reverse, List.reverse_reverse, hk, ← hd]
    congr 1
    rw [hk] at hklt
    have hlen : (s.dropWhile (in_set blanks)).length
        = s.length - s.findIdx (fun c => !in_set blanks c) := by
      rw [hd, List.length_drop]
    omega

theorem pieces_unfold (d : Char) (s : Str) :
    pieces d s =
      if s.dropWhile (fun c => c != d) = [] then [s]
      else s.takeWhile (fun c => c != d) :: pieces d ((s.dropWhile (fun c => c != d)).drop 1) := by
  induction s with
  | nil => simp [pieces]
  | cons c cs ih =>
    by_cases hc : c = d
    · subst hc
      simp [pieces, List.dropWhile_cons, List.takeWhile_cons]
    · have hne : (c != d) = true := by simpa using hc
      simp only [pieces, hc, if_false, List.dropWhile_cons, List.takeWhile_cons, hne, if_true]
      rw [ih]
      by_cases hd : cs.dropWhile (fun c => c != d) = []
      · simp only [hd, if_true]
      · simp only [hd, if_false]

theorem delim_remove_nil : delim_remove [] = [] := by decide

theorem parse_pipeline_loop_nil (fuel : Nat) (acc : List Str) :
    parse_pipeline_loop fuel [] acc = acc := by
  cases fuel <;> simp [parse_pipeline_loop, getline]

theorem parse_pipeline_loop_eq (fuel : Nat) : ∀ (ss : Str) (acc : List Str),
    ss.length < fuel →
    parse_pipeline_loop fuel ss acc
      = acc ++ ((pieces '|' ss).map delim_remove).filter (fun s => decide (s ≠ [])) := by
  induction fuel with
  | zero => intro ss acc h; omega
  | succ fuel ih =>
    intro ss acc h
    cases ss with
    | nil => simp [parse_pipeline_loop_nil, pieces, delim_remove_nil]
    | cons c cs =>
      have hlen : (((c :: cs).dropWhile (fun c => c != '|')).drop 1).length < fuel := by
        have h1 := (List.dropWhile_sublist (fun c => c != '|') (l := c :: cs)).length_le
        simp only [List.length_drop]
        simp only [List.length_cons] at h h1
        omega
      rw [pieces_unfold]
      by_cases hd : (c :: cs).dropWhile (fun c => c != '|') = []
      · have htw : (c :: cs).takeWhile (fun c => c != '|') = c :: cs := by
          have := List.takeWhile_append_dropWhile (fun c => c != '|') (c :: cs)
          rw [hd, List.append_nil] at this
          exact this
        simp only [parse_pipeline_loop, getline, hd, htw, List.drop_nil, if_true,
          parse_pipeline_loop_nil]
        by_cases he : delim_remove (c :: cs) = []
        · simp [he]
        · simp [he]
      · simp only [parse_pipeline_loop, getline, hd, if_false]
        by_cases he : delim_remove ((c :: cs).takeWhile (fun c => c != '|')) = []
        · simp only [he, ne_eq, not_true_eq_false, if_false]
          rw [ih _ acc hlen]
          simp [he]
        · simp only [he, ne_eq, not_false_eq_true, if_true]
          rw [ih _ _ hlen]
          simp [he]

theorem parse_pipeline_eq_spec (line : Str) : parse_pipeline line = parse_pipeline_spec line := by
  unfold parse_pipeline parse_pipeline_spec
  rw [parse_pipeline_loop_eq _ _ _ (Nat.lt_succ_self _)]
  have : delim_remove = strip_blanks := funext delim_remove_eq_strip
  rw [this]
  simp

theorem getLast?_dropWhile_of_ne_nil (p : Char → Bool) (l : Str)
    (h : l.dropWhile p ≠ []) : (l.dropWhile p).getLast? = l.getLast? := by
  induction l with
  | nil => simp
  | cons c cs ih =>
    by_cases hc : p c = true
    · simp only [List.dropWhile_cons, hc, if_true] at h ⊢
      rw [ih h]
      cases cs with
      | nil => simp at h
      | cons x xs => simp [List.getLast?_cons_cons]
    · simp [List.dropWhile_cons, hc]

theorem strip_blanks_ends (s : Str) (c : Char) (hc : in_set blanks c = true) :
    (strip_blanks s).head? ≠ some c ∧ (strip_blanks s).getLast? ≠ some c := by
  unfold strip_blanks
  constructor
  · intro h
    rw [List.head?_reverse] at h
    by_cases hne : (s.dropWhile (in_set blanks)).reverse.dropWhile (in_set blanks) = []
    · rw [hne] at h
      simp at h
    · rw [getLast?_dropWhile_of_ne_nil _ _ hne, List.getLast?_reverse] at h
      have := List.head?_dropWhile_not (in_set blanks) s
      rw [h] at this
      simp [hc] at this
  · intro h
    rw [List.getLast?_reverse] at h
    have := List.head?_dropWhile_not (in_set blanks)
      ((s.dropWhile (in_set blanks)).reverse)
    rw [h] at this
    simp [hc] at this

/-- C1. On a line without a backslash `parse_pipeline` returns the pieces of the
line between the `|` characters, each stripped of leading and trailing spaces
and tabs, without the pieces that became empty, in order; no segment returned
is empty or starts or ends with a space or tab; and `a | b | c`, `a|b` and
`  a  ` give three, two and one segment. -/
theorem parse_pipeline_splits_on_bar (line : Str) (_h : '\\' ∉ line) :
    parse_pipeline line = parse_pipeline_spec line
    ∧ (∀ seg ∈ parse_pipeline line,
        seg ≠ [] ∧ seg.head? ≠ some ' ' ∧ seg.head? ≠ some '\t'
          ∧ seg.getLast? ≠ some ' ' ∧ seg.getLast? ≠ some '\t')
    ∧ parse_pipeline "a | b | c".toList = ["a".toList, "b".toList, "c".toList]
    ∧ parse_pipeline "a|b".toList = ["a".toList, "b".toList]
    ∧ parse_pipeline "  a  ".toList = ["a".toList] := by
  refine ⟨parse_pipeline_eq_spec line, ?_, by decide, by decide, by decide⟩
  intro seg hseg
  rw [parse_pipeline_eq_spec] at hseg
  unfold parse_pipeline_spec at hseg
  rw [List.mem_filter, List.mem_map] at hseg
  obtain ⟨⟨x, _, rfl⟩, hne⟩ := hseg
  refine ⟨by simpa using hne, ?_, ?_, ?_, ?_⟩
  · exact (strip_blanks_ends x ' ' (by decide)).1
  · exact (strip_blanks_ends x '\t' (by decide)).1
  · exact (strip_blanks_ends x ' ' (by decide)).2
  · exact (strip_blanks_ends x '\t' (by decide)).2

theorem parse_pipeline_splits_on_bar_witness :
    '\\' ∉ "ls -l | grep x || wc ".toList
    ∧ parse_pipeline "ls -l | grep x || wc ".toList
        = ["ls -l".toList, "grep x".toList, "wc".toList] := by
  refine ⟨by decide, ?_⟩
  rw [(parse_pipeline_splits_on_bar "ls -l | grep x || wc ".toList (by decide)).1]
  decide

/-! ## Theorems: redirection operators without operand -/

theorem dangling_operator_is_operator : ∀ (n : Nat) (toks : List Str) (op : Str),
    toks.length ≤ n → dangling_operator toks = some op → op = ['<'] ∨ op = ['>'] := by
  intro n
  induction n with
  | zero =>
    intro toks op hlen h
    have : toks = [] := List.length_eq_zero.mp (Nat.le_zero.mp hlen)
    subst this
    simp [dangling_operator] at h
  | succ n ih =>
    intro toks op hlen h
    match toks, hlen, h with
    | [], _, h => simp [dangling_operator] at h
    | [t], _, h =>
      by_cases ht : is_operator t = true
      · simp only [dangling_operator, ht, if_true, Option.some.injEq] at h
        subst h
        simpa [is_operator] using ht
      · simp [dangling_operator, ht] at h
    | t :: u :: rest, hlen, h =>
      by_cases ht : is_operator t = true
      · simp only [dangling_operator, ht, if_true] at h
        exact ih rest op (by simp only [List.length_cons] at hlen; omega) h
      · simp only [dangling_operator, ht] at h
        exact ih (u :: rest) op (by simp only [List.length_cons] at hlen ⊢; omega) h

theorem parse_arguments_loop_dangling : ∀ (n : Nat) (toks : List Str) (op : Str)
    (temp : Str) (backslash : Bool) (c : Command),
    toks.length ≤ n → dangling_operator toks = some op →
    parse_arguments_loop toks temp backslash c = .error (missing_operand op) := by
  intro n
  induction n with
  | zero =>
    intro toks op temp backslash c hlen h
    have : toks = [] := List.length_eq_zero.mp (Nat.le_zero.mp hlen)
    subst this
    simp [dangling_operator] at h
  | succ n ih =>
    intro toks op temp backslash c hlen h
    match toks, hlen, h with
    | [], _, h => simp [dangling_operator] at h
    | [t], _, h =>
      by_cases ht : is_operator t = true
      · simp only [dangling_operator, ht, if_true, Option.some.injEq] at h
        subst h
        rcases (by simpa [is_operator] using ht : t = ['<'] ∨ t = ['>']) with h1 | h1
        · subst h1; simp [parse_arguments_loop, missing_operand]
        · subst h1; simp [parse_arguments_loop, missing_operand]
      · simp [dangling_operator, ht] at h
    | t :: u :: rest, hlen, h =>
      have hrest : rest.length ≤ n := by simp only [List.length_cons] at hlen; omega
      have hurest : (u :: rest).length ≤ n := by simp only [List.length_cons] at hlen ⊢; omega
      by_cases ht : is_operator t = true
      · simp only [dangling_operator, ht, if_true] at h
        rcases (by simpa [is_operator] using ht : t = ['<'] ∨ t = ['>']) with h1 | h1
        · subst h1
          simp only [parse_arguments_loop, if_true]
          exact ih rest op _ _ _ hrest h
        · subst h1
          simp only [parse_arguments_loop, if_true]
          exact ih rest op _ _ _ hrest h
      · simp only [dangling_operator, ht] at h
        have hne : t ≠ ['<'] ∧ t ≠ ['>'] := by simpa [is_operator] using ht
        simp only [parse_arguments_loop, hne.1, hne.2, if_false]
        split
        · exact ih (u :: rest) op _ _ _ hurest h
        · split
          · exact ih (u :: rest) op _ _ _ hurest h
          · exact ih (u :: rest) op _ _ _ hurest h

theorem construct_of_parse_arguments_error (env : Env) (sh : Shell) (segment : Str)
    (e : ParseError) (h : parse_arguments (Command.init segment) = .error e) :
    Command.construct env sh segment
      = ([.err (.parsing e)], sh, .error (.failed_to_parse segment)) := by
  simp [Command.construct, parse_command, h]

/-- C2. When, reading the tokens of a segment from the left, a `<` or `>`
operator is followed by no further token, the constructor of `Command` fails:
it prints the parse error (expected input file for `<`, expected output file
for `>`), throws, opens no file, leaves the shell state as it was and
produces no `Command`. -/
theorem construct_fails_on_missing_operand (env : Env) (sh : Shell) (segment op : Str)
    (h : dangling_operator (tokens segment) = some op) :
    (op = ['<'] ∨ op = ['>'])
    ∧ parse_arguments (Command.init segment) = .error (missing_operand op)
    ∧ Command.construct env sh segment
        = ([.err (.parsing (missing_operand op))], sh, .error (.failed_to_parse segment)) := by
  have hp : parse_arguments (Command.init segment) = .error (missing_operand op) := by
    unfold parse_arguments
    rw [show (Command.init segment).command = segment from rfl,
      parse_arguments_loop_dangling _ _ op _ _ _ (Nat.le_refl _) h]
  exact ⟨dangling_operator_is_operator _ _ op (Nat.le_refl _) h, hp,
    construct_of_parse_arguments_error env sh segment _ hp⟩

theorem construct_fails_on_missing_operand_witness :
    dangling_operator (tokens "sort < in >".toList) = some ['>']
    ∧ Command.construct Env.friendly Shell.initial "sort < in >".toList
        = ([.err (.parsing .expected_output_file)], Shell.initial,
            .error (.failed_to_parse "sort < in >".toList)) := by
  refine ⟨by decide, ?_⟩
  exact (construct_fails_on_missing_operand Env.friendly Shell.initial "sort < in >".toList
    ['>'] (by decide)).2.2

/-! ## Theorems: tokens that end in a backslash -/

theorem ends_in_backslash_ne_nil (t : Str) (h : ends_in_backslash t = true) : t ≠ [] := by
  intro ht
  subst ht
  simp [ends_in_backslash] at h

theorem ends_in_backslash_not_operator (t : Str) (h : ends_in_backslash t = true) :
    t ≠ ['<'] ∧ t ≠ ['>'] := by
  constructor <;> intro ht <;> subst ht <;> simp [ends_in_backslash] at h

theorem not_operator_iff (t : Str) : is_operator t = false ↔ t ≠ ['<'] ∧ t ≠ ['>'] := by
  simp [is_operator]

theorem set_last_to_space_append (temp arg : Str) (h : arg ≠ []) :
    set_last_to_space (temp ++ arg) = temp ++ set_last_to_space arg := by
  simp [set_last_to_space, List.dropLast_append_of_ne_nil _ h]

theorem parse_arguments_loop_backslash_token (t : Str) (ss : List Str) (temp : Str)
    (backslash : Bool) (c : Command) (ht : ends_in_backslash t = true) :
    parse_arguments_loop (t :: ss) temp backslash c
      = parse_arguments_loop ss (set_last_to_space (temp ++ t)) true c := by
  have hno := ends_in_backslash_not_operator t ht
  cases ss <;> simp [parse_arguments_loop, hno.1, hno.2, ht]

theorem parse_arguments_loop_ordinary_joined (t : Str) (ss : List Str) (temp : Str)
    (c : Command) (h1 : is_operator t = false) (h2 : ends_in_backslash t = false) :
    parse_arguments_loop (t :: ss) temp true c
      = parse_arguments_loop ss [] false { c with arguments := c.arguments ++ [temp ++ t] } := by
  have hno := (not_operator_iff t).mp h1
  cases ss <;> simp [parse_arguments_loop, hno.1, hno.2, h2]

theorem parse_arguments_loop_ordinary_alone (t : Str) (ss : List Str) (temp : Str)
    (c : Command) (h1 : is_operator t = false) (h2 : ends_in_backslash t = false) :
    parse_arguments_loop (t :: ss) temp false c
      = parse_arguments_loop ss temp false { c with arguments := c.arguments ++ [t] } := by
  have hno := (not_operator_iff t).mp h1
  cases ss <;> simp [parse_arguments_loop, hno.1, hno.2, h2]

theorem parse_arguments_loop_run (o : Str) (post : List Str)
    (ho1 : is_operator o = false) (ho2 : ends_in_backslash o = false) :
    ∀ (run : List Str) (temp : Str) (c : Command),
      (∀ t ∈ run, ends_in_backslash t = true) →
      parse_arguments_loop (run ++ o :: post) temp true c
        = parse_arguments_loop post [] false
            { c with arguments := c.arguments ++ [temp ++ join_run run o] } := by
  have hne := (not_operator_iff o).mp ho1
  intro run
  induction run with
  | nil =>
    intro temp c _
    rw [List.nil_append, parse_arguments_loop_ordinary_joined o post temp c ho1 ho2]
    simp [join_run]
  | cons t run ih =>
    intro temp c hrun
    have ht : ends_in_backslash t = true := hrun t (List.mem_cons_self _ _)
    rw [List.cons_append, parse_arguments_loop_backslash_token t _ temp true c ht]
    rw [ih _ c (fun u hu => hrun u (List.mem_cons_of_mem _ hu)),
      set_last_to_space_append temp t (ends_in_backslash_ne_nil t ht)]
    simp [join_run, List.append_assoc]

theorem parse_arguments_loop_operator_alone (t : Str) (temp : Str) (backslash : Bool)
    (c : Command) (h : is_operator t = true) :
    parse_arguments_loop [t] temp backslash c = .error (missing_operand t) := by
  simp only [is_operator, Bool.or_eq_true, decide_eq_true_eq] at h
  rcases h with h | h <;> subst h <;> simp [parse_arguments_loop, missing_operand]

theorem parse_arguments_loop_operator (t file : Str) (rest : List Str) (temp : Str)
    (backslash : Bool) (c : Command) (h : is_operator t = true) :
    parse_arguments_loop (t :: file :: rest) temp backslash c
      = parse_arguments_loop rest temp false
          (if t = ['<'] then { c with input_file := file } else { c with output_file := file }) := by
  simp only [is_operator, Bool.or_eq_true, decide_eq_true_eq] at h
  rcases h with h | h <;> subst h <;> simp [parse_arguments_loop]

/-- The arguments the loop adds do not depend on the arguments that were
there before, and neither does its failure. -/
theorem parse_arguments_loop_arguments : ∀ (n : Nat) (toks : List Str) (temp : Str)
    (backslash : Bool) (c d : Command) (args : List Str),
    toks.length ≤ n → c.arguments = args ++ d.arguments →
    (parse_arguments_loop toks temp backslash c).map Command.arguments
      = (parse_arguments_loop toks temp backslash d).map (fun r => args ++ r.arguments) := by
  intro n
  induction n with
  | zero =>
    intro toks temp backslash c d args hlen hargs
    have : toks = [] := List.length_eq_zero.mp (Nat.le_zero.mp hlen)
    subst this
    simp [parse_arguments_loop, Except.map, hargs]
  | succ n ih =>
    intro toks temp backslash c d args hlen hargs
    cases toks with
    | nil => simp [parse_arguments_loop, Except.map, hargs]
    | cons t rest =>
      have hrest : rest.length ≤ n := by simp only [List.length_cons] at hlen; omega
      by_cases hop : is_operator t = true
      · cases rest with
        | nil =>
          rw [parse_arguments_loop_operator_alone t temp backslash c hop,
            parse_arguments_loop_operator_alone t temp backslash d hop]
          rfl
        | cons file rest1 =>
          have hrest1 : rest1.length ≤ n := by simp only [List.length_cons] at hrest; omega
          rw [parse_arguments_loop_operator t file rest1 temp backslash c hop,
            parse_arguments_loop_operator t file rest1 temp backslash d hop]
          apply ih rest1 temp false _ _ args hrest1
          split <;> exact hargs
      · have hop1 : is_operator t = false := by simpa using hop
        by_cases hb : ends_in_backslash t = true
        · rw [parse_arguments_loop_backslash_token t rest temp backslash c hb,
            parse_arguments_loop_backslash_token t rest temp backslash d hb]
          exact ih rest _ true c d args hrest hargs
        · have hb1 : ends_in_backslash t = false := by simpa using hb
          cases backslash with
          | true =>
            rw [parse_arguments_loop_ordinary_joined t rest temp c hop1 hb1,
              parse_arguments_loop_ordinary_joined t rest temp d hop1 hb1]
            apply ih rest [] false _ _ args hrest
            simp only [hargs, List.append_assoc]
          | false =>
            rw [parse_arguments_loop_ordinary_alone t rest temp c hop1 hb1,
              parse_arguments_loop_ordinary_alone t rest temp d hop1 hb1]
            apply ih rest temp false _ _ args hrest
            simp only [hargs, List.append_assoc]

theorem roles_operator (t file : Str) (rest : List Str) (h : is_operator t = true) :
    roles (t :: file :: rest) = .operator :: .operand :: roles rest := by
  simp [roles, h]

theorem roles_operator_alone (t : Str) (h : is_operator t = true) :
    roles [t] = [.operator] := by
  simp [roles, h]

theorem roles_continued (t : Str) (rest : List Str) (h : ends_in_backslash t = true) :
    roles (t :: rest) = .continued :: roles rest := by
  have hno := ends_in_backslash_not_operator t h
  cases rest <;> simp [roles, is_operator, hno.1, hno.2, h]

theorem roles_ordinary (t : Str) (rest : List Str) (h1 : is_operator t = false)
    (h2 : ends_in_backslash t = false) :
    roles (t :: rest) = .ordinary :: roles rest := by
  cases rest <;> simp [roles, h1, h2]

theorem getLast?_cons_ne (a : Role) (l : List Role)
    (h : (a :: l).getLast? ≠ some .operator) : l.getLast? ≠ some .operator := by
  cases l with
  | nil => simp
  | cons b bs => rwa [List.getLast?_cons_cons] at h

/-- The scan of a prefix of the tokens that does not end in an operator left
without operand.  The two locals `temp` and `backslash` start with text in
`temp` whenever `backslash` is set; they end so, and `temp` ends empty when
no run is left unfinished. -/
theorem parse_arguments_loop_prefix : ∀ (n : Nat) (pre : List Str) (temp : Str)
    (backslash : Bool) (c : Command),
    pre.length ≤ n → (roles pre).getLast? ≠ some .operator →
    (backslash = true → temp ≠ []) →
    ∃ (c1 : Command) (temp1 : Str) (backslash1 : Bool),
      (backslash1 = true → temp1 ≠ [])
      ∧ (∀ rest, parse_arguments_loop (pre ++ rest) temp backslash c
          = parse_arguments_loop rest temp1 backslash1 c1)
      ∧ ((if Role.continued ∈ roles pre then unfinished_run (roles pre) = false
          else if backslash = true then (roles pre).head? = some .ordinary
          else temp = []) → temp1 = []) := by
  intro n
  induction n with
  | zero =>
    intro pre temp backslash c hlen _ hinv
    have : pre = [] := List.length_eq_zero.mp (Nat.le_zero.mp hlen)
    subst this
    refine ⟨c, temp, backslash, hinv, fun rest => rfl, ?_⟩
    intro h
    cases backslash with
    | true => simp [roles] at h
    | false => simpa [roles] using h
  | succ n ih =>
    intro pre temp backslash c hlen hlast hinv
    cases pre with
    | nil =>
      refine ⟨c, temp, backslash, hinv, fun rest => rfl, ?_⟩
      intro h
      cases backslash with
      | true => simp [roles] at h
      | false => simpa [roles] using h
    | cons t rest0 =>
      have hrest0 : rest0.length ≤ n := by simp only [List.length_cons] at hlen; omega
      by_cases hop : is_operator t = true
      · cases rest0 with
        | nil =>
          rw [roles_operator_alone t hop] at hlast
          exact absurd rfl hlast
        | cons file rest1 =>
          have hrest1 : rest1.length ≤ n := by simp only [List.length_cons] at hrest0; omega
          rw [roles_operator t file rest1 hop] at hlast ⊢
          have hlast1 := getLast?_cons_ne _ _ (getLast?_cons_ne _ _ hlast)
          obtain ⟨c1, temp1, b1, h1, h2, h3⟩ := ih rest1 temp false
            (if t = ['<'] then { c with input_file := file } else { c with output_file := file })
            hrest1 hlast1 (fun hf => absurd hf (by simp))
          refine ⟨c1, temp1, b1, h1, ?_, ?_⟩
          · intro rest
            rw [List.cons_append, List.cons_append,
              parse_arguments_loop_operator t file _ temp backslash c hop]
            exact h2 rest
          · intro h
            apply h3
            by_cases hc : Role.continued ∈ roles rest1
            · rw [if_pos hc]
              have hc2 : Role.continued ∈ Role.operator :: Role.operand :: roles rest1 := by
                simp [hc]
              rw [if_pos hc2] at h
              simpa [unfinished_run] using h
            · rw [if_neg hc]
              have hc2 : Role.continued ∉ Role.operator :: Role.operand :: roles rest1 := by
                simp [hc]
              rw [if_neg hc2] at h
              cases backslash with
              | true => simp at h
              | false => simpa using h
      · have hop1 : is_operator t = false := by simpa using hop
        by_cases hb : ends_in_backslash t = true
        · rw [roles_continued t rest0 hb] at hlast ⊢
          have hlast1 := getLast?_cons_ne _ _ hlast
          obtain ⟨c1, temp1, b1, h1, h2, h3⟩ := ih rest0 (set_last_to_space (temp ++ t)) true c
            hrest0 hlast1 (fun _ => by simp [set_last_to_space])
          refine ⟨c1, temp1, b1, h1, ?_, ?_⟩
          · intro rest
            rw [List.cons_append, parse_arguments_loop_backslash_token t _ temp backslash c hb]
            exact h2 rest
          · intro h
            apply h3
            rw [if_pos (List.mem_cons_self _ _)] at h
            by_cases hc : Role.continued ∈ roles rest0
            · rw [if_pos hc]
              simpa [unfinished_run, hc] using h
            · rw [if_neg hc]
              simpa [unfinished_run, hc] using h
        · have hb1 : ends_in_backslash t = false := by simpa using hb
          rw [roles_ordinary t rest0 hop1 hb1] at hlast ⊢
          have hlast1 := getLast?_cons_ne _ _ hlast
          have hmem : Role.continued ∈ Role.ordinary :: roles rest0
              ↔ Role.continued ∈ roles rest0 := by simp
          cases backslash with
          | true =>
            obtain ⟨c1, temp1, b1, h1, h2, h3⟩ := ih rest0 [] false
              { c with arguments := c.arguments ++ [temp ++ t] } hrest0 hlast1
              (fun hf => absurd hf (by simp))
            refine ⟨c1, temp1, b1, h1, ?_, ?_⟩
            · intro rest
              rw [List.cons_append, parse_arguments_loop_ordinary_joined t _ temp c hop1 hb1]
              exact h2 rest
            · intro h
              apply h3
              by_cases hc : Role.continued ∈ roles rest0
              · rw [if_pos hc]
                rw [if_pos (hmem.mpr hc)] at h
                simpa [unfinished_run] using h
              · rw [if_neg hc]
                simp
          | false =>
            obtain ⟨c1, temp1, b1, h1, h2, h3⟩ := ih rest0 temp false
              { c with arguments := c.arguments ++ [t] } hrest0 hlast1
              (fun hf => absurd hf (by simp))
            refine ⟨c1, temp1, b1, h1, ?_, ?_⟩
            · intro rest
              rw [List.cons_append, parse_arguments_loop_ordinary_alone t _ temp c hop1 hb1]
              exact h2 rest
            · intro h
              apply h3
              by_cases hc : Role.continued ∈ roles rest0
              · rw [if_pos hc]
                rw [if_pos (hmem.mpr hc)] at h
                simpa [unfinished_run] using h
              · rw [if_neg hc]
                rw [if_neg (fun hx => hc (hmem.mp hx))] at h
                simpa using h


/-- C4, as the code has it.  Read the tokens of a segment from the left, with
`<` and `>` taking the next token as their operand.  Take a run of tokens
that end in a backslash, none of them an operand, followed by an ordinary
token, and such that no run before it is left unfinished: the last token
before it that ends in a backslash and is not an operand, if there is one, is
directly followed by an ordinary token.  The run makes exactly one argument:
its tokens, each with its last character replaced by a space, followed by the
ordinary token.  That argument comes right after the arguments made by the
tokens before the run and right before those made by the tokens after the
ordinary token, and the parse fails only if the scan of those later tokens
fails. -/
theorem backslash_run_makes_one_argument (segment : Str) (pre run post : List Str) (o : Str)
    (htok : tokens segment = pre ++ run ++ o :: post)
    (hpre1 : (roles pre).getLast? ≠ some .operator)
    (hpre2 : unfinished_run (roles pre) = false)
    (hrun : run ≠ [])
    (hrun2 : ∀ t ∈ run, ends_in_backslash t = true)
    (ho1 : is_operator o = false) (ho2 : ends_in_backslash o = false) :
    ∃ cpre : Command,
      parse_arguments_loop pre [] false (Command.init segment) = .ok cpre
      ∧ parse_arguments (Command.init segment)
        = (match parse_arguments_loop post [] false
              { cpre with arguments := cpre.arguments ++ [join_run run o] } with
          | .error e => .error e
          | .ok c => .ok { c with command := (cpre.arguments ++ [join_run run o]).headD [] })
      ∧ (parse_arguments (Command.init segment)).map Command.arguments
        = (parse_arguments_loop post [] false (Command.init segment)).map
            (fun c => cpre.arguments ++ [join_run run o] ++ c.arguments) := by
  obtain ⟨cpre, temp1, b1, h1, h2, h3⟩ :=
    parse_arguments_loop_prefix _ pre [] false (Command.init segment) (Nat.le_refl _) hpre1
      (fun hf => absurd hf (by simp))
  have htemp : temp1 = [] := by
    apply h3
    by_cases hc : Role.continued ∈ roles pre
    · rw [if_pos hc]
      exact hpre2
    · rw [if_neg hc]
      simp
  subst htemp
  have hb1 : b1 = false := by
    cases b1 with
    | false => rfl
    | true => exact absurd rfl (h1 rfl)
  subst hb1
  have hpre : parse_arguments_loop pre [] false (Command.init segment) = .ok cpre := by
    have := h2 []
    simpa [parse_arguments_loop] using this
  have hloop : parse_arguments_loop (tokens segment) [] false (Command.init segment)
      = parse_arguments_loop post [] false
          { cpre with arguments := cpre.arguments ++ [join_run run o] } := by
    rw [htok, List.append_assoc, h2]
    cases run with
    | nil => exact absurd rfl hrun
    | cons t run1 =>
      have ht : ends_in_backslash t = true := hrun2 t (List.mem_cons_self _ _)
      rw [List.cons_append, parse_arguments_loop_backslash_token t _ [] false _ ht,
        parse_arguments_loop_run o post ho1 ho2 run1 _ _
          (fun u hu => hrun2 u (List.mem_cons_of_mem _ hu))]
      simp [join_run, set_last_to_space]
  have hargs := parse_arguments_loop_arguments _ post [] false
    { cpre with arguments := cpre.arguments ++ [join_run run o] } (Command.init segment)
    (cpre.arguments ++ [join_run run o]) (Nat.le_refl _) (by simp [Command.init])
  refine ⟨cpre, hpre, ?_⟩
  unfold parse_arguments
  rw [show (Command.init segment).command = segment from rfl, hloop]
  cases hpost : parse_arguments_loop post [] false
      { cpre with arguments := cpre.arguments ++ [join_run run o] } with
  | error e =>
    rw [hpost] at hargs
    exact ⟨rfl, hargs⟩
  | ok c1 =>
    rw [hpost] at hargs
    cases hq : parse_arguments_loop post [] false (Command.init segment) with
    | error e =>
      rw [hq] at hargs
      simp [Except.map] at hargs
    | ok r =>
      rw [hq] at hargs
      simp only [Except.map, Except.ok.injEq] at hargs
      cases hA : c1.arguments with
      | nil =>
        rw [hA] at hargs
        simp at hargs
      | cons a0 rest =>
        rw [hA] at hargs
        have ha0 : a0 = (cpre.arguments ++ [join_run run o]).headD [] := by
          cases hB : cpre.arguments with
          | nil =>
            rw [hB] at hargs
            simp only [List.nil_append, List.cons_append, List.cons.injEq] at hargs
            rw [hargs.1]
            rfl
          | cons b bs =>
            rw [hB] at hargs
            simp only [List.cons_append, List.cons.injEq] at hargs
            rw [hargs.1]
            rfl
        simp only [hA]
        refine ⟨by rw [ha0], ?_⟩
        simp only [Except.map]
        rw [hargs]

theorem backslash_run_makes_one_argument_witness :
    tokens "grep x < in my\\ big\\ file.txt y".toList
      = ["grep".toList, "x".toList, "<".toList, "in".toList] ++ ["my\\".toList, "big\\".toList]
          ++ "file.txt".toList :: ["y".toList]
    ∧ roles ["grep".toList, "x".toList, "<".toList, "in".toList]
      = [.ordinary, .ordinary, .operator, .operand]
    ∧ join_run ["my\\".toList, "big\\".toList] "file.txt".toList = "my big file.txt".toList
    ∧ (parse_arguments (Command.init "grep x < in my\\ big\\ file.txt y".toList)).map
        (fun c => (c.arguments, c.input_file))
      = .ok (["grep".toList, "x".toList, "my big file.txt".toList, "y".toList], "in".toList)
    ∧ ∃ cpre : Command,
      parse_arguments_loop ["grep".toList, "x".toList, "<".toList, "in".toList] [] false
          (Command.init "grep x < in my\\ big\\ file.txt y".toList)
        = .ok cpre
      ∧ parse_arguments (Command.init "grep x < in my\\ big\\ file.txt y".toList)
        = (match parse_arguments_loop ["y".toList] [] false
              { cpre with arguments := cpre.arguments
                  ++ [join_run ["my\\".toList, "big\\".toList] "file.txt".toList] } with
          | .error e => .error e
          | .ok c => .ok { c with command := (cpre.arguments
              ++ [join_run ["my\\".toList, "big\\".toList] "file.txt".toList]).headD [] })
      ∧ (parse_arguments (Command.init "grep x < in my\\ big\\ file.txt y".toList)).map
          Command.arguments
        = (parse_arguments_loop ["y".toList] [] false
            (Command.init "grep x < in my\\ big\\ file.txt y".toList)).map
            (fun c => cpre.arguments
              ++ [join_run ["my\\".toList, "big\\".toList] "file.txt".toList] ++ c.arguments) :=
  ⟨by decide, by decide, by decide, by rfl,
    backslash_run_makes_one_argument "grep x < in my\\ big\\ file.txt y".toList
      ["grep".toList, "x".toList, "<".toList, "in".toList]
      ["my\\".toList, "big\\".toList] ["y".toList] "file.txt".toList (by decide) (by decide)
      (by decide) (by decide) (by decide) (by decide) (by decide)⟩

/-- C4 fails as stated.  In `a < b\ c` the token `b\` is followed by the
ordinary token `c`, yet `<` takes `b\` as its file and `c` is an argument of
its own.  In `a\ < in b\ c` the run `b\` followed by `c` gives the argument
`a b c`, not `b c`: the text gathered before the `<` is still in `temp`. -/
theorem backslash_run_after_operator_differs :
    (parse_arguments (Command.init "a < b\\ c".toList)).toOption.map
        (fun c => (c.arguments, c.input_file))
      = some (["a".toList, "c".toList], "b\\".toList)
    ∧ join_run ["b\\".toList] "c".toList = "b c".toList
    ∧ (parse_arguments (Command.init "a\\ < in b\\ c".toList)).toOption.map
        (fun c => c.arguments)
      = some ["a b c".toList] := by
  refine ⟨by decide, by decide, by decide⟩

/-! ## Theorems: filename patterns -/

theorem handle_wildcards_loop_eq (glob : Str → GlobResult) :
    ∀ (args temp_args : List Str),
      handle_wildcards_loop glob args temp_args
        = (match args.find? (glob_fails glob) with
          | some bad => .error (.glob_error bad)
          | none => .ok (temp_args ++ args.flatMap (expand_argument glob))) := by
  intro args
  induction args with
  | nil => intro temp_args; simp [handle_wildcards_loop]
  | cons a args ih =>
    intro temp_args
    by_cases hw : has_wildcard a = true
    · cases hg : glob a with
      | matched p ps =>
        simp [handle_wildcards_loop, hw, hg, ih, glob_fails, expand_argument, List.find?_cons]
      | no_match =>
        simp [handle_wildcards_loop, hw, hg, ih, glob_fails, expand_argument, List.find?_cons]
      | failed =>
        simp [handle_wildcards_loop, hw, hg, glob_fails, List.find?_cons]
    · simp [handle_wildcards_loop, hw, ih, glob_fails, expand_argument, List.find?_cons]

theorem expand_argument_of_plain (glob : Str → GlobResult) (a : Str)
    (h : has_wildcard a = false) : expand_argument glob a = [a] := by
  simp [expand_argument, h]

theorem plain_sublist_flatMap (glob : Str → GlobResult) (args : List Str) :
    (args.filter (fun a => !has_wildcard a)).Sublist (args.flatMap (expand_argument glob)) := by
  induction args with
  | nil => simp
  | cons a args ih =>
    by_cases hw : has_wildcard a = true
    · simp only [List.filter_cons, hw, Bool.not_true, List.flatMap_cons]
      exact List.Sublist.trans ih (List.sublist_append_right _ _)
    · have hw1 : has_wildcard a = false := by simpa using hw
      simp only [List.filter_cons, hw1, Bool.not_false, if_true, List.flatMap_cons,
        expand_argument_of_plain glob a hw1, List.singleton_append]
      exact List.Sublist.cons₂ a ih

/-- C5. With `glob` an oracle, `handle_wildcards` is the in-place expansion of
the arguments: an argument without `*` and `?` is kept, one with a wildcard is
replaced by the matches the oracle gives or kept when the oracle reports no
match, and the first argument for which the oracle reports another error
makes the parse fail.  The arguments without wildcard keep their relative
order, and a list without any wildcard is returned unchanged. -/
theorem handle_wildcards_expands_in_place (glob : Str → GlobResult) (arguments : List Str) :
    handle_wildcards glob arguments = handle_wildcards_spec glob arguments
    ∧ (∀ result, handle_wildcards glob arguments = .ok result →
        result = arguments.flatMap (expand_argument glob)
        ∧ (arguments.filter (fun a => !has_wildcard a)).Sublist result)
    ∧ (∀ pre a post, arguments = pre ++ a :: post → has_wildcard a = true →
        glob a = .failed → ∃ bad, handle_wildcards glob arguments = .error (.glob_error bad))
    ∧ ((∀ a ∈ arguments, has_wildcard a = false) →
        handle_wildcards glob arguments = .ok arguments) := by
  have heq : handle_wildcards glob arguments = handle_wildcards_spec glob arguments := by
    unfold handle_wildcards handle_wildcards_spec
    rw [handle_wildcards_loop_eq]
    simp
  refine ⟨heq, ?_, ?_, ?_⟩
  · intro result h
    rw [heq] at h
    unfold handle_wildcards_spec at h
    cases hf : arguments.find? (glob_fails glob) with
    | some bad => rw [hf] at h; simp at h
    | none =>
      rw [hf] at h
      simp only [Except.ok.injEq] at h
      subst h
      exact ⟨rfl, plain_sublist_flatMap glob arguments⟩
  · intro pre a post harg hw hg
    rw [heq]
    unfold handle_wildcards_spec
    cases hf : arguments.find? (glob_fails glob) with
    | some bad => exact ⟨bad, rfl⟩
    | none =>
      rw [List.find?_eq_none] at hf
      have := hf a (by rw [harg]; simp)
      simp [glob_fails, hw, hg] at this
  · intro hplain
    rw [heq]
    unfold handle_wildcards_spec
    have hnone : arguments.find? (glob_fails glob) = none := by
      rw [List.find?_eq_none]
      intro a ha
      simp [glob_fails, hplain a ha]
    rw [hnone]
    simp only [Except.ok.injEq]
    clear heq hnone
    induction arguments with
    | nil => rfl
    | cons a args ih =>
      rw [List.flatMap_cons, expand_argument_of_plain glob a (hplain a (List.mem_cons_self _ _)),
        ih (fun b hb => hplain b (List.mem_cons_of_mem _ hb))]
      rfl

/-! ## Lemmas on the pipeline orchestrator -/

theorem same_jobs_refl (a : Shell) : same_jobs a a := ⟨rfl, rfl, rfl⟩

theorem same_jobs_trans {a b c : Shell} (h1 : same_jobs a b) (h2 : same_jobs b c) :
    same_jobs a c :=
  ⟨h1.1.trans h2.1, h1.2.1.trans h2.2.1, h1.2.2.trans h2.2.2⟩

theorem sys_pipe_same_jobs (env : Env) (sh : Shell) (rd wr : FdObj) :
    same_jobs (sys_pipe env sh rd wr).2 sh
    ∧ (sys_pipe env sh rd wr).2.is_background = sh.is_background := by
  unfold sys_pipe
  split <;> exact ⟨⟨rfl, rfl, rfl⟩, rfl⟩

theorem sys_open_same_jobs (env : Env) (sh : Shell) (file : Str) (obj : FdObj) :
    same_jobs (sys_open env sh file obj).2 sh
    ∧ (sys_open env sh file obj).2.is_background = sh.is_background := by
  unfold sys_open
  split <;> exact ⟨⟨rfl, rfl, rfl⟩, rfl⟩

theorem sys_close_same_jobs (sh : Shell) (fd : Int) :
    same_jobs (sys_close sh fd) sh ∧ (sys_close sh fd).is_background = sh.is_background :=
  ⟨⟨rfl, rfl, rfl⟩, rfl⟩

theorem foldl_sys_close_same_jobs (fds : List Int) : ∀ (sh : Shell),
    same_jobs (fds.foldl sys_close sh) sh := by
  induction fds with
  | nil => intro sh; exact same_jobs_refl sh
  | cons fd fds ih =>
    intro sh
    exact same_jobs_trans (ih (sys_close sh fd)) (sys_close_same_jobs sh fd).1

theorem create_pipes_same_jobs (env : Env) : ∀ (n k : Nat) (sh : Shell) (pipe_fds : List Int),
    same_jobs (create_pipes env n k sh pipe_fds).2.1 sh := by
  intro n
  induction n with
  | zero => intro k sh pipe_fds; exact same_jobs_refl sh
  | succ n ih =>
    intro k sh pipe_fds
    have hs := (sys_pipe_same_jobs env sh (.pipe_read k) (.pipe_write k)).1
    unfold create_pipes
    rcases hp : sys_pipe env sh (.pipe_read k) (.pipe_write k) with ⟨r, sh1⟩
    rw [hp] at hs
    cases r with
    | none => exact hs
    | some p =>
      obtain ⟨rd, wr⟩ := p
      exact same_jobs_trans (ih (k + 1) sh1 (pipe_fds ++ [rd, wr])) hs

theorem create_pipes_events (env : Env) : ∀ (n k : Nat) (sh : Shell) (pipe_fds : List Int),
    ∀ e ∈ (create_pipes env n k sh pipe_fds).1, e.is_pipe_call = true := by
  intro n
  induction n with
  | zero => intro k sh pipe_fds e he; simp [create_pipes] at he
  | succ n ih =>
    intro k sh pipe_fds e he
    unfold create_pipes at he
    rcases hp : sys_pipe env sh (.pipe_read k) (.pipe_write k) with ⟨r, sh1⟩
    rw [hp] at he
    cases r with
    | none =>
      simp only [List.mem_singleton] at he
      subst he
      rfl
    | some p =>
      obtain ⟨rd, wr⟩ := p
      simp only [List.mem_cons] at he
      rcases he with he | he
      · subst he; rfl
      · exact ih _ _ _ e he

theorem pipe_call_not_fork_call (e : Event) (h : e.is_pipe_call = true) :
    e.is_fork_call = false := by
  cases e <;> simp [Event.is_pipe_call] at h <;> rfl

theorem catch_block_same_jobs (f : Failure) (pipe_fds : List Int) (child_pids : List Nat)
    (sh : Shell) : same_jobs (catch_block f pipe_fds child_pids sh).2 sh :=
  foldl_sys_close_same_jobs pipe_fds sh

theorem catch_block_no_fork (f : Failure) (pipe_fds : List Int) (child_pids : List Nat)
    (sh : Shell) : ∀ e ∈ (catch_block f pipe_fds child_pids sh).1, e.is_fork_call = false := by
  intro e he
  simp only [catch_block, List.mem_append, List.mem_singleton, List.mem_map] at he
  rcases he with (he | ⟨fd, _, he⟩) | ⟨pid, _, he⟩ <;> subst he <;> rfl

theorem run_segment_of_construct_error (env : Env) (n : Nat) (pipe_fds : List Int) (i : Nat)
    (segment : Str) (sh : Shell) (child_pids : List Nat) (ev : List Event) (sh1 : Shell)
    (f : Failure) (h : Command.construct env sh segment = (ev, sh1, .error f)) :
    run_segment env n pipe_fds i segment sh child_pids = (ev, sh1, child_pids, .thrown f) := by
  unfold run_segment
  rw [h]

theorem run_segments_of_not_next (env : Env) (n : Nat) (pipe_fds : List Int) (i : Nat)
    (segment : Str) (rest : List Str) (sh : Shell) (child_pids : List Nat)
    (r : List Event × Shell × List Nat × Flow)
    (h : run_segment env n pipe_fds i segment sh child_pids = r) (hne : r.2.2.2 ≠ .next) :
    run_segments env n pipe_fds (segment :: rest) i sh child_pids = r := by
  unfold run_segments
  rw [h]
  obtain ⟨ev, sh1, pids1, flow⟩ := r
  cases flow with
  | next => exact absurd rfl hne
  | returned => rfl
  | exited => rfl
  | thrown f => rfl

theorem run_segments_of_next (env : Env) (n : Nat) (pipe_fds : List Int) (i : Nat)
    (segment : Str) (rest : List Str) (sh : Shell) (child_pids : List Nat)
    (ev : List Event) (sh1 : Shell) (pids1 : List Nat)
    (h : run_segment env n pipe_fds i segment sh child_pids = (ev, sh1, pids1, .next)) :
    run_segments env n pipe_fds (segment :: rest) i sh child_pids
      = (ev ++ (run_segments env n pipe_fds rest (i + 1) sh1 pids1).1,
          (run_segments env n pipe_fds rest (i + 1) sh1 pids1).2) := by
  conv_lhs => unfold run_segments
  rw [h]

theorem execute_pipeline_of_pipe_failure (env : Env) (sh : Shell) (commands : List Str)
    (ev0 : List Event) (sh0 : Shell) (pipe_fds : List Int)
    (h : create_pipes env (size_sub commands.length 1) 0 sh [] = (ev0, sh0, pipe_fds, false)) :
    execute_pipeline env sh commands
      = { events := ev0 ++ (catch_block .pipe_creation pipe_fds [] sh0).1,
          sh := (catch_block .pipe_creation pipe_fds [] sh0).2, outcome := .returned } := by
  unfold execute_pipeline
  rw [h]

theorem execute_pipeline_of_thrown (env : Env) (sh : Shell) (commands : List Str)
    (ev0 : List Event) (sh0 : Shell) (pipe_fds : List Int)
    (h : create_pipes env (size_sub commands.length 1) 0 sh [] = (ev0, sh0, pipe_fds, true))
    (ev1 : List Event) (sh1 : Shell) (child_pids : List Nat) (f : Failure)
    (hr : run_segments env commands.length pipe_fds commands 0 sh0 []
      = (ev1, sh1, child_pids, .thrown f)) :
    execute_pipeline env sh commands
      = { events := ev0 ++ ev1 ++ (catch_block f pipe_fds child_pids sh1).1,
          sh := (catch_block f pipe_fds child_pids sh1).2, outcome := .returned } := by
  unfold execute_pipeline
  rw [h]
  simp only []
  rw [hr]

theorem execute_pipeline_of_next (env : Env) (sh : Shell) (commands : List Str)
    (ev0 : List Event) (sh0 : Shell) (pipe_fds : List Int)
    (h : create_pipes env (size_sub commands.length 1) 0 sh [] = (ev0, sh0, pipe_fds, true))
    (ev1 : List Event) (sh1 : Shell) (child_pids : List Nat)
    (hr : run_segments env commands.length pipe_fds commands 0 sh0 []
      = (ev1, sh1, child_pids, .next)) :
    execute_pipeline env sh commands
      = { events := ev0 ++ ev1
            ++ (if !sh1.is_background then child_pids.map Event.waitpid else []),
          sh := { sh1 with foreground_pid := 0 }, outcome := .returned } := by
  unfold execute_pipeline
  rw [h]
  simp only []
  rw [hr]

theorem execute_pipeline_of_returned (env : Env) (sh : Shell) (commands : List Str)
    (ev0 : List Event) (sh0 : Shell) (pipe_fds : List Int)
    (h : create_pipes env (size_sub commands.length 1) 0 sh [] = (ev0, sh0, pipe_fds, true))
    (ev1 : List Event) (sh1 : Shell) (child_pids : List Nat)
    (hr : run_segments env commands.length pipe_fds commands 0 sh0 []
      = (ev1, sh1, child_pids, .returned)) :
    execute_pipeline env sh commands
      = { events := ev0 ++ ev1, sh := sh1, outcome := .returned } := by
  unfold execute_pipeline
  rw [h]
  simp only []
  rw [hr]

theorem execute_pipeline_of_exited (env : Env) (sh : Shell) (commands : List Str)
    (ev0 : List Event) (sh0 : Shell) (pipe_fds : List Int)
    (h : create_pipes env (size_sub commands.length 1) 0 sh [] = (ev0, sh0, pipe_fds, true))
    (ev1 : List Event) (sh1 : Shell) (child_pids : List Nat)
    (hr : run_segments env commands.length pipe_fds commands 0 sh0 []
      = (ev1, sh1, child_pids, .exited)) :
    execute_pipeline env sh commands
      = { events := ev0 ++ ev1, sh := sh1, outcome := .shell_exit 0 } := by
  unfold execute_pipeline
  rw [h]
  simp only []
  rw [hr]


theorem create_pipes_failure (env : Env) : ∀ (n k : Nat) (sh : Shell) (pipe_fds : List Int),
    (create_pipes env n k sh pipe_fds).2.2.2 = false →
    n ≠ 0 ∧ ∃ t, env.pipe_ok t = false := by
  intro n
  induction n with
  | zero => intro k sh pipe_fds h; simp [create_pipes] at h
  | succ n ih =>
    intro k sh pipe_fds h
    refine ⟨Nat.succ_ne_zero n, ?_⟩
    unfold create_pipes at h
    by_cases hok : env.pipe_ok sh.clock = true
    · simp only [sys_pipe, hok, if_true] at h
      exact (ih _ _ _ h).2
    · exact ⟨sh.clock, by simpa using hok⟩

/-! ## Lemmas: `size_t` indices -/

theorem size_sub_one (n : Nat) (h1 : 1 ≤ n) (h2 : n < SIZE_MOD) : size_sub n 1 = n - 1 := by
  unfold size_sub
  unfold SIZE_MOD at *
  split <;> omega

theorem input_index (i : Nat) (h1 : 1 ≤ i) (h2 : i < 2 ^ 63) :
    size_mul (size_sub i 1) 2 = 2 * (i - 1) := by
  unfold size_mul size_sub
  unfold SIZE_MOD
  split <;> omega

theorem output_index (i : Nat) (h2 : i < 2 ^ 63) : size_add (size_mul i 2) 1 = 2 * i + 1 := by
  unfold size_add size_mul
  unfold SIZE_MOD
  omega

theorem wire_segment_fds (n : Nat) (pipe_fds : List Int) (i : Nat) (own : Command)
    (hi : i < n) (hn : n < 2 ^ 63) :
    (wire_segment n pipe_fds i own).input_fd
        = (if 0 < i then pipe_fds.getD (2 * (i - 1)) (-1) else own.input_fd)
    ∧ (wire_segment n pipe_fds i own).output_fd
        = (if i + 1 < n then pipe_fds.getD (2 * i + 1) (-1) else own.output_fd)
    ∧ (wire_segment n pipe_fds i own).command = own.command
    ∧ (wire_segment n pipe_fds i own).arguments = own.arguments := by
  have hn1 : size_sub n 1 = n - 1 := size_sub_one n (by omega) (by unfold SIZE_MOD; omega)
  have hout := output_index i (by omega)
  unfold wire_segment
  simp only [hn1, hout]
  by_cases h0 : 0 < i
  · have hin := input_index i h0 (by omega)
    by_cases h1 : i < n - 1
    · have h1b : i + 1 < n := by omega
      simp [h0, h1, h1b, hin]
    · have h1b : ¬ (i + 1 < n) := by omega
      simp [h0, h1, h1b, hin]
  · by_cases h1 : i < n - 1
    · have h1b : i + 1 < n := by omega
      simp [h0, h1, h1b]
    · have h1b : ¬ (i + 1 < n) := by omega
      simp [h0, h1, h1b]

/-! ## Lemmas: the events and the state of each step -/

theorem quiet_not_fork_call (e : Event) (h : e.is_quiet = true) : e.is_fork_call = false := by
  cases e <;> simp [Event.is_quiet] at h <;> rfl

theorem quiet_not_pipe_call (e : Event) (h : e.is_quiet = true) : e.is_pipe_call = false := by
  cases e <;> simp [Event.is_quiet] at h <;> rfl

theorem quiet_not_wait (e : Event) (h : e.is_quiet = true) : e.is_wait = false := by
  cases e <;> simp [Event.is_quiet] at h <;> rfl

theorem quiet_not_builtin_effect (e : Event) (h : e.is_quiet = true) :
    e.is_builtin_effect = false := by
  cases e <;> simp [Event.is_quiet] at h <;> rfl

theorem quiet_not_fork (e : Event) (h : e.is_quiet = true) (i pid : Nat) (own c : Command)
    (ch : ChildResult) : e ≠ .fork i pid own c ch := by
  intro he
  subst he
  simp [Event.is_quiet] at h

theorem parse_arguments_loop_fds : ∀ (n : Nat) (toks : List Str) (temp : Str)
    (backslash : Bool) (c c1 : Command),
    toks.length ≤ n → parse_arguments_loop toks temp backslash c = .ok c1 →
    c1.input_fd = c.input_fd ∧ c1.output_fd = c.output_fd := by
  intro n
  induction n with
  | zero =>
    intro toks temp backslash c c1 hlen h
    have : toks = [] := List.length_eq_zero.mp (Nat.le_zero.mp hlen)
    subst this
    simp only [parse_arguments_loop, Except.ok.injEq] at h
    subst h
    exact ⟨rfl, rfl⟩
  | succ n ih =>
    intro toks temp backslash c c1 hlen h
    match toks, hlen, h with
    | [], _, h =>
      simp only [parse_arguments_loop, Except.ok.injEq] at h
      subst h
      exact ⟨rfl, rfl⟩
    | [t], _, h =>
      have h0 := fun temp backslash c => ih [] temp backslash c c1 (by simp)
      simp only [parse_arguments_loop] at h
      split at h
      · simp at h
      · split at h
        · simp at h
        · split at h
          · simp only [Except.ok.injEq] at h; subst h; exact ⟨rfl, rfl⟩
          · split at h <;> (simp only [Except.ok.injEq] at h; subst h; exact ⟨rfl, rfl⟩)
    | t :: u :: rest, hlen, h =>
      have hrest : rest.length ≤ n := by simp only [List.length_cons] at hlen; omega
      have hurest : (u :: rest).length ≤ n := by simp only [List.length_cons] at hlen ⊢; omega
      simp only [parse_arguments_loop] at h
      split at h
      · have hx := ih rest _ _ _ c1 hrest h
        exact hx
      · split at h
        · have hx := ih rest _ _ _ c1 hrest h
          exact hx
        · split at h
          · have hx := ih (u :: rest) _ _ _ c1 hurest h
            exact hx
          · split at h
            · have hx := ih (u :: rest) _ _ _ c1 hurest h
              exact hx
            · have hx := ih (u :: rest) _ _ _ c1 hurest h
              exact hx

theorem parse_arguments_fds (segment : Str) (c1 : Command)
    (h : parse_arguments (Command.init segment) = .ok c1) :
    c1.input_fd = 0 ∧ c1.output_fd = 1 := by
  unfold parse_arguments at h
  cases hl : parse_arguments_loop (tokens (Command.init segment).command) [] false
      (Command.init segment) with
  | error e => rw [hl] at h; simp at h
  | ok c2 =>
    rw [hl] at h
    have hf := parse_arguments_loop_fds _ _ _ _ _ c2 (Nat.le_refl _) hl
    simp only at h
    split at h
    · simp at h
    · simp only [Except.ok.injEq] at h
      subst h
      exact ⟨hf.1, hf.2⟩

theorem sys_open_fds (env : Env) (sh : Shell) (file : Str) (obj : FdObj) :
    ∀ e ∈ (sys_open env sh file obj).2.fds, e ∈ sh.fds ∨ e.2 = obj := by
  intro e he
  unfold sys_open at he
  split at he
  · simp only [fd_alloc, List.mem_append, List.mem_singleton] at he
    rcases he with he | he
    · exact Or.inl he
    · exact Or.inr (by rw [he])
  · exact Or.inl he

/-- The facts about `setup_io_redirection` the later proofs use. -/
theorem setup_io_redirection_props (env : Env) (sh : Shell) (c : Command) :
    (∀ e ∈ (setup_io_redirection env sh c).1, e.is_quiet = true)
    ∧ same_jobs (setup_io_redirection env sh c).2.1 sh
    ∧ (setup_io_redirection env sh c).2.1.is_background = sh.is_background
    ∧ (∀ e ∈ (setup_io_redirection env sh c).2.1.fds, e ∈ sh.fds ∨ e.2.is_pipe_end = false)
    ∧ (∀ c1, (setup_io_redirection env sh c).2.2 = .ok c1 →
        c1.command = c.command ∧ c1.arguments = c.arguments
        ∧ c1.input_file = c.input_file ∧ c1.output_file = c.output_file
        ∧ (c.input_file = [] → c1.input_fd = c.input_fd)
        ∧ (c.output_file = [] → c1.output_fd = c.output_fd)) := by
  have ho1 := sys_open_same_jobs env sh c.input_file (.file_in c.input_file)
  have hf1 := sys_open_fds env sh c.input_file (.file_in c.input_file)
  unfold setup_io_redirection
  by_cases hin : c.input_file = []
  · simp only [hin, ne_eq, not_true_eq_false, if_false]
    have ho2 := sys_open_same_jobs env sh c.output_file (.file_out c.output_file)
    have hf2 := sys_open_fds env sh c.output_file (.file_out c.output_file)
    by_cases hout : c.output_file = []
    · simp only [hout, ne_eq, not_true_eq_false, if_false]
      refine ⟨by simp, same_jobs_refl sh, by simp, fun e he => Or.inl he, ?_⟩
      intro c1 h1
      simp only [Except.ok.injEq] at h1
      subst h1
      simp [hin, hout]
    · simp only [hout, ne_eq, not_false_eq_true, if_true]
      rcases hs : sys_open env sh c.output_file (.file_out c.output_file) with ⟨r, sh2⟩
      rw [hs] at ho2 hf2
      cases r with
      | none =>
        refine ⟨by simp [Event.is_quiet], ho2.1, ho2.2, ?_, by simp⟩
        intro e he
        rcases hf2 e he with h | h
        · exact Or.inl h
        · exact Or.inr (by rw [h]; rfl)
      | some fd =>
        refine ⟨by simp [Event.is_quiet], ho2.1, ho2.2, ?_, ?_⟩
        · intro e he
          rcases hf2 e he with h | h
          · exact Or.inl h
          · exact Or.inr (by rw [h]; rfl)
        · intro c1 h1
          simp only [Except.ok.injEq] at h1
          subst h1
          simp [hin, hout]
  · simp only [hin, ne_eq, not_false_eq_true, if_true]
    rcases hs : sys_open env sh c.input_file (.file_in c.input_file) with ⟨r, sh1⟩
    rw [hs] at ho1 hf1
    cases r with
    | none =>
      refine ⟨by simp [Event.is_quiet], ho1.1, ho1.2, ?_, by simp⟩
      intro e he
      rcases hf1 e he with h | h
      · exact Or.inl h
      · exact Or.inr (by rw [h]; rfl)
    | some fd =>
      simp only []
      have ho2 := sys_open_same_jobs env sh1 c.output_file (.file_out c.output_file)
      have hf2 := sys_open_fds env sh1 c.output_file (.file_out c.output_file)
      have hfds1 : ∀ e ∈ sh1.fds, e ∈ sh.fds ∨ e.2.is_pipe_end = false := by
        intro e he
        rcases hf1 e he with h | h
        · exact Or.inl h
        · exact Or.inr (by rw [h]; rfl)
      by_cases hout : c.output_file = []
      · simp only [hout, ne_eq, not_true_eq_false, if_false]
        refine ⟨by simp [Event.is_quiet], ho1.1, ho1.2, hfds1, ?_⟩
        intro c1 h1
        simp only [Except.ok.injEq] at h1
        subst h1
        simp [hin, hout]
      · simp only [hout, ne_eq, not_false_eq_true, if_true]
        rcases hs2 : sys_open env sh1 c.output_file (.file_out c.output_file) with ⟨r2, sh2⟩
        rw [hs2] at ho2 hf2
        have hfds2 : ∀ e ∈ sh2.fds, e ∈ sh.fds ∨ e.2.is_pipe_end = false := by
          intro e he
          rcases hf2 e he with h | h
          · exact hfds1 e h
          · exact Or.inr (by rw [h]; rfl)
        cases r2 with
        | none =>
          exact ⟨by simp [Event.is_quiet], same_jobs_trans ho2.1 ho1.1, ho2.2.trans ho1.2,
            hfds2, by simp⟩
        | some fd2 =>
          refine ⟨by simp [Event.is_quiet], same_jobs_trans ho2.1 ho1.1, ho2.2.trans ho1.2,
            hfds2, ?_⟩
          intro c1 h1
          simp only [Except.ok.injEq] at h1
          subst h1
          simp [hin, hout]

/-! ## Lemmas: the steps of one loop iteration -/

theorem closes_only_refl (a : Shell) : closes_only a a :=
  ⟨same_jobs_refl a, rfl, rfl, fun _ h => h⟩

theorem closes_only_trans {a b c : Shell} (h1 : closes_only a b) (h2 : closes_only b c) :
    closes_only a c :=
  ⟨same_jobs_trans h2.1 h1.1, h2.2.1.trans h1.2.1, h2.2.2.1.trans h1.2.2.1,
    fun e he => h1.2.2.2 e (h2.2.2.2 e he)⟩

theorem sys_close_closes_only (sh : Shell) (fd : Int) : closes_only sh (sys_close sh fd) :=
  ⟨⟨rfl, rfl, rfl⟩, rfl, rfl, fun e he => by
    simp only [sys_close, fd_close, List.mem_filter] at he
    exact he.1⟩

theorem sys_close_removes (sh : Shell) (fd : Int) :
    ∀ e ∈ (sys_close sh fd).fds, e.1 ≠ fd := by
  intro e he
  simp only [sys_close, fd_close, List.mem_filter] at he
  simpa using he.2

theorem construct_props (env : Env) (sh : Shell) (segment : Str) :
    (∀ e ∈ (Command.construct env sh segment).1, e.is_quiet = true)
    ∧ same_jobs (Command.construct env sh segment).2.1 sh
    ∧ (Command.construct env sh segment).2.1.is_background = sh.is_background
    ∧ (∀ e ∈ (Command.construct env sh segment).2.1.fds,
        e ∈ sh.fds ∨ e.2.is_pipe_end = false)
    ∧ (∀ c, (Command.construct env sh segment).2.2 = .ok c →
        (c.input_file = [] → c.input_fd = 0) ∧ (c.output_file = [] → c.output_fd = 1)
        ∧ ∃ c1, parse_arguments (Command.init segment) = .ok c1 ∧ c.command = c1.command
            ∧ handle_wildcards env.glob c1.arguments = .ok c.arguments) := by
  unfold Command.construct parse_command
  cases hp : parse_arguments (Command.init segment) with
  | error e =>
    exact ⟨by simp [Event.is_quiet], same_jobs_refl sh, rfl, fun e he => Or.inl he, by simp⟩
  | ok c1 =>
    simp only []
    cases hw : handle_wildcards env.glob c1.arguments with
    | error e =>
      exact ⟨by simp [Event.is_quiet], same_jobs_refl sh, rfl, fun e he => Or.inl he, by simp⟩
    | ok args =>
      simp only []
      have hs := setup_io_redirection_props env sh { c1 with arguments := args }
      have hfd := parse_arguments_fds segment c1 hp
      rcases hr : setup_io_redirection env sh { c1 with arguments := args } with ⟨ev, sh1, r⟩
      rw [hr] at hs
      cases r with
      | error e =>
        refine ⟨?_, hs.2.1, hs.2.2.1, hs.2.2.2.1, by simp⟩
        intro e he
        simp only [List.mem_append, List.mem_singleton] at he
        rcases he with he | he
        · exact hs.1 e he
        · subst he; rfl
      | ok c =>
        refine ⟨hs.1, hs.2.1, hs.2.2.1, hs.2.2.2.1, ?_⟩
        intro c2 hc2
        simp only [Except.ok.injEq] at hc2
        subst hc2
        obtain ⟨h1, h2, h3, h4, h5, h6⟩ := hs.2.2.2.2 c rfl
        simp only at h1 h2 h3 h4 h5 h6
        refine ⟨fun h => ?_, fun h => ?_, c1, rfl, h1, ?_⟩
        · rw [h5 (by rw [← h3]; exact h)]; exact hfd.1
        · rw [h6 (by rw [← h4]; exact h)]; exact hfd.2
        · rw [h2, hw]

theorem setup_io_redirection_ok (env : Env) (sh : Shell) (c : Command)
    (hopen : ∀ t f, env.open_ok t f = true) :
    ∃ c1, (setup_io_redirection env sh c).2.2 = .ok c1 := by
  unfold setup_io_redirection sys_open
  by_cases hin : c.input_file = [] <;> by_cases hout : c.output_file = [] <;>
    simp [hin, hout, hopen]

theorem construct_ok (env : Env) (sh : Shell) (segment : Str)
    (hopen : ∀ t f, env.open_ok t f = true) (hp : parses env segment) :
    ∃ c, (Command.construct env sh segment).2.2 = .ok c := by
  obtain ⟨c1, args, h1, h2⟩ := hp
  obtain ⟨c, hc⟩ := setup_io_redirection_ok env sh { c1 with arguments := args } hopen
  unfold Command.construct parse_command
  rw [h1]
  simp only [h2]
  rcases hr : setup_io_redirection env sh { c1 with arguments := args } with ⟨ev, sh1, r⟩
  rw [hr] at hc
  simp only at hc
  subst hc
  exact ⟨c, rfl⟩

theorem destroy_props (c : Command) (sh : Shell) :
    (∀ e ∈ (Command.destroy c sh).1, e.is_quiet = true)
    ∧ closes_only sh (Command.destroy c sh).2 := by
  unfold Command.destroy
  by_cases h1 : c.input_fd ≠ 0 ∧ c.input_fd ≠ -1 <;>
    by_cases h2 : c.output_fd ≠ 1 ∧ c.output_fd ≠ -1
  · simp only [if_pos h1, if_pos h2]
    exact ⟨by simp [Event.is_quiet],
      closes_only_trans (sys_close_closes_only sh _) (sys_close_closes_only _ _)⟩
  · simp only [if_pos h1, if_neg h2]
    exact ⟨by simp [Event.is_quiet], sys_close_closes_only sh _⟩
  · simp only [if_neg h1, if_pos h2]
    exact ⟨by simp [Event.is_quiet], sys_close_closes_only sh _⟩
  · simp only [if_neg h1, if_neg h2]
    exact ⟨by simp, closes_only_refl sh⟩

theorem handle_builtin_of_other_name (env : Env) (c : Command)
    (h : is_builtin_name c.command = false) :
    handle_builtin_command env c = ([], .not_builtin) := by
  simp only [is_builtin_name, Bool.or_eq_false_iff, decide_eq_false_iff_not] at h
  unfold handle_builtin_command
  rw [if_neg h.1.1, if_neg h.1.2, if_neg h.2]

theorem handle_builtin_of_exit (env : Env) (c : Command) (h : c.command = "exit".toList) :
    handle_builtin_command env c = ([.out "exit".toList], .exits) := by
  unfold handle_builtin_command
  rw [if_pos h]

theorem handle_builtin_events (env : Env) (c : Command) :
    ∀ e ∈ (handle_builtin_command env c).1,
      e.is_fork_call = false ∧ e.is_wait = false ∧ e.is_pipe_call = false := by
  unfold handle_builtin_command
  (repeat' split) <;> simp [Event.is_fork_call, Event.is_wait, Event.is_pipe_call]

theorem handle_builtin_of_cd_pwd (env : Env) (c : Command)
    (h : c.command = "cd".toList ∨ c.command = "pwd".toList) :
    (handle_builtin_command env c).2 = .handled := by
  unfold handle_builtin_command
  rcases h with h | h
  · rw [if_neg (by rw [h]; decide), if_pos h]
    (repeat' split) <;> rfl
  · rw [if_neg (by rw [h]; decide), if_neg (by rw [h]; decide), if_pos h]
    (repeat' split) <;> rfl

/-! ## Lemmas: the parent after `fork` -/

theorem delep_entries_loop_quiet : ∀ (fuel : Nat) (ss : Str) (pids_lock pids_nolock : List Int)
    (ev : List Event), ev.all Event.is_quiet = true →
    (delep_entries_loop fuel ss pids_lock pids_nolock ev).2.2.all Event.is_quiet = true := by
  intro fuel
  induction fuel with
  | zero => intro ss l n ev h; simpa [delep_entries_loop] using h
  | succ fuel ih =>
    intro ss l n ev h
    unfold delep_entries_loop
    split
    · exact h
    · split
      · exact ih _ _ _ _ h
      · split
        · exact ih _ _ _ _ h
        · simp only []
          split
          · exact ih _ _ _ _ (by simp [List.all_append, h, Event.is_quiet])
          · split
            · exact ih _ _ _ _ h
            · split
              · exact ih _ _ _ _ h
              · exact ih _ _ _ _ h

theorem kill_all_quiet (env : Env) : ∀ (pids : List Int),
    (kill_all env pids).all Event.is_quiet = true := by
  intro pids
  induction pids with
  | nil => rfl
  | cons p ps ih =>
    unfold kill_all
    rw [List.all_append, ih]
    split <;> rfl

theorem delep_dialogue_quiet (env : Env) (filename : Str) (pids_lock pids_nolock : List Int)
    (warnings : List Event) (hq : warnings.all Event.is_quiet = true) :
    (delep_dialogue env filename pids_lock pids_nolock warnings).all Event.is_quiet = true := by
  have hk := kill_all_quiet env
  have hm : ∀ l : List Int, (l.map (fun p => Event.out (show_int p))).all Event.is_quiet = true := by
    intro l
    induction l with
    | nil => rfl
    | cons x xs ih => rw [List.map_cons, List.all_cons, ih]; rfl
  unfold delep_dialogue
  simp only []
  split
  · rw [List.all_append, hq]; rfl
  · split
    · simp only [List.all_append, hq, hm, Bool.and_true, Bool.true_and]; rfl
    · split
      · split <;> (simp only [List.all_append, hq, hm, hk, Bool.and_true, Bool.true_and]; rfl)
      · simp only [List.all_append, hq, hm, Bool.and_true, Bool.true_and]; rfl

theorem handle_delep_output_quiet (env : Env) (pid : Nat) (filename : Str) :
    (handle_delep_output env pid filename).all Event.is_quiet = true := by
  unfold handle_delep_output
  split
  · rfl
  · exact delep_dialogue_quiet env filename _ _ _ (delep_entries_loop_quiet _ _ [] [] [] rfl)

theorem all_quiet_iff (l : List Event) :
    l.all Event.is_quiet = true ↔ ∀ e ∈ l, e.is_quiet = true := by
  simp [List.all_eq_true]

theorem track_child_props (pid : Nat) (sh : Shell) :
    (∀ e ∈ (track_child pid sh).1, e.is_quiet = true)
    ∧ (track_child pid sh).2.fds = sh.fds
    ∧ (track_child pid sh).2.clock = sh.clock
    ∧ (track_child pid sh).2.is_background = sh.is_background
    ∧ (sh.is_background = true →
        (track_child pid sh).1 = [.out (job_line sh.job_number pid)]
        ∧ (track_child pid sh).2.job_number = size_add sh.job_number 1
        ∧ (track_child pid sh).2.background_pids = insert pid sh.background_pids
        ∧ (track_child pid sh).2.foreground_pid = sh.foreground_pid)
    ∧ (sh.is_background = false →
        (track_child pid sh).1 = []
        ∧ (track_child pid sh).2.job_number = sh.job_number
        ∧ (track_child pid sh).2.background_pids = sh.background_pids
        ∧ (track_child pid sh).2.foreground_pid = pid) := by
  unfold track_child
  cases hb : sh.is_background <;> simp [Event.is_quiet]

theorem close_used_pipe_ends_props (n : Nat) (pipe_fds : List Int) (i : Nat) (sh : Shell) :
    (∀ e ∈ (close_used_pipe_ends n pipe_fds i sh).1, e.is_quiet = true)
    ∧ closes_only sh (close_used_pipe_ends n pipe_fds i sh).2 := by
  unfold close_used_pipe_ends
  by_cases h1 : i > 0 <;> by_cases h2 : i < size_sub n 1
  · simp only [if_pos h1, if_pos h2]
    exact ⟨by simp [Event.is_quiet],
      closes_only_trans (sys_close_closes_only sh _) (sys_close_closes_only _ _)⟩
  · simp only [if_pos h1, if_neg h2]
    exact ⟨by simp [Event.is_quiet], sys_close_closes_only sh _⟩
  · simp only [if_neg h1, if_pos h2]
    exact ⟨by simp [Event.is_quiet], sys_close_closes_only sh _⟩
  · simp only [if_neg h1, if_neg h2]
    exact ⟨by simp, closes_only_refl sh⟩

theorem collect_delep_output_props (env : Env) (comm_pipe : Int × Int) (c : Command)
    (pid : Nat) (sh : Shell) :
    (∀ e ∈ (collect_delep_output env comm_pipe c pid sh).1,
        e.is_quiet = true ∨ (e = .waitpid pid ∧ sh.is_background = false))
    ∧ closes_only sh (collect_delep_output env comm_pipe c pid sh).2
    ∧ (c.command = "delep".toList → comm_pipe.1 ≠ -1 →
        ∀ e ∈ (collect_delep_output env comm_pipe c pid sh).2.fds,
          e.1 ≠ comm_pipe.1 ∧ e.1 ≠ comm_pipe.2) := by
  unfold collect_delep_output
  by_cases h : c.command = "delep".toList ∧ comm_pipe.1 ≠ -1
  · simp only [if_pos h]
    refine ⟨?_, closes_only_trans (sys_close_closes_only sh _) (sys_close_closes_only _ _), ?_⟩
    · intro e he
      simp only [List.mem_append, List.mem_singleton] at he
      rcases he with (he | he) | he
      · left; subst he; rfl
      · cases hb : sh.is_background with
        | true => simp [hb] at he
        | false =>
          simp only [hb, Bool.not_false, if_true, List.mem_append, List.mem_singleton] at he
          rcases he with he | he
          · right; exact ⟨he, rfl⟩
          · left
            split at he
            · exact (all_quiet_iff _).mp (handle_delep_output_quiet env pid _) e he
            · simp at he
      · left; subst he; rfl
    · intro _ _ e he
      have h1 := sys_close_removes (sys_close sh comm_pipe.2) comm_pipe.1 e he
      have h2 := (sys_close_closes_only (sys_close sh comm_pipe.2) comm_pipe.1).2.2.2 e he
      exact ⟨h1, sys_close_removes sh comm_pipe.2 e h2⟩
  · simp only [if_neg h]
    refine ⟨by simp, closes_only_refl sh, ?_⟩
    intro h1 h2
    exact absurd ⟨h1, h2⟩ h

theorem destroy_no_out (c : Command) (sh : Shell) :
    ∀ e ∈ (Command.destroy c sh).1, e.is_out = false := by
  unfold Command.destroy
  by_cases h1 : c.input_fd ≠ 0 ∧ c.input_fd ≠ -1 <;>
    by_cases h2 : c.output_fd ≠ 1 ∧ c.output_fd ≠ -1
  · simp only [if_pos h1, if_pos h2]; simp [Event.is_out]
  · simp only [if_pos h1, if_neg h2]; simp [Event.is_out]
  · simp only [if_neg h1, if_pos h2]; simp [Event.is_out]
  · simp only [if_neg h1, if_neg h2]; simp

theorem close_used_pipe_ends_no_out (n : Nat) (pipe_fds : List Int) (i : Nat) (sh : Shell) :
    ∀ e ∈ (close_used_pipe_ends n pipe_fds i sh).1, e.is_out = false := by
  unfold close_used_pipe_ends
  by_cases h1 : i > 0 <;> by_cases h2 : i < size_sub n 1
  · simp only [if_pos h1, if_pos h2]; simp [Event.is_out]
  · simp only [if_pos h1, if_neg h2]; simp [Event.is_out]
  · simp only [if_neg h1, if_pos h2]; simp [Event.is_out]
  · simp only [if_neg h1, if_neg h2]; simp

theorem collect_delep_output_no_out (env : Env) (comm_pipe : Int × Int) (c : Command)
    (pid : Nat) (sh : Shell) (hb : sh.is_background = true) :
    ∀ e ∈ (collect_delep_output env comm_pipe c pid sh).1, e.is_out = false := by
  unfold collect_delep_output
  by_cases h : c.command = "delep".toList ∧ comm_pipe.1 ≠ -1
  · simp only [if_pos h, hb]; simp [Event.is_out]
  · simp only [if_neg h]; simp

theorem parent_after_fork_props (env : Env) (n : Nat) (pipe_fds : List Int) (i : Nat)
    (comm_pipe : Int × Int) (c : Command) (pid : Nat) (sh : Shell) :
    (∀ e ∈ (parent_after_fork env n pipe_fds i comm_pipe c pid sh).1,
        e.is_quiet = true ∨ (e = .waitpid pid ∧ sh.is_background = false))
    ∧ (∀ e ∈ (parent_after_fork env n pipe_fds i comm_pipe c pid sh).2.fds, e ∈ sh.fds)
    ∧ (c.command = "delep".toList → comm_pipe.1 ≠ -1 →
        ∀ e ∈ (parent_after_fork env n pipe_fds i comm_pipe c pid sh).2.fds,
          e.1 ≠ comm_pipe.1 ∧ e.1 ≠ comm_pipe.2)
    ∧ (parent_after_fork env n pipe_fds i comm_pipe c pid sh).2.is_background
        = sh.is_background
    ∧ same_jobs (parent_after_fork env n pipe_fds i comm_pipe c pid sh).2 (track_child pid sh).2
    ∧ (∀ e ∈ (parent_after_fork env n pipe_fds i comm_pipe c pid sh).1,
        e.is_out = true → e ∈ (track_child pid sh).1 ∨ sh.is_background = false) := by
  have h1 := track_child_props pid sh
  have h2 := close_used_pipe_ends_props n pipe_fds i (track_child pid sh).2
  have h3 := collect_delep_output_props env comm_pipe c pid
    (close_used_pipe_ends n pipe_fds i (track_child pid sh).2).2
  have h4 := destroy_props c (collect_delep_output env comm_pipe c pid
    (close_used_pipe_ends n pipe_fds i (track_child pid sh).2).2).2
  have hbg : (close_used_pipe_ends n pipe_fds i (track_child pid sh).2).2.is_background
      = sh.is_background := h2.2.2.1.trans h1.2.2.2.1
  unfold parent_after_fork
  simp only []
  refine ⟨?_, ?_, ?_, ?_, ?_, ?_⟩
  · intro e he
    simp only [List.mem_append] at he
    rcases he with ((he | he) | he) | he
    · exact Or.inl (h1.1 e he)
    · exact Or.inl (h2.1 e he)
    · rcases h3.1 e he with h | ⟨h, hb⟩
      · exact Or.inl h
      · exact Or.inr ⟨h, by rw [← hbg]; exact hb⟩
    · exact Or.inl (h4.1 e he)
  · intro e he
    have := h2.2.2.2.2 e (h3.2.1.2.2.2 e (h4.2.2.2.2 e he))
    rw [h1.2.1] at this
    exact this
  · intro hd hc e he
    exact h3.2.2 hd hc e (h4.2.2.2.2 e he)
  · exact h4.2.2.1.trans (h3.2.1.2.1.trans hbg)
  · exact same_jobs_trans h4.2.1 (same_jobs_trans h3.2.1.1 h2.2.1)
  · intro e he hout
    simp only [List.mem_append] at he
    rcases he with ((he | he) | he) | he
    · exact Or.inl he
    · rw [close_used_pipe_ends_no_out n pipe_fds i _ e he] at hout
      exact absurd hout (by simp)
    · by_cases hb : sh.is_background = false
      · exact Or.inr hb
      · have hb1 : sh.is_background = true := by simpa using hb
        rw [collect_delep_output_no_out env comm_pipe c pid _ (hbg.trans hb1) e he] at hout
        exact absurd hout (by simp)
    · rw [destroy_no_out c _ e he] at hout
      exact absurd hout (by simp)

/-! ## Theorems: a missing file name and spawning -/

theorem lowest_free_nonneg (t : FdTable) : 0 ≤ lowest_free t := by
  unfold lowest_free
  split <;> exact Int.ofNat_nonneg _

theorem make_comm_pipe_props (env : Env) (i : Nat) (c : Command) (sh : Shell) :
    (∀ e ∈ (make_comm_pipe env i c sh).1, e.is_quiet = true ∧ e.is_out = false)
    ∧ same_jobs (make_comm_pipe env i c sh).2.1 sh
    ∧ (make_comm_pipe env i c sh).2.1.is_background = sh.is_background
    ∧ (c.command ≠ "delep".toList →
        make_comm_pipe env i c sh = ([], sh, some (-1, -1)))
    ∧ (∀ comm, (make_comm_pipe env i c sh).2.2 = some comm → c.command = "delep".toList →
        comm.1 ≠ -1
        ∧ (make_comm_pipe env i c sh).2.1.fds
            = sh.fds ++ [(comm.1, .comm_read i)] ++ [(comm.2, .comm_write i)])
    ∧ ((∀ t, env.pipe_ok t = true) → (make_comm_pipe env i c sh).2.2 ≠ none) := by
  unfold make_comm_pipe
  by_cases hd : c.command = "delep".toList
  · simp only [if_pos hd]
    unfold sys_pipe
    by_cases hok : env.pipe_ok sh.clock = true
    · simp only [if_pos hok, fd_alloc]
      refine ⟨by simp [Event.is_quiet, Event.is_out], ⟨rfl, rfl, rfl⟩, by trivial,
        fun h => absurd hd h, ?_, by simp⟩
      intro comm hcomm _
      simp only [Option.some.injEq] at hcomm
      subst hcomm
      refine ⟨?_, rfl⟩
      have := lowest_free_nonneg sh.fds
      simp only
      omega
    · simp only [if_neg hok]
      refine ⟨by simp [Event.is_quiet, Event.is_out], ⟨rfl, rfl, rfl⟩, by trivial,
        fun h => absurd hd h, by simp, ?_⟩
      intro hall
      exact absurd (hall sh.clock) hok
  · simp only [if_neg hd]
    exact ⟨by simp, same_jobs_refl sh, by trivial, fun _ => by trivial,
      fun _ _ h => absurd h hd, by simp⟩

theorem strip_ampersand_fields (c : Command) :
    (strip_ampersand c).command = c.command
    ∧ (strip_ampersand c).input_fd = c.input_fd ∧ (strip_ampersand c).output_fd = c.output_fd
    ∧ (strip_ampersand c).input_file = c.input_file
    ∧ (strip_ampersand c).output_file = c.output_file
    ∧ (wants_background c = true → (strip_ampersand c).arguments = c.arguments.dropLast)
    ∧ (wants_background c = false → strip_ampersand c = c) := by
  unfold strip_ampersand
  cases h : wants_background c <;> simp

theorem run_segment_of_spawn (env : Env) (n : Nat) (pipe_fds : List Int) (i : Nat)
    (segment : Str) (sh : Shell) (child_pids : List Nat) (ev0 : List Event) (sh0 : Shell)
    (c0 : Command) (h : Command.construct env sh segment = (ev0, sh0, .ok c0))
    (hn : n ≠ 1 ∨ is_builtin_name c0.command = false) :
    run_segment env n pipe_fds i segment sh child_pids
      = (ev0 ++ (spawn_segment env n pipe_fds i (strip_ampersand c0)
            { sh0 with is_background := wants_background c0 } child_pids).1,
          (spawn_segment env n pipe_fds i (strip_ampersand c0)
            { sh0 with is_background := wants_background c0 } child_pids).2) := by
  unfold run_segment
  rw [h]
  simp only []
  have hb : (if n = 1 then handle_builtin_command env (strip_ampersand c0)
      else ([], BuiltinResult.not_builtin)) = ([], .not_builtin) := by
    rcases hn with hn | hn
    · rw [if_neg hn]
    · split
      · exact handle_builtin_of_other_name env _ (by rw [(strip_ampersand_fields c0).1]; exact hn)
      · rfl
  rw [hb]
  simp

theorem run_segment_of_exit (env : Env) (pipe_fds : List Int) (i : Nat)
    (segment : Str) (sh : Shell) (child_pids : List Nat) (ev0 : List Event) (sh0 : Shell)
    (c0 : Command) (h : Command.construct env sh segment = (ev0, sh0, .ok c0))
    (hname : c0.command = "exit".toList) :
    run_segment env 1 pipe_fds i segment sh child_pids
      = (ev0 ++ [.out "exit".toList], { sh0 with is_background := wants_background c0 },
          child_pids, .exited) := by
  unfold run_segment
  rw [h]
  simp only [if_true]
  rw [handle_builtin_of_exit env _ (by rw [(strip_ampersand_fields c0).1]; exact hname)]

theorem run_segment_of_handled (env : Env) (pipe_fds : List Int) (i : Nat)
    (segment : Str) (sh : Shell) (child_pids : List Nat) (ev0 : List Event) (sh0 : Shell)
    (c0 : Command) (h : Command.construct env sh segment = (ev0, sh0, .ok c0))
    (hname : c0.command = "cd".toList ∨ c0.command = "pwd".toList) :
    run_segment env 1 pipe_fds i segment sh child_pids
      = (ev0 ++ (handle_builtin_command env (strip_ampersand c0)).1
            ++ (Command.destroy (strip_ampersand c0)
                { sh0 with is_background := wants_background c0 }).1,
          (Command.destroy (strip_ampersand c0)
                { sh0 with is_background := wants_background c0 }).2,
          child_pids, .returned) := by
  have hh := handle_builtin_of_cd_pwd env (strip_ampersand c0)
    (by rw [(strip_ampersand_fields c0).1]; exact hname)
  unfold run_segment
  rw [h]
  simp only [if_true]
  rcases hb : handle_builtin_command env (strip_ampersand c0) with ⟨evb, res⟩
  rw [hb] at hh
  simp only at hh
  subst hh
  rfl

/-- What the events of `spawn_segment` can be. -/
theorem spawn_segment_events (env : Env) (n : Nat) (pipe_fds : List Int) (i : Nat)
    (own : Command) (sh : Shell) (child_pids : List Nat) :
    ∀ e ∈ (spawn_segment env n pipe_fds i own sh child_pids).1,
      e.is_quiet = true ∨ e = .fork_failed i
      ∨ (∃ pid, e = .waitpid pid ∧ sh.is_background = false)
      ∨ (∃ pid comm, e = .fork i pid own (wire_segment n pipe_fds i own)
            (child_process env pipe_fds i comm (wire_segment n pipe_fds i own)
              (make_comm_pipe env i (wire_segment n pipe_fds i own) sh).2.1.fds)
          ∧ (make_comm_pipe env i (wire_segment n pipe_fds i own) sh).2.2 = some comm) := by
  have hm := make_comm_pipe_props env i (wire_segment n pipe_fds i own) sh
  unfold spawn_segment
  simp only []
  rcases hmk : make_comm_pipe env i (wire_segment n pipe_fds i own) sh with ⟨ev1, sh1, r⟩
  rw [hmk] at hm
  cases r with
  | none =>
    intro e he
    simp only [List.mem_append] at he
    rcases he with he | he
    · exact Or.inl (hm.1 e he).1
    · exact Or.inl ((destroy_props _ _).1 e he)
  | some comm =>
    simp only []
    cases hf : env.fork sh1.clock with
    | none =>
      intro e he
      simp only [List.mem_append, List.mem_singleton] at he
      rcases he with (he | he) | he
      · exact Or.inl (hm.1 e he).1
      · exact Or.inr (Or.inl he)
      · exact Or.inl ((destroy_props _ _).1 e he)
    | some pid =>
      intro e he
      simp only [List.mem_append, List.mem_singleton] at he
      rcases he with (he | he) | he
      · exact Or.inl (hm.1 e he).1
      · exact Or.inr (Or.inr (Or.inr ⟨pid, comm, he, rfl⟩))
      · rcases (parent_after_fork_props env n pipe_fds i comm _ pid _).1 e he with h | ⟨h, hb⟩
        · exact Or.inl h
        · refine Or.inr (Or.inr (Or.inl ⟨pid, h, ?_⟩))
          have := hm.2.2.1
          simp only at this hb
          rw [← this]
          exact hb

theorem spawn_segment_flow (env : Env) (n : Nat) (pipe_fds : List Int) (i : Nat)
    (own : Command) (sh : Shell) (child_pids : List Nat) :
    (spawn_segment env n pipe_fds i own sh child_pids).2.2.2 ≠ .returned
    ∧ (spawn_segment env n pipe_fds i own sh child_pids).2.2.2 ≠ .exited := by
  unfold spawn_segment
  simp only []
  rcases hmk : make_comm_pipe env i (wire_segment n pipe_fds i own) sh with ⟨ev1, sh1, r⟩
  cases r with
  | none => simp
  | some comm =>
    simp only []
    cases hf : env.fork sh1.clock <;> simp

theorem is_builtin_name_cases (name : Str) (h : is_builtin_name name = true) :
    name = "exit".toList ∨ name = "cd".toList ∨ name = "pwd".toList := by
  simp only [is_builtin_name, Bool.or_eq_true, decide_eq_true_eq] at h
  rcases h with (h | h) | h
  · exact Or.inl h
  · exact Or.inr (Or.inl h)
  · exact Or.inr (Or.inr h)

/-- What the events of one loop iteration can be. -/
theorem run_segment_events (env : Env) (n : Nat) (pipe_fds : List Int) (i : Nat)
    (segment : Str) (sh : Shell) (child_pids : List Nat) :
    ∀ e ∈ (run_segment env n pipe_fds i segment sh child_pids).1,
      e.is_pipe_call = false
      ∧ (n ≠ 1 → e.is_builtin_effect = false)
      ∧ (∀ j pid own c ch, e = .fork j pid own c ch →
          j = i ∧ c = wire_segment n pipe_fds i own
          ∧ (own.input_file = [] → own.input_fd = 0)
          ∧ (own.output_file = [] → own.output_fd = 1)) := by
  have hc := construct_props env sh segment
  rcases hcon : Command.construct env sh segment with ⟨ev0, sh0, r⟩
  rw [hcon] at hc
  have hquiet : ∀ e : Event, e.is_quiet = true →
      e.is_pipe_call = false
      ∧ (n ≠ 1 → e.is_builtin_effect = false)
      ∧ (∀ j pid own c ch, e = .fork j pid own c ch →
          j = i ∧ c = wire_segment n pipe_fds i own
          ∧ (own.input_file = [] → own.input_fd = 0)
          ∧ (own.output_file = [] → own.output_fd = 1)) := by
    intro e hq
    exact ⟨quiet_not_pipe_call e hq, fun _ => quiet_not_builtin_effect e hq,
      fun j pid own c ch h => absurd h (quiet_not_fork e hq j pid own c ch)⟩
  cases r with
  | error f =>
    rw [run_segment_of_construct_error env n pipe_fds i segment sh child_pids ev0 sh0 f hcon]
    intro e he
    exact hquiet e (hc.1 e he)
  | ok c0 =>
    obtain ⟨hin, hout, _⟩ := hc.2.2.2.2 c0 rfl
    have hs := strip_ampersand_fields c0
    have hspawn : (n ≠ 1 ∨ is_builtin_name c0.command = false) →
        ∀ e ∈ (run_segment env n pipe_fds i segment sh child_pids).1,
          e.is_pipe_call = false
          ∧ (n ≠ 1 → e.is_builtin_effect = false)
          ∧ (∀ j pid own c ch, e = .fork j pid own c ch →
              j = i ∧ c = wire_segment n pipe_fds i own
              ∧ (own.input_file = [] → own.input_fd = 0)
              ∧ (own.output_file = [] → own.output_fd = 1)) := by
      intro hn
      rw [run_segment_of_spawn env n pipe_fds i segment sh child_pids ev0 sh0 c0 hcon hn]
      intro e he
      simp only [List.mem_append] at he
      rcases he with he | he
      · exact hquiet e (hc.1 e he)
      · rcases spawn_segment_events env n pipe_fds i _ _ child_pids e he with
          h | h | ⟨pid, h, _⟩ | ⟨pid, comm, h, _⟩
        · exact hquiet e h
        · subst h
          exact ⟨rfl, fun _ => rfl, fun j pid own c ch h => by simp at h⟩
        · subst h
          exact ⟨rfl, fun _ => rfl, fun j pid own c ch h => by simp at h⟩
        · subst h
          refine ⟨rfl, fun _ => rfl, ?_⟩
          intro j pid1 own c ch h
          simp only [Event.fork.injEq] at h
          obtain ⟨h1, _, h3, h4, _⟩ := h
          subst h3
          refine ⟨h1.symm, h4.symm, ?_, ?_⟩
          · rw [hs.2.2.2.1, hs.2.1]; exact hin
          · rw [hs.2.2.2.2.1, hs.2.2.1]; exact hout
    by_cases hn : n = 1
    · cases hb : is_builtin_name c0.command with
      | false => exact hspawn (Or.inr hb)
      | true =>
        subst hn
        have hbe := handle_builtin_events env (strip_ampersand c0)
        rcases is_builtin_name_cases _ hb with h | h | h
        · rw [run_segment_of_exit env pipe_fds i segment sh child_pids ev0 sh0 c0 hcon h]
          intro e he
          simp only [List.mem_append, List.mem_singleton] at he
          rcases he with he | he
          · exact hquiet e (hc.1 e he)
          · subst he
            exact hquiet _ rfl
        · rw [run_segment_of_handled env pipe_fds i segment sh child_pids ev0 sh0 c0 hcon
            (Or.inl h)]
          intro e he
          simp only [List.mem_append] at he
          rcases he with (he | he) | he
          · exact hquiet e (hc.1 e he)
          · refine ⟨(hbe e he).2.2, fun h1 => absurd rfl h1, ?_⟩
            intro j pid own c ch h2
            have := (hbe e he).1
            rw [h2] at this
            simp [Event.is_fork_call] at this
          · exact hquiet e ((destroy_props _ _).1 e he)
        · rw [run_segment_of_handled env pipe_fds i segment sh child_pids ev0 sh0 c0 hcon
            (Or.inr h)]
          intro e he
          simp only [List.mem_append] at he
          rcases he with (he | he) | he
          · exact hquiet e (hc.1 e he)
          · refine ⟨(hbe e he).2.2, fun h1 => absurd rfl h1, ?_⟩
            intro j pid own c ch h2
            have := (hbe e he).1
            rw [h2] at this
            simp [Event.is_fork_call] at this
          · exact hquiet e ((destroy_props _ _).1 e he)
    · exact hspawn (Or.inl hn)

theorem run_segment_flow (env : Env) (n : Nat) (pipe_fds : List Int) (i : Nat)
    (segment : Str) (sh : Shell) (child_pids : List Nat) (hn : n ≠ 1) :
    (run_segment env n pipe_fds i segment sh child_pids).2.2.2 ≠ .returned
    ∧ (run_segment env n pipe_fds i segment sh child_pids).2.2.2 ≠ .exited := by
  rcases hcon : Command.construct env sh segment with ⟨ev0, sh0, r⟩
  cases r with
  | error f =>
    rw [run_segment_of_construct_error env n pipe_fds i segment sh child_pids ev0 sh0 f hcon]
    simp
  | ok c0 =>
    rw [run_segment_of_spawn env n pipe_fds i segment sh child_pids ev0 sh0 c0 hcon (Or.inl hn)]
    exact spawn_segment_flow env n pipe_fds i _ _ child_pids

/-- A property of the events of every iteration, with a property of the state
that every completed iteration keeps, holds for the whole loop. -/
theorem run_segments_inv (env : Env) (n : Nat) (pipe_fds : List Int)
    (I : Shell → Prop) (P : Nat → Event → Prop)
    (hstep : ∀ i segment sh child_pids, i < n → I sh →
      (∀ e ∈ (run_segment env n pipe_fds i segment sh child_pids).1, P i e)
      ∧ ((run_segment env n pipe_fds i segment sh child_pids).2.2.2 = .next →
          I (run_segment env n pipe_fds i segment sh child_pids).2.1)) :
    ∀ (segments : List Str) (i : Nat) (sh : Shell) (child_pids : List Nat),
      i + segments.length ≤ n → I sh →
      ∀ e ∈ (run_segments env n pipe_fds segments i sh child_pids).1,
        ∃ j, i ≤ j ∧ j < i + segments.length ∧ P j e := by
  intro segments
  induction segments with
  | nil => intro i sh cp _ _ e he; simp [run_segments] at he
  | cons segment rest ih =>
    intro i sh cp hlen hI e he
    simp only [List.length_cons] at hlen
    have hs := hstep i segment sh cp (by omega) hI
    rcases hr : run_segment env n pipe_fds i segment sh cp with ⟨ev, sh1, pids1, flow⟩
    rw [hr] at hs
    by_cases hflow : flow = .next
    · subst hflow
      rw [run_segments_of_next env n pipe_fds i segment rest sh cp ev sh1 pids1 hr] at he
      simp only [List.mem_append] at he
      rcases he with he | he
      · exact ⟨i, Nat.le_refl _, by simp, hs.1 e he⟩
      · obtain ⟨j, h1, h2, h3⟩ := ih (i + 1) sh1 pids1 (by omega) (hs.2 rfl) e he
        exact ⟨j, by omega, by simp only [List.length_cons]; omega, h3⟩
    · rw [run_segments_of_not_next env n pipe_fds i segment rest sh cp _ hr hflow] at he
      exact ⟨i, Nat.le_refl _, by simp, hs.1 e he⟩

theorem run_segments_flow (env : Env) (n : Nat) (pipe_fds : List Int) (hn : n ≠ 1) :
    ∀ (segments : List Str) (i : Nat) (sh : Shell) (child_pids : List Nat),
      (run_segments env n pipe_fds segments i sh child_pids).2.2.2 ≠ .returned
      ∧ (run_segments env n pipe_fds segments i sh child_pids).2.2.2 ≠ .exited := by
  intro segments
  induction segments with
  | nil => intro i sh cp; simp [run_segments]
  | cons segment rest ih =>
    intro i sh cp
    have hf := run_segment_flow env n pipe_fds i segment sh cp hn
    rcases hr : run_segment env n pipe_fds i segment sh cp with ⟨ev, sh1, pids1, flow⟩
    rw [hr] at hf
    by_cases hflow : flow = .next
    · subst hflow
      rw [run_segments_of_next env n pipe_fds i segment rest sh cp ev sh1 pids1 hr]
      exact ih (i + 1) sh1 pids1
    · rw [run_segments_of_not_next env n pipe_fds i segment rest sh cp _ hr hflow]
      exact hf

/-! ## Theorems: the program name -/

/-- C6, at a failing input.  In a directory where the pattern `l*` matches the
file `ls`, the segment `l* -l` is constructed with the arguments `ls -l` but
with the program name `l*`, and the child calls `execvp` with the file `l*`
and `argv[0] = ls`: the program name is taken from the first argument before
the patterns are expanded. -/
theorem program_name_taken_before_expansion :
    (Command.construct Env.one_match Shell.initial "l* -l".toList).2.2.toOption.map
        (fun c => (c.command, c.arguments))
      = some ("l*".toList, ["ls".toList, "-l".toList])
    ∧ (execute_pipeline Env.one_match Shell.initial ["l* -l".toList]).events.filterMap
        Event.exec_call
      = [("l*".toList, ["ls".toList, "-l".toList])] := by
  refine ⟨by decide, by decide⟩

/-! ## Lemmas: the pipes, and the run in which every system call succeeds -/

theorem create_pipes_ok (env : Env) : ∀ (n k : Nat) (sh : Shell) (fds0 : List Int),
    (create_pipes env n k sh fds0).2.2.2 = true →
    (create_pipes env n k sh fds0).2.2.1.length = fds0.length + 2 * n
    ∧ (∃ l, (create_pipes env n k sh fds0).2.2.1 = fds0 ++ l)
    ∧ (create_pipes env n k sh fds0).1
        = (List.range n).map (fun j =>
            Event.pipe (k + j)
              ((create_pipes env n k sh fds0).2.2.1.getD (fds0.length + 2 * j) (-1))
              ((create_pipes env n k sh fds0).2.2.1.getD (fds0.length + 2 * j + 1) (-1))) := by
  intro n
  induction n with
  | zero => intro k sh fds0 _; simp [create_pipes]
  | succ n ih =>
    intro k sh fds0 h
    unfold create_pipes at h ⊢
    rcases hp : sys_pipe env sh (.pipe_read k) (.pipe_write k) with ⟨r, sh1⟩
    rw [hp] at h
    cases r with
    | none => simp at h
    | some p =>
      obtain ⟨rd, wr⟩ := p
      simp only at h ⊢
      obtain ⟨h1, ⟨l, h2⟩, h3⟩ := ih (k + 1) sh1 (fds0 ++ [rd, wr]) h
      refine ⟨?_, ⟨[rd, wr] ++ l, by rw [h2]; simp⟩, ?_⟩
      · rw [h1]; simp; omega
      · rw [List.range_succ_eq_map, List.map_cons, List.map_map, h3]
        congr 1
        · rw [h2]
          have e0 : fds0 ++ [rd, wr] ++ l = fds0 ++ (rd :: wr :: l) := by simp
          rw [e0]
          congr 1
          · rw [List.getD_eq_getElem?_getD, List.getElem?_append_right (by omega)]
            simp
          · rw [List.getD_eq_getElem?_getD, List.getElem?_append_right (by omega)]
            simp
        · apply List.map_congr_left
          intro j _
          simp only [Function.comp, List.length_append, List.length_cons, List.length_nil]
          have e1 : k + 1 + j = k + (j + 1) := by omega
          have e2 : fds0.length + (0 + 1 + 1) + 2 * j = fds0.length + 2 * (j + 1) := by omega
          rw [e1, e2]

theorem create_pipes_ok_of_pipe_ok (env : Env) (hpipe : ∀ t, env.pipe_ok t = true) :
    ∀ (n k : Nat) (sh : Shell) (fds0 : List Int),
      (create_pipes env n k sh fds0).2.2.2 = true := by
  intro n k sh fds0
  cases h : (create_pipes env n k sh fds0).2.2.2 with
  | true => rfl
  | false =>
    obtain ⟨_, t, ht⟩ := create_pipes_failure env n k sh fds0 h
    rw [hpipe t] at ht
    exact absurd ht (by simp)

theorem child_process_of_plain (env : Env) (pipe_fds : List Int) (i : Nat) (c : Command)
    (t : FdTable) (h1 : c.command ≠ "delep".toList) (h2 : c.command ≠ "sb".toList) :
    child_process env pipe_fds i (-1, -1) c t
      = execute_command env c (close_unused_pipe_ends i pipe_fds 0 t) := by
  unfold child_process
  simp only [ne_eq, not_true_eq_false, if_false]
  unfold execute_child_process
  rw [if_neg h1, if_neg h2]

theorem spawn_segment_happy (env : Env) (n : Nat) (pipe_fds : List Int) (i : Nat)
    (own : Command) (sh : Shell) (child_pids : List Nat)
    (hpipe : ∀ t, env.pipe_ok t = true) (hfork : ∀ t, (env.fork t).isSome = true) :
    (spawn_segment env n pipe_fds i own sh child_pids).2.2.2 = .next
    ∧ ∃ pid ch, Event.fork i pid own (wire_segment n pipe_fds i own) ch
          ∈ (spawn_segment env n pipe_fds i own sh child_pids).1
        ∧ ((wire_segment n pipe_fds i own).command ≠ "delep".toList →
            (wire_segment n pipe_fds i own).command ≠ "sb".toList →
            ∃ t, ch = execute_command env (wire_segment n pipe_fds i own) t) := by
  have hm := make_comm_pipe_props env i (wire_segment n pipe_fds i own) sh
  unfold spawn_segment
  simp only []
  rcases hmk : make_comm_pipe env i (wire_segment n pipe_fds i own) sh with ⟨ev1, sh1, r⟩
  rw [hmk] at hm
  cases r with
  | none => exact absurd rfl (hm.2.2.2.2.2 hpipe)
  | some comm =>
    simp only []
    cases hf : env.fork sh1.clock with
    | none =>
      have := hfork sh1.clock
      rw [hf] at this
      simp at this
    | some pid =>
      simp only []
      refine ⟨by trivial, pid,
        child_process env pipe_fds i comm (wire_segment n pipe_fds i own) sh1.fds,
        List.mem_append_left _ (List.mem_append_right _ (List.mem_singleton.mpr rfl)), ?_⟩
      intro h1 h2
      have hplain := hm.2.2.2.1 h1
      simp only [Prod.mk.injEq, Option.some.injEq] at hplain
      obtain ⟨_, _, hcomm⟩ := hplain
      subst hcomm
      exact ⟨_, child_process_of_plain env pipe_fds i _ _ h1 h2⟩

theorem run_segment_happy (env : Env) (n : Nat) (pipe_fds : List Int) (i : Nat)
    (segment : Str) (sh : Shell) (child_pids : List Nat)
    (hpipe : ∀ t, env.pipe_ok t = true) (hfork : ∀ t, (env.fork t).isSome = true)
    (hopen : ∀ t f, env.open_ok t f = true) (hp : parses env segment)
    (hn : n ≠ 1 ∨ ∀ c1, parse_arguments (Command.init segment) = .ok c1 →
      is_builtin_name c1.command = false) :
    (run_segment env n pipe_fds i segment sh child_pids).2.2.2 = .next
    ∧ ∃ pid own c ch, Event.fork i pid own c ch
          ∈ (run_segment env n pipe_fds i segment sh child_pids).1
        ∧ (∃ c1, parse_arguments (Command.init segment) = .ok c1 ∧ c.command = c1.command)
        ∧ (c.command ≠ "delep".toList → c.command ≠ "sb".toList →
            ∃ t, ch = execute_command env c t) := by
  obtain ⟨c0, hc0⟩ := construct_ok env sh segment hopen hp
  have hc := construct_props env sh segment
  rcases hcon : Command.construct env sh segment with ⟨ev0, sh0, r⟩
  rw [hcon] at hc hc0
  simp only at hc0
  subst hc0
  obtain ⟨_, _, c1, hc1, hname, _⟩ := hc.2.2.2.2 c0 rfl
  have hn2 : n ≠ 1 ∨ is_builtin_name c0.command = false := by
    rcases hn with hn | hn
    · exact Or.inl hn
    · exact Or.inr (by rw [hname]; exact hn c1 hc1)
  rw [run_segment_of_spawn env n pipe_fds i segment sh child_pids ev0 sh0 c0 hcon hn2]
  obtain ⟨hflow, pid, ch, hmem, hch⟩ := spawn_segment_happy env n pipe_fds i
    (strip_ampersand c0) { sh0 with is_background := wants_background c0 } child_pids hpipe hfork
  refine ⟨hflow, pid, strip_ampersand c0, wire_segment n pipe_fds i (strip_ampersand c0), ch,
    List.mem_append_right _ hmem, ⟨c1, hc1, ?_⟩, hch⟩
  unfold wire_segment
  simp only []
  split <;> split <;> simp [(strip_ampersand_fields c0).1, hname]

theorem run_segments_happy (env : Env) (n : Nat) (pipe_fds : List Int)
    (hpipe : ∀ t, env.pipe_ok t = true) (hfork : ∀ t, (env.fork t).isSome = true)
    (hopen : ∀ t f, env.open_ok t f = true) :
    ∀ (segments : List Str) (i : Nat) (sh : Shell) (child_pids : List Nat),
      (∀ segment ∈ segments, parses env segment
        ∧ (n ≠ 1 ∨ ∀ c1, parse_arguments (Command.init segment) = .ok c1 →
            is_builtin_name c1.command = false)) →
      (run_segments env n pipe_fds segments i sh child_pids).2.2.2 = .next
      ∧ ∀ k segment, segments[k]? = some segment →
          ∃ pid own c ch, Event.fork (i + k) pid own c ch
              ∈ (run_segments env n pipe_fds segments i sh child_pids).1
            ∧ (∃ c1, parse_arguments (Command.init segment) = .ok c1
                ∧ c.command = c1.command)
            ∧ (c.command ≠ "delep".toList → c.command ≠ "sb".toList →
                ∃ t, ch = execute_command env c t) := by
  intro segments
  induction segments with
  | nil => intro i sh cp _; simp [run_segments]
  | cons segment rest ih =>
    intro i sh cp hall
    obtain ⟨hp, hn⟩ := hall segment (List.mem_cons_self _ _)
    obtain ⟨hflow, pid, own, c, ch, hmem, h1, h2⟩ :=
      run_segment_happy env n pipe_fds i segment sh cp hpipe hfork hopen hp hn
    rcases hr : run_segment env n pipe_fds i segment sh cp with ⟨ev, sh1, pids1, flow⟩
    rw [hr] at hflow hmem
    simp only at hflow hmem
    subst hflow
    rw [run_segments_of_next env n pipe_fds i segment rest sh cp ev sh1 pids1 hr]
    obtain ⟨hf, hrest⟩ := ih (i + 1) sh1 pids1
      (fun s hs => hall s (List.mem_cons_of_mem _ hs))
    refine ⟨hf, ?_⟩
    intro k seg hk
    cases k with
    | zero =>
      simp only [List.getElem?_cons_zero, Option.some.injEq] at hk
      subst hk
      exact ⟨pid, own, c, ch, List.mem_append_left _ hmem, h1, h2⟩
    | succ k =>
      simp only [List.getElem?_cons_succ] at hk
      obtain ⟨pid2, own2, c2, ch2, hmem2, h3, h4⟩ := hrest k seg hk
      refine ⟨pid2, own2, c2, ch2, List.mem_append_right _ ?_, h3, h4⟩
      have e : i + (k + 1) = i + 1 + k := by omega
      rw [e]
      exact hmem2

/-! ## Lemmas: the files opened for a segment -/

theorem setup_io_redirection_opened (env : Env) (sh : Shell) (c : Command) :
    ∀ c1, (setup_io_redirection env sh c).2.2 = .ok c1 →
      (c1.input_file ≠ [] →
        Event.opened c1.input_file c1.input_fd ∈ (setup_io_redirection env sh c).1)
      ∧ (c1.output_file ≠ [] →
        Event.opened c1.output_file c1.output_fd ∈ (setup_io_redirection env sh c).1) := by
  unfold setup_io_redirection
  by_cases hin : c.input_file = []
  · simp only [hin, ne_eq, not_true_eq_false, if_false]
    by_cases hout : c.output_file = []
    · simp only [hout, ne_eq, not_true_eq_false, if_false]
      intro c1 h1
      simp only [Except.ok.injEq] at h1
      subst h1
      simp [hin, hout]
    · simp only [hout, ne_eq, not_false_eq_true, if_true]
      rcases sys_open env sh c.output_file (.file_out c.output_file) with ⟨r, sh2⟩
      cases r with
      | none => intro c1 h1; simp at h1
      | some fd =>
        intro c1 h1
        simp only [Except.ok.injEq] at h1
        subst h1
        simp [hin]
  · simp only [hin, ne_eq, not_false_eq_true, if_true]
    rcases sys_open env sh c.input_file (.file_in c.input_file) with ⟨r, sh1⟩
    cases r with
    | none => intro c1 h1; simp at h1
    | some fd =>
      simp only []
      by_cases hout : c.output_file = []
      · simp only [hout, ne_eq, not_true_eq_false, if_false]
        intro c1 h1
        simp only [Except.ok.injEq] at h1
        subst h1
        simp [hout]
      · simp only [hout, ne_eq, not_false_eq_true, if_true]
        rcases sys_open env sh1 c.output_file (.file_out c.output_file) with ⟨r, sh2⟩
        cases r with
        | none => intro c1 h1; simp at h1
        | some fd2 =>
          intro c1 h1
          simp only [Except.ok.injEq] at h1
          subst h1
          simp

theorem construct_opened (env : Env) (sh : Shell) (segment : Str) :
    ∀ c, (Command.construct env sh segment).2.2 = .ok c →
      (c.input_file ≠ [] →
        Event.opened c.input_file c.input_fd ∈ (Command.construct env sh segment).1)
      ∧ (c.output_file ≠ [] →
        Event.opened c.output_file c.output_fd ∈ (Command.construct env sh segment).1) := by
  unfold Command.construct parse_command
  cases parse_arguments (Command.init segment) with
  | error e => intro c h; simp at h
  | ok c1 =>
    simp only []
    cases handle_wildcards env.glob c1.arguments with
    | error e => intro c h; simp at h
    | ok args =>
      simp only []
      have hs := setup_io_redirection_opened env sh { c1 with arguments := args }
      rcases hr : setup_io_redirection env sh { c1 with arguments := args } with ⟨ev, sh1, r⟩
      rw [hr] at hs
      cases r with
      | error e => intro c h; simp at h
      | ok c =>
        intro c2 h2
        simp only [Except.ok.injEq] at h2
        subst h2
        exact hs c rfl

/-- A segment that is forked with a redirection file has opened that file,
and the descriptor it names is the one `open` returned. -/
theorem run_segment_opened (env : Env) (n : Nat) (pipe_fds : List Int) (i : Nat)
    (segment : Str) (sh : Shell) (child_pids : List Nat) :
    ∀ j pid own c ch,
      Event.fork j pid own c ch ∈ (run_segment env n pipe_fds i segment sh child_pids).1 →
      (own.input_file ≠ [] → Event.opened own.input_file own.input_fd
          ∈ (run_segment env n pipe_fds i segment sh child_pids).1)
      ∧ (own.output_file ≠ [] → Event.opened own.output_file own.output_fd
          ∈ (run_segment env n pipe_fds i segment sh child_pids).1) := by
  have hc := construct_props env sh segment
  have ho := construct_opened env sh segment
  rcases hcon : Command.construct env sh segment with ⟨ev0, sh0, r⟩
  rw [hcon] at hc ho
  intro j pid own c ch hmem
  cases r with
  | error f =>
    rw [run_segment_of_construct_error env n pipe_fds i segment sh child_pids ev0 sh0 f hcon]
      at hmem
    exact absurd rfl (quiet_not_fork _ (hc.1 _ hmem) j pid own c ch)
  | ok c0 =>
    obtain ⟨hin, hout⟩ := ho c0 rfl
    have hs := strip_ampersand_fields c0
    have hspawn : (n ≠ 1 ∨ is_builtin_name c0.command = false) →
        (own.input_file ≠ [] → Event.opened own.input_file own.input_fd
            ∈ (run_segment env n pipe_fds i segment sh child_pids).1)
        ∧ (own.output_file ≠ [] → Event.opened own.output_file own.output_fd
            ∈ (run_segment env n pipe_fds i segment sh child_pids).1) := by
      intro hn
      rw [run_segment_of_spawn env n pipe_fds i segment sh child_pids ev0 sh0 c0 hcon hn]
        at hmem ⊢
      simp only [List.mem_append] at hmem
      have hown : own = strip_ampersand c0 := by
        rcases hmem with he | he
        · exact absurd rfl (quiet_not_fork _ (hc.1 _ he) j pid own c ch)
        · rcases spawn_segment_events env n pipe_fds i _ _ child_pids _ he with
            h | h | ⟨pid1, h, _⟩ | ⟨pid1, comm, h, _⟩
          · simp [Event.is_quiet] at h
          · simp at h
          · simp at h
          · simp only [Event.fork.injEq] at h
            exact h.2.2.1
      subst hown
      simp only at hin hout
      refine ⟨fun h => List.mem_append_left _ ?_, fun h => List.mem_append_left _ ?_⟩
      · rw [hs.2.2.2.1, hs.2.1]
        exact hin (by rw [← hs.2.2.2.1]; exact h)
      · rw [hs.2.2.2.2.1, hs.2.2.1]
        exact hout (by rw [← hs.2.2.2.2.1]; exact h)
    by_cases hn : n = 1
    · cases hb : is_builtin_name c0.command with
      | false => exact hspawn (Or.inr hb)
      | true =>
        subst hn
        have hbe := handle_builtin_events env (strip_ampersand c0)
        have hnf : ∀ e : Event, e.is_fork_call = false → e ≠ .fork j pid own c ch := by
          intro e he h
          subst h
          simp [Event.is_fork_call] at he
        rcases is_builtin_name_cases _ hb with h | h | h
        · rw [run_segment_of_exit env pipe_fds i segment sh child_pids ev0 sh0 c0 hcon h]
            at hmem
          simp only [List.mem_append, List.mem_singleton] at hmem
          rcases hmem with he | he
          · exact absurd rfl (quiet_not_fork _ (hc.1 _ he) j pid own c ch)
          · simp at he
        · rw [run_segment_of_handled env pipe_fds i segment sh child_pids ev0 sh0 c0 hcon
            (Or.inl h)] at hmem
          simp only [List.mem_append] at hmem
          rcases hmem with (he | he) | he
          · exact absurd rfl (quiet_not_fork _ (hc.1 _ he) j pid own c ch)
          · exact absurd rfl (hnf _ (hbe _ he).1)
          · exact absurd rfl (quiet_not_fork _ ((destroy_props _ _).1 _ he) j pid own c ch)
        · rw [run_segment_of_handled env pipe_fds i segment sh child_pids ev0 sh0 c0 hcon
            (Or.inr h)] at hmem
          simp only [List.mem_append] at hmem
          rcases hmem with (he | he) | he
          · exact absurd rfl (quiet_not_fork _ (hc.1 _ he) j pid own c ch)
          · exact absurd rfl (hnf _ (hbe _ he).1)
          · exact absurd rfl (quiet_not_fork _ ((destroy_props _ _).1 _ he) j pid own c ch)
    · exact hspawn (Or.inl hn)

theorem run_segments_opened (env : Env) (n : Nat) (pipe_fds : List Int) :
    ∀ (segments : List Str) (i : Nat) (sh : Shell) (child_pids : List Nat) j pid own c ch,
      Event.fork j pid own c ch ∈ (run_segments env n pipe_fds segments i sh child_pids).1 →
      (own.input_file ≠ [] → Event.opened own.input_file own.input_fd
          ∈ (run_segments env n pipe_fds segments i sh child_pids).1)
      ∧ (own.output_file ≠ [] → Event.opened own.output_file own.output_fd
          ∈ (run_segments env n pipe_fds segments i sh child_pids).1) := by
  intro segments
  induction segments with
  | nil => intro i sh cp j pid own c ch he; simp [run_segments] at he
  | cons segment rest ih =>
    intro i sh cp j pid own c ch he
    have hs := run_segment_opened env n pipe_fds i segment sh cp j pid own c ch
    rcases hr : run_segment env n pipe_fds i segment sh cp with ⟨ev, sh1, pids1, flow⟩
    rw [hr] at hs
    by_cases hflow : flow = .next
    · subst hflow
      rw [run_segments_of_next env n pipe_fds i segment rest sh cp ev sh1 pids1 hr] at he ⊢
      simp only [List.mem_append] at he
      rcases he with he | he
      · exact ⟨fun h => List.mem_append_left _ ((hs he).1 h),
          fun h => List.mem_append_left _ ((hs he).2 h)⟩
      · have := ih (i + 1) sh1 pids1 j pid own c ch he
        exact ⟨fun h => List.mem_append_right _ (this.1 h),
          fun h => List.mem_append_right _ (this.2 h)⟩
    · rw [run_segments_of_not_next env n pipe_fds i segment rest sh cp _ hr hflow] at he ⊢
      exact hs he

/-! ## Theorems: where the loop over the segments stops -/

theorem catch_block_quiet (f : Failure) (pipe_fds : List Int) (child_pids : List Nat)
    (sh : Shell) : ∀ e ∈ (catch_block f pipe_fds child_pids sh).1, e.is_quiet = true := by
  intro e he
  simp only [catch_block, List.mem_append, List.mem_singleton, List.mem_map] at he
  rcases he with (he | ⟨fd, _, he⟩) | ⟨pid, _, he⟩ <;> subst he <;> rfl

/-- After the pipes are made, the events of `execute_pipeline` are those of
the pipes, those of the loop over the segments, and a tail of `waitpid` calls
or of the `catch` block. -/
theorem execute_pipeline_events (env : Env) (sh : Shell) (commands : List Str)
    (ev0 : List Event) (sh0 : Shell) (pipe_fds : List Int)
    (h : create_pipes env (size_sub commands.length 1) 0 sh [] = (ev0, sh0, pipe_fds, true)) :
    ∃ tail, (execute_pipeline env sh commands).events
        = ev0 ++ (run_segments env commands.length pipe_fds commands 0 sh0 []).1 ++ tail
      ∧ (∀ e ∈ tail, e.is_quiet = true
          ∨ (e.is_wait = true
            ∧ (run_segments env commands.length pipe_fds commands 0 sh0 []).2.1.is_background
                = false)) := by
  rcases hr : run_segments env commands.length pipe_fds commands 0 sh0 []
    with ⟨ev1, sh1, cp, flow⟩
  cases flow with
  | next =>
    rw [execute_pipeline_of_next env sh commands ev0 sh0 pipe_fds h ev1 sh1 cp hr]
    refine ⟨_, rfl, ?_⟩
    intro e he
    cases hb : sh1.is_background with
    | true => simp [hb] at he
    | false =>
      simp only [hb, Bool.not_false, if_true, List.mem_map] at he
      obtain ⟨pid, _, he⟩ := he
      subst he
      exact Or.inr ⟨rfl, rfl⟩
  | returned =>
    rw [execute_pipeline_of_returned env sh commands ev0 sh0 pipe_fds h ev1 sh1 cp hr]
    exact ⟨[], by simp, by simp⟩
  | exited =>
    rw [execute_pipeline_of_exited env sh commands ev0 sh0 pipe_fds h ev1 sh1 cp hr]
    exact ⟨[], by simp, by simp⟩
  | thrown f =>
    rw [execute_pipeline_of_thrown env sh commands ev0 sh0 pipe_fds h ev1 sh1 cp f hr]
    exact ⟨_, rfl, fun e he => Or.inl (catch_block_quiet f pipe_fds cp sh1 e he)⟩

theorem fork_is_fork_call (i pid : Nat) (own c : Command) (ch : ChildResult) :
    (Event.fork i pid own c ch).is_fork_call = true := rfl

/-- C7. For a pipeline of `N ≥ 1` segments `execute_pipeline` first makes the
`N - 1` pipes and only then constructs and forks the segments (when a `pipe`
call fails nothing is forked).  The child of segment `i` is given as input the
read end of pipe `i - 1` when `i > 0` and the segment's own input when
`i = 0`, and as output the write end of pipe `i` when `i < N - 1` and the
segment's own output when `i = N - 1`.  The segment's own input is standard
input when it has no `<` file and otherwise the descriptor `open` returned for
that file, and likewise for its own output, standard output and its `>` file.
When every system call succeeds and every segment parses, every segment is
forked. -/
theorem pipeline_wiring (env : Env) (sh : Shell) (commands : List Str)
    (h1 : 1 ≤ commands.length) (h2 : commands.length < 2 ^ 63) :
    ∃ (pipe_fds : List Int) (rest : List Event),
      (((execute_pipeline env sh commands).events
            = (List.range (commands.length - 1)).map (fun k =>
                Event.pipe k (pipe_fds.getD (2 * k) (-1)) (pipe_fds.getD (2 * k + 1) (-1)))
              ++ rest
          ∧ pipe_fds.length = 2 * (commands.length - 1))
        ∨ (∀ e ∈ (execute_pipeline env sh commands).events, e.is_fork_call = false))
      ∧ (∀ e ∈ rest, e.is_pipe_call = false)
      ∧ (∀ i pid own c ch,
          Event.fork i pid own c ch ∈ (execute_pipeline env sh commands).events →
          i < commands.length
          ∧ c.input_fd = (if 0 < i then pipe_fds.getD (2 * (i - 1)) (-1) else own.input_fd)
          ∧ c.output_fd
              = (if i + 1 < commands.length then pipe_fds.getD (2 * i + 1) (-1)
                 else own.output_fd)
          ∧ (own.input_file = [] → own.input_fd = 0)
          ∧ (own.output_file = [] → own.output_fd = 1)
          ∧ (own.input_file ≠ [] → Event.opened own.input_file own.input_fd
                ∈ (execute_pipeline env sh commands).events)
          ∧ (own.output_file ≠ [] → Event.opened own.output_file own.output_fd
                ∈ (execute_pipeline env sh commands).events))
      ∧ ((∀ t, env.pipe_ok t = true) → (∀ t, (env.fork t).isSome = true) →
          (∀ t f, env.open_ok t f = true) →
          (∀ segment ∈ commands, parses env segment
            ∧ (commands.length ≠ 1 ∨ ∀ c1, parse_arguments (Command.init segment) = .ok c1 →
                is_builtin_name c1.command = false)) →
          ∀ i, i < commands.length →
            ∃ pid own c ch,
              Event.fork i pid own c ch ∈ (execute_pipeline env sh commands).events) := by
  have hn1 : size_sub commands.length 1 = commands.length - 1 :=
    size_sub_one _ h1 (by unfold SIZE_MOD; omega)
  have hev := create_pipes_events env (size_sub commands.length 1) 0 sh []
  have hok := create_pipes_ok env (size_sub commands.length 1) 0 sh []
  rcases hp : create_pipes env (size_sub commands.length 1) 0 sh []
    with ⟨ev0, sh0, pipe_fds, ok⟩
  rw [hp] at hev hok
  simp only at hev hok
  cases ok with
  | false =>
    have hnofork : ∀ e ∈ (execute_pipeline env sh commands).events, e.is_fork_call = false := by
      rw [execute_pipeline_of_pipe_failure env sh commands ev0 sh0 pipe_fds hp]
      intro e he
      simp only [List.mem_append] at he
      rcases he with he | he
      · exact pipe_call_not_fork_call e (hev e he)
      · exact catch_block_no_fork _ _ _ _ e he
    refine ⟨[], [], Or.inr hnofork, by simp, ?_, ?_⟩
    · intro i pid own c ch hmem
      have := hnofork _ hmem
      simp [Event.is_fork_call] at this
    · intro hpipe _ _ _ _ _
      have := create_pipes_ok_of_pipe_ok env hpipe (size_sub commands.length 1) 0 sh []
      rw [hp] at this
      simp at this
  | true =>
    obtain ⟨hlen, _, hev0⟩ := hok rfl
    obtain ⟨tail, hevents, htail⟩ := execute_pipeline_events env sh commands ev0 sh0 pipe_fds hp
    have hloop := run_segments_inv env commands.length pipe_fds (fun _ => True)
      (fun i e => e.is_pipe_call = false
        ∧ (∀ j pid own c ch, e = .fork j pid own c ch →
            j = i ∧ c = wire_segment commands.length pipe_fds i own
            ∧ (own.input_file = [] → own.input_fd = 0)
            ∧ (own.output_file = [] → own.output_fd = 1)))
      (fun i segment sh cp _ _ =>
        ⟨fun e he =>
          ⟨(run_segment_events env _ pipe_fds i segment sh cp e he).1,
            (run_segment_events env _ pipe_fds i segment sh cp e he).2.2⟩,
          fun _ => trivial⟩)
      commands 0 sh0 [] (by omega) trivial
    refine ⟨pipe_fds,
      (run_segments env commands.length pipe_fds commands 0 sh0 []).1 ++ tail,
      Or.inl ⟨?_, ?_⟩, ?_, ?_, ?_⟩
    · rw [hevents, hev0, hn1, List.append_assoc]
      simp
    · rw [hlen, hn1]; simp
    · intro e he
      simp only [List.mem_append] at he
      rcases he with he | he
      · obtain ⟨j, _, _, hP⟩ := hloop e he
        exact hP.1
      · rcases htail e he with h | ⟨h, _⟩
        · exact quiet_not_pipe_call e h
        · cases e <;> simp [Event.is_wait] at h; rfl
    · intro i pid own c ch hmem
      rw [hevents] at hmem
      simp only [List.mem_append] at hmem
      rcases hmem with (hmem | hmem) | hmem
      · have := hev _ hmem
        simp [Event.is_pipe_call] at this
      · obtain ⟨j, _, hj, hP⟩ := hloop _ hmem
        obtain ⟨hji, hc, hin, hout⟩ := hP.2 i pid own c ch rfl
        subst hji
        have hi : i < commands.length := by omega
        have hw := wire_segment_fds commands.length pipe_fds i own hi h2
        have hop := run_segments_opened env commands.length pipe_fds commands 0 sh0 []
          i pid own c ch hmem
        rw [hc]
        refine ⟨hi, hw.1, hw.2.1, hin, hout, fun h => ?_, fun h => ?_⟩
        · rw [hevents]
          exact List.mem_append_left _ (List.mem_append_right _ (hop.1 h))
        · rw [hevents]
          exact List.mem_append_left _ (List.mem_append_right _ (hop.2 h))
      · rcases htail _ hmem with h | ⟨h, _⟩
        · simp [Event.is_quiet] at h
        · simp [Event.is_wait] at h
    · intro hpipe hfork hopen hparse i hi
      obtain ⟨_, hall⟩ := run_segments_happy env commands.length pipe_fds hpipe hfork hopen
        commands 0 sh0 [] hparse
      obtain ⟨pid, own, c, ch, hmem, _⟩ := hall i (commands[i]) (List.getElem?_eq_getElem hi)
      refine ⟨pid, own, c, ch, ?_⟩
      rw [hevents]
      simp only [Nat.zero_add] at hmem
      exact List.mem_append_left _ (List.mem_append_right _ hmem)

theorem pipeline_wiring_witness :
    ∃ (pipe_fds : List Int) (rest : List Event),
      (((execute_pipeline Env.friendly Shell.initial
            ["ls".toList, "sort".toList, "wc > n".toList]).events
            = (List.range (["ls".toList, "sort".toList, "wc > n".toList].length - 1)).map
                (fun k =>
                  Event.pipe k (pipe_fds.getD (2 * k) (-1)) (pipe_fds.getD (2 * k + 1) (-1)))
              ++ rest
          ∧ pipe_fds.length = 2 * (["ls".toList, "sort".toList, "wc > n".toList].length - 1))
        ∨ (∀ e ∈ (execute_pipeline Env.friendly Shell.initial
              ["ls".toList, "sort".toList, "wc > n".toList]).events, e.is_fork_call = false))
      ∧ (∀ e ∈ rest, e.is_pipe_call = false)
      ∧ (∀ i pid own c ch,
          Event.fork i pid own c ch ∈ (execute_pipeline Env.friendly Shell.initial
            ["ls".toList, "sort".toList, "wc > n".toList]).events →
          i < ["ls".toList, "sort".toList, "wc > n".toList].length
          ∧ c.input_fd = (if 0 < i then pipe_fds.getD (2 * (i - 1)) (-1) else own.input_fd)
          ∧ c.output_fd
              = (if i + 1 < ["ls".toList, "sort".toList, "wc > n".toList].length
                 then pipe_fds.getD (2 * i + 1) (-1)
                 else own.output_fd)
          ∧ (own.input_file = [] → own.input_fd = 0)
          ∧ (own.output_file = [] → own.output_fd = 1)
          ∧ (own.input_file ≠ [] → Event.opened own.input_file own.input_fd
                ∈ (execute_pipeline Env.friendly Shell.initial
                    ["ls".toList, "sort".toList, "wc > n".toList]).events)
          ∧ (own.output_file ≠ [] → Event.opened own.output_file own.output_fd
                ∈ (execute_pipeline Env.friendly Shell.initial
                    ["ls".toList, "sort".toList, "wc > n".toList]).events)) :=
  let ⟨pipe_fds, rest, h1, h2, h3, _⟩ :=
    pipeline_wiring Env.friendly Shell.initial ["ls".toList, "sort".toList, "wc > n".toList]
      (by decide) (by decide)
  ⟨pipe_fds, rest, h1, h2, h3⟩

/-! ## Theorems: the descriptors of a child -/

theorem create_pipes_single (env : Env) (sh : Shell) (segment : Str) :
    create_pipes env (size_sub [segment].length 1) 0 sh [] = ([], sh, [], true) := by
  have : size_sub [segment].length 1 = 0 := by simp [size_sub, SIZE_MOD]
  rw [this]
  rfl

theorem builtin_name_not_tool (name : Str) (h : is_builtin_name name = true) :
    name ≠ "delep".toList ∧ name ≠ "sb".toList := by
  rcases is_builtin_name_cases name h with h | h | h <;> subst h <;> decide

/-- C9. A line of exactly one segment whose program name is `cd` or `pwd` runs
the built-in in the shell process: `fork` is not called, `execute_pipeline`
returns, and the foreground slot, the background set and the job counter are
unchanged; with the name `exit` the shell terminates with status 0.  In a
line of two or more segments no built-in is run in the shell: the shell never
exits, never changes directory or writes the working directory, and a segment
named `cd`, `pwd` or `exit` is forked and runs `execute_command` like any
other program. -/
theorem builtins_only_for_single_segment (env : Env) (sh : Shell) :
    (∀ segment ev sh1 c, Command.construct env sh segment = (ev, sh1, .ok c) →
      (c.command = "cd".toList ∨ c.command = "pwd".toList →
        (∀ e ∈ (execute_pipeline env sh [segment]).events, e.is_fork_call = false)
        ∧ (execute_pipeline env sh [segment]).outcome = .returned
        ∧ same_jobs (execute_pipeline env sh [segment]).sh sh
        ∧ (execute_pipeline env sh [segment]).events
            = ev ++ (handle_builtin_command env (strip_ampersand c)).1
              ++ (Command.destroy (strip_ampersand c)
                    { sh1 with is_background := wants_background c }).1)
      ∧ (c.command = "exit".toList →
        (execute_pipeline env sh [segment]).outcome = .shell_exit 0
        ∧ (execute_pipeline env sh [segment]).events = ev ++ [.out "exit".toList]))
    ∧ (∀ commands : List Str, 2 ≤ commands.length → commands.length < 2 ^ 63 →
        (execute_pipeline env sh commands).outcome = .returned
        ∧ (∀ e ∈ (execute_pipeline env sh commands).events, e.is_builtin_effect = false)
        ∧ ((∀ t, env.pipe_ok t = true) → (∀ t, (env.fork t).isSome = true) →
            (∀ t f, env.open_ok t f = true) → (∀ segment ∈ commands, parses env segment) →
            ∀ i segment, commands[i]? = some segment →
              ∃ pid own c ch,
                Event.fork i pid own c ch ∈ (execute_pipeline env sh commands).events
                ∧ (∃ c1, parse_arguments (Command.init segment) = .ok c1
                    ∧ c.command = c1.command)
                ∧ (is_builtin_name c.command = true → ∃ t, ch = execute_command env c t))) := by
  constructor
  · intro segment ev sh1 c hcon
    have hc := construct_props env sh segment
    rw [hcon] at hc
    have hp := create_pipes_single env sh segment
    constructor
    · intro hname
      have hseg := run_segment_of_handled env [] 0 segment sh [] ev sh1 c hcon hname
      have hrun := run_segments_of_not_next env 1 [] 0 segment [] sh [] _ hseg (by simp)
      have hex := execute_pipeline_of_returned env sh [segment] [] sh [] hp _ _ _ hrun
      rw [hex]
      have hd := destroy_props (strip_ampersand c)
        { sh1 with is_background := wants_background c }
      have hbe := handle_builtin_events env (strip_ampersand c)
      refine ⟨?_, rfl, ?_, by simp⟩
      · intro e he
        simp only [List.nil_append, List.mem_append] at he
        rcases he with (he | he) | he
        · exact quiet_not_fork_call e (hc.1 e he)
        · exact (hbe e he).1
        · exact quiet_not_fork_call e (hd.1 e he)
      · exact same_jobs_trans hd.2.1 (same_jobs_trans ⟨rfl, rfl, rfl⟩ hc.2.1)
    · intro hname
      have hseg := run_segment_of_exit env [] 0 segment sh [] ev sh1 c hcon hname
      have hrun := run_segments_of_not_next env 1 [] 0 segment [] sh [] _ hseg (by simp)
      have hex := execute_pipeline_of_exited env sh [segment] [] sh [] hp _ _ _ hrun
      rw [hex]
      exact ⟨rfl, by simp⟩
  · intro commands h1 h2
    have hne : commands.length ≠ 1 := by omega
    have hev := create_pipes_events env (size_sub commands.length 1) 0 sh []
    rcases hp : create_pipes env (size_sub commands.length 1) 0 sh []
      with ⟨ev0, sh0, pipe_fds, ok⟩
    rw [hp] at hev
    simp only at hev
    cases ok with
    | false =>
      rw [execute_pipeline_of_pipe_failure env sh commands ev0 sh0 pipe_fds hp]
      refine ⟨rfl, ?_, ?_⟩
      · intro e he
        simp only [List.mem_append] at he
        rcases he with he | he
        · have := hev e he
          cases e <;> simp [Event.is_pipe_call] at this <;> rfl
        · exact quiet_not_builtin_effect e (catch_block_quiet _ _ _ _ e he)
      · intro hpipe _ _ _ _ _ _
        have := create_pipes_ok_of_pipe_ok env hpipe (size_sub commands.length 1) 0 sh []
        rw [hp] at this
        simp at this
    | true =>
      obtain ⟨tail, hevents, htail⟩ :=
        execute_pipeline_events env sh commands ev0 sh0 pipe_fds hp
      have hflow := run_segments_flow env commands.length pipe_fds hne commands 0 sh0 []
      have hloop := run_segments_inv env commands.length pipe_fds (fun _ => True)
        (fun _ e => e.is_builtin_effect = false)
        (fun i segment s cp _ _ =>
          ⟨fun e he => (run_segment_events env _ pipe_fds i segment s cp e he).2.1 hne,
            fun _ => trivial⟩)
        commands 0 sh0 [] (by omega) trivial
      refine ⟨?_, ?_, ?_⟩
      · rcases hr : run_segments env commands.length pipe_fds commands 0 sh0 []
          with ⟨ev1, s1, cp, flow⟩
        rw [hr] at hflow
        cases flow with
        | next => rw [execute_pipeline_of_next env sh commands ev0 sh0 pipe_fds hp _ _ _ hr]
        | returned => exact absurd rfl hflow.1
        | exited => exact absurd rfl hflow.2
        | thrown f =>
          rw [execute_pipeline_of_thrown env sh commands ev0 sh0 pipe_fds hp _ _ _ f hr]
      · intro e he
        rw [hevents] at he
        simp only [List.mem_append] at he
        rcases he with (he | he) | he
        · have := hev e he
          cases e <;> simp [Event.is_pipe_call] at this <;> rfl
        · obtain ⟨_, _, _, hP⟩ := hloop e he
          exact hP
        · rcases htail e he with h | ⟨h, _⟩
          · exact quiet_not_builtin_effect e h
          · cases e <;> simp [Event.is_wait] at h; rfl
      · intro hpipe hfork hopen hparse i segment hseg
        obtain ⟨_, hall⟩ := run_segments_happy env commands.length pipe_fds hpipe hfork hopen
          commands 0 sh0 [] (fun s hs => ⟨hparse s hs, Or.inl hne⟩)
        obtain ⟨pid, own, c, ch, hmem, hc1, hch⟩ := hall i segment hseg
        refine ⟨pid, own, c, ch, ?_, hc1, ?_⟩
        · rw [hevents]
          simp only [Nat.zero_add] at hmem
          exact List.mem_append_left _ (List.mem_append_right _ hmem)
        · intro hb
          have := builtin_name_not_tool c.command hb
          exact hch this.1 this.2

theorem builtins_only_for_single_segment_witness :
    ((∀ e ∈ (execute_pipeline Env.friendly Shell.initial ["cd /tmp".toList]).events,
        e.is_fork_call = false)
      ∧ (execute_pipeline Env.friendly Shell.initial ["cd /tmp".toList]).outcome = .returned
      ∧ same_jobs (execute_pipeline Env.friendly Shell.initial ["cd /tmp".toList]).sh
          Shell.initial
      ∧ (execute_pipeline Env.friendly Shell.initial ["cd /tmp".toList]).events
          = [.chdir "/tmp".toList])
    ∧ (execute_pipeline Env.friendly Shell.initial ["exit".toList]).outcome = .shell_exit 0
    ∧ (execute_pipeline Env.friendly Shell.initial ["cd /tmp".toList, "pwd".toList]).outcome
        = .returned
    ∧ (∀ e ∈ (execute_pipeline Env.friendly Shell.initial
          ["cd /tmp".toList, "pwd".toList]).events, e.is_builtin_effect = false)
    ∧ (∃ pid own c ch,
        Event.fork 0 pid own c ch
          ∈ (execute_pipeline Env.friendly Shell.initial
              ["cd /tmp".toList, "pwd".toList]).events
        ∧ (∃ c1, parse_arguments (Command.init "cd /tmp".toList) = .ok c1
            ∧ c.command = c1.command)
        ∧ (is_builtin_name c.command = true → ∃ t, ch = execute_command Env.friendly c t)) :=
  have h := builtins_only_for_single_segment Env.friendly Shell.initial
  have hcd := (h.1 "cd /tmp".toList [] Shell.initial
    { Command.init "cd".toList with arguments := ["cd".toList, "/tmp".toList] } rfl).1
    (Or.inl rfl)
  have hexit := (h.1 "exit".toList [] Shell.initial
    { Command.init "exit".toList with arguments := ["exit".toList] } rfl).2 rfl
  have hpipe := h.2 ["cd /tmp".toList, "pwd".toList] (by decide) (by decide)
  ⟨⟨hcd.1, hcd.2.1, hcd.2.2.1, by decide⟩, hexit.1, hpipe.1, hpipe.2.1,
    hpipe.2.2 (fun _ => rfl) (fun _ => rfl) (fun _ _ => rfl)
      (fun segment hs => by
        simp only [List.mem_cons, List.mem_singleton, List.not_mem_nil, or_false] at hs
        rcases hs with hs | hs
        · subst hs; exact ⟨_, _, rfl, rfl⟩
        · subst hs; exact ⟨_, _, rfl, rfl⟩)
      0 "cd /tmp".toList rfl⟩

/-! ## Theorems: background jobs -/

theorem setup_io_redirection_no_out (env : Env) (sh : Shell) (c : Command) :
    ∀ e ∈ (setup_io_redirection env sh c).1, e.is_out = false := by
  unfold setup_io_redirection
  by_cases hin : c.input_file = []
  · simp only [hin, ne_eq, not_true_eq_false, if_false]
    by_cases hout : c.output_file = []
    · simp only [hout, ne_eq, not_true_eq_false, if_false]
      simp
    · simp only [hout, ne_eq, not_false_eq_true, if_true]
      rcases sys_open env sh c.output_file (.file_out c.output_file) with ⟨r, sh2⟩
      cases r <;> simp [Event.is_out]
  · simp only [hin, ne_eq, not_false_eq_true, if_true]
    rcases sys_open env sh c.input_file (.file_in c.input_file) with ⟨r, sh1⟩
    cases r with
    | none => simp [Event.is_out]
    | some fd =>
      simp only []
      by_cases hout : c.output_file = []
      · simp only [hout, ne_eq, not_true_eq_false, if_false]
        simp [Event.is_out]
      · simp only [hout, ne_eq, not_false_eq_true, if_true]
        rcases sys_open env sh1 c.output_file (.file_out c.output_file) with ⟨r, sh2⟩
        cases r <;> simp [Event.is_out]

theorem construct_no_out (env : Env) (sh : Shell) (segment : Str) :
    ∀ e ∈ (Command.construct env sh segment).1, e.is_out = false := by
  unfold Command.construct parse_command
  cases parse_arguments (Command.init segment) with
  | error e => simp [Event.is_out]
  | ok c1 =>
    simp only []
    cases handle_wildcards env.glob c1.arguments with
    | error e => simp [Event.is_out]
    | ok args =>
      simp only []
      have hs := setup_io_redirection_no_out env sh { c1 with arguments := args }
      rcases hr : setup_io_redirection env sh { c1 with arguments := args } with ⟨ev, sh1, r⟩
      rw [hr] at hs
      cases r with
      | error e =>
        intro x hx
        simp only [List.mem_append, List.mem_singleton] at hx
        rcases hx with hx | hx
        · exact hs x hx
        · subst hx; rfl
      | ok c => exact hs

theorem parent_after_fork_background (env : Env) (n : Nat) (pipe_fds : List Int) (i : Nat)
    (comm_pipe : Int × Int) (c : Command) (pid : Nat) (sh : Shell)
    (hb : sh.is_background = true) :
    ∃ post,
      (parent_after_fork env n pipe_fds i comm_pipe c pid sh).1
        = .out (job_line sh.job_number pid) :: post
      ∧ (∀ e ∈ post, e.is_quiet = true ∧ e.is_out = false)
      ∧ (parent_after_fork env n pipe_fds i comm_pipe c pid sh).2.is_background = true
      ∧ (parent_after_fork env n pipe_fds i comm_pipe c pid sh).2.job_number
          = size_add sh.job_number 1
      ∧ (parent_after_fork env n pipe_fds i comm_pipe c pid sh).2.background_pids
          = insert pid sh.background_pids := by
  have hp := parent_after_fork_props env n pipe_fds i comm_pipe c pid sh
  have ht := track_child_props pid sh
  obtain ⟨ht1, ht2, ht3, _⟩ := ht.2.2.2.2.1 hb
  have h2 := close_used_pipe_ends_props n pipe_fds i (track_child pid sh).2
  have hbg : (close_used_pipe_ends n pipe_fds i (track_child pid sh).2).2.is_background
      = true := by
    rw [h2.2.2.1, ht.2.2.2.1, hb]
  have h3 := collect_delep_output_props env comm_pipe c pid
    (close_used_pipe_ends n pipe_fds i (track_child pid sh).2).2
  have h4 := destroy_props c (collect_delep_output env comm_pipe c pid
    (close_used_pipe_ends n pipe_fds i (track_child pid sh).2).2).2
  refine ⟨(close_used_pipe_ends n pipe_fds i (track_child pid sh).2).1
      ++ (collect_delep_output env comm_pipe c pid
            (close_used_pipe_ends n pipe_fds i (track_child pid sh).2).2).1
      ++ (Command.destroy c (collect_delep_output env comm_pipe c pid
            (close_used_pipe_ends n pipe_fds i (track_child pid sh).2).2).2).1,
    ?_, ?_, ?_, ?_, ?_⟩
  · unfold parent_after_fork
    simp only []
    rw [ht1]
    simp
  · intro e he
    simp only [List.mem_append] at he
    rcases he with (he | he) | he
    · exact ⟨h2.1 e he, close_used_pipe_ends_no_out n pipe_fds i _ e he⟩
    · refine ⟨?_, collect_delep_output_no_out env comm_pipe c pid _ hbg e he⟩
      rcases h3.1 e he with h | ⟨_, h⟩
      · exact h
      · rw [hbg] at h
        exact absurd h (by decide)
    · exact ⟨h4.1 e he, destroy_no_out c _ e he⟩
  · rw [hp.2.2.2.1, hb]
  · rw [hp.2.2.2.2.1.1, ht2]
  · rw [hp.2.2.2.2.1.2.2, ht3]

theorem wire_segment_single (own : Command) : wire_segment 1 [] 0 own = own := by
  unfold wire_segment
  have : size_sub 1 1 = 0 := by decide
  simp [this]

theorem size_add_one (n : Nat) (h : n + 1 < SIZE_MOD) : size_add n 1 = n + 1 := by
  unfold size_add
  exact Nat.mod_eq_of_lt h

theorem wants_background_iff (c : Command) :
    wants_background c = true ↔ c.arguments.getLast? = some ['&'] := by
  unfold wants_background
  constructor
  · intro h
    simp only [Bool.and_eq_true, decide_eq_true_eq, beq_iff_eq] at h
    exact h.2
  · intro h
    simp only [Bool.and_eq_true, decide_eq_true_eq, beq_iff_eq]
    refine ⟨?_, h⟩
    intro hnil
    rw [hnil] at h
    simp at h

/-- C10. A line of one segment whose last argument is `&` and whose program
name is not `exit`, `cd` or `pwd`, run from a state with job counter `n` below
`2^64 - 1` where `pipe` and `fork` succeed: the `&` is removed from the
arguments, `fork` is called exactly once and yields a pid `p`, the next thing
the shell does is print `[n] p`, nothing else is printed on standard output,
`p` is inserted into the background set, the job counter becomes `n + 1`, the
foreground slot is 0 afterwards, and `execute_pipeline` returns without a
`waitpid`. -/
theorem background_job_is_announced (env : Env) (sh : Shell) (segment : Str)
    (ev : List Event) (sh1 : Shell) (c0 : Command)
    (hcon : Command.construct env sh segment = (ev, sh1, .ok c0))
    (hamp : c0.arguments.getLast? = some ['&'])
    (hname : is_builtin_name c0.command = false)
    (hpipe : ∀ t, env.pipe_ok t = true) (hfork : ∀ t, (env.fork t).isSome = true)
    (hn : sh.job_number + 1 < SIZE_MOD) :
    ∃ p own ch pre post,
      (∃ t, env.fork t = some p)
      ∧ own.arguments = c0.arguments.dropLast
      ∧ own.command = c0.command
      ∧ (execute_pipeline env sh [segment]).events
          = pre ++ [Event.fork 0 p own own ch, Event.out (job_line sh.job_number p)] ++ post
      ∧ (∀ e ∈ pre ++ post,
          e.is_fork_call = false ∧ e.is_wait = false ∧ e.is_out = false)
      ∧ (execute_pipeline env sh [segment]).outcome = .returned
      ∧ (execute_pipeline env sh [segment]).sh.background_pids
          = insert p sh.background_pids
      ∧ (execute_pipeline env sh [segment]).sh.job_number = sh.job_number + 1
      ∧ (execute_pipeline env sh [segment]).sh.foreground_pid = 0 := by
  have hwb : wants_background c0 = true := (wants_background_iff c0).mpr hamp
  have hc := construct_props env sh segment
  have hco := construct_no_out env sh segment
  rw [hcon] at hc hco
  simp only at hc hco
  have hp := create_pipes_single env sh segment
  have hseg := run_segment_of_spawn env 1 [] 0 segment sh [] ev sh1 c0 hcon (Or.inr hname)
  rw [hwb] at hseg
  -- the side-channel pipe
  have hm := make_comm_pipe_props env 0 (strip_ampersand c0)
    { sh1 with is_background := true }
  have hsp : spawn_segment env 1 [] 0 (strip_ampersand c0)
      { sh1 with is_background := true } []
      = spawn_segment env 1 [] 0 (strip_ampersand c0) { sh1 with is_background := true } [] :=
    rfl
  conv at hsp => rhs; unfold spawn_segment
  rw [wire_segment_single] at hsp
  simp only [] at hsp
  rcases hmk : make_comm_pipe env 0 (strip_ampersand c0) { sh1 with is_background := true }
    with ⟨ev1, sh2, r⟩
  rw [hmk] at hm hsp
  simp only at hm
  cases r with
  | none => exact absurd rfl (hm.2.2.2.2.2 hpipe)
  | some comm =>
    simp only [] at hsp
    cases hf : env.fork sh2.clock with
    | none =>
      have := hfork sh2.clock
      rw [hf] at this
      simp at this
    | some p =>
      rw [hf] at hsp
      simp only [] at hsp
      obtain ⟨post, hpost, hquiet, hbg, hjob, hset⟩ :=
        parent_after_fork_background env 1 [] 0 comm (strip_ampersand c0) p
          { sh2 with clock := sh2.clock + 1 } (by simpa using hm.2.2.1)
      rw [hsp] at hseg
      simp only [] at hseg
      have hrun := run_segments_of_next env 1 [] 0 segment [] sh [] _ _ _ hseg
      have hnil : ∀ (s : Shell) (cp : List Nat),
          run_segments env 1 [] [] (0 + 1) s cp = ([], s, cp, .next) := fun _ _ => rfl
      rw [hnil] at hrun
      simp only [List.append_nil] at hrun
      have hex := execute_pipeline_of_next env sh [segment] [] sh [] hp _ _ _ hrun
      rw [hex]
      have hjn : sh2.job_number = sh.job_number := hm.2.1.1.trans hc.2.1.1
      refine ⟨p, strip_ampersand c0, child_process env [] 0 comm (strip_ampersand c0) sh2.fds,
        ev ++ ev1, post, ⟨_, hf⟩,
        (strip_ampersand_fields c0).2.2.2.2.2.1 hwb, (strip_ampersand_fields c0).1,
        by rw [hpost, hbg]; simp [hjn], ?_, rfl, ?_, ?_, rfl⟩
      · intro e he
        simp only [List.mem_append] at he
        rcases he with (he | he) | he
        · exact ⟨quiet_not_fork_call e (hc.1 e he), quiet_not_wait e (hc.1 e he), hco e he⟩
        · exact ⟨quiet_not_fork_call e (hm.1 e he).1, quiet_not_wait e (hm.1 e he).1,
            (hm.1 e he).2⟩
        · exact ⟨quiet_not_fork_call e (hquiet e he).1, quiet_not_wait e (hquiet e he).1,
            (hquiet e he).2⟩
      · refine hset.trans ?_
        show insert p sh2.background_pids = _
        rw [hm.2.1.2.2]
        exact congrArg _ hc.2.1.2.2
      · refine hjob.trans ?_
        show size_add sh2.job_number 1 = _
        rw [hm.2.1.1]
        show size_add sh1.job_number 1 = _
        rw [hc.2.1.1]
        exact size_add_one _ hn

theorem background_job_is_announced_witness :
    Command.construct Env.friendly Shell.initial "sleep 5 &".toList
        = ([], Shell.initial,
            .ok { Command.init "sleep".toList with
                  arguments := ["sleep".toList, "5".toList, "&".toList] })
    ∧ Shell.initial.job_number + 1 < SIZE_MOD
    ∧ (∃ p own ch pre post,
        (∃ t, Env.friendly.fork t = some p)
        ∧ own.arguments = ["sleep".toList, "5".toList, "&".toList].dropLast
        ∧ own.command = "sleep".toList
        ∧ (execute_pipeline Env.friendly Shell.initial ["sleep 5 &".toList]).events
            = pre ++ [Event.fork 0 p own own ch,
                      Event.out (job_line Shell.initial.job_number p)] ++ post
        ∧ (∀ e ∈ pre ++ post,
            e.is_fork_call = false ∧ e.is_wait = false ∧ e.is_out = false)
        ∧ (execute_pipeline Env.friendly Shell.initial ["sleep 5 &".toList]).outcome
            = .returned
        ∧ (execute_pipeline Env.friendly Shell.initial
              ["sleep 5 &".toList]).sh.background_pids
            = insert p Shell.initial.background_pids
        ∧ (execute_pipeline Env.friendly Shell.initial ["sleep 5 &".toList]).sh.job_number
            = Shell.initial.job_number + 1
        ∧ (execute_pipeline Env.friendly Shell.initial
              ["sleep 5 &".toList]).sh.foreground_pid = 0)
    ∧ (execute_pipeline Env.friendly Shell.initial ["sleep 5 &".toList]).events.filterMap
          (fun e => match e with
            | .fork i p own _ _ => some (Sum.inl (i, p, own.arguments))
            | .out line => some (Sum.inr line)
            | _ => none)
        = [Sum.inl (0, 100, ["sleep".toList, "5".toList]), Sum.inr "[1] 100".toList]
    ∧ (execute_pipeline Env.friendly Shell.initial ["sleep 5 &".toList]).sh.job_number = 2
    ∧ (execute_pipeline Env.friendly Shell.initial ["sleep 5 &".toList]).sh.background_pids
        = {100} :=
  ⟨rfl, by decide,
    background_job_is_announced Env.friendly Shell.initial "sleep 5 &".toList [] Shell.initial
      { Command.init "sleep".toList with
        arguments := ["sleep".toList, "5".toList, "&".toList] }
      rfl (by decide) (by decide) (fun _ => rfl) (fun _ => rfl) (by decide),
    by decide, by decide, by decide⟩

/-- C10 fails as stated.  In `cd /tmp &` the last argument is `&` and the
line has one segment, but the name is a built-in: the `&` is removed, the
shell changes directory itself, `fork` is not called, nothing is printed, the
background set stays empty and the job counter stays 1. -/
theorem background_builtin_is_not_forked :
    (Command.construct Env.friendly Shell.initial "cd /tmp &".toList).2.2.toOption.map
        (fun c => c.arguments.getLast?) = some (some ['&'])
    ∧ (execute_pipeline Env.friendly Shell.initial ["cd /tmp &".toList]).events
        = [.chdir "/tmp".toList]
    ∧ (execute_pipeline Env.friendly Shell.initial ["cd /tmp &".toList]).sh.job_number = 1
    ∧ (execute_pipeline Env.friendly Shell.initial ["cd /tmp &".toList]).sh.background_pids
        = ∅ := by
  refine ⟨by decide, by decide, by decide, by decide⟩

/-! ## Theorems: the signal handlers -/

/-- C12. `ctrl_c_handler` with an empty foreground slot unwinds, does
nothing else and leaves the state as it is.  With the pid `p` in the
foreground slot it sends `SIGTERM` to `p`, then `SIGKILL` to `p` exactly when
the first `kill` failed, sends no other signal, sets the foreground slot to 0
and changes nothing else in the state; it returns to the interrupted code. -/
theorem ctrl_c_handler_interrupts_foreground (kill_ok : Int → Signal → Bool) (sh : Shell) :
    (sh.foreground_pid = 0 → ctrl_c_handler kill_ok sh = ([], sh, .unwound))
    ∧ (sh.foreground_pid ≠ 0 →
        (ctrl_c_handler kill_ok sh).1.filterMap Event.signal_sent
          = (if kill_ok (sh.foreground_pid : Int) .SIGTERM
             then [((sh.foreground_pid : Int), Signal.SIGTERM)]
             else [((sh.foreground_pid : Int), Signal.SIGTERM),
                   ((sh.foreground_pid : Int), Signal.SIGKILL)])
        ∧ (ctrl_c_handler kill_ok sh).2.1 = { sh with foreground_pid := 0 }
        ∧ (ctrl_c_handler kill_ok sh).2.1.background_pids = sh.background_pids
        ∧ (ctrl_c_handler kill_ok sh).2.1.job_number = sh.job_number
        ∧ (ctrl_c_handler kill_ok sh).2.1.foreground_pid = 0
        ∧ (ctrl_c_handler kill_ok sh).2.2 = .resumed) := by
  constructor
  · intro h
    unfold ctrl_c_handler
    rw [if_pos h]
  · intro h
    unfold ctrl_c_handler
    rw [if_neg h]
    refine ⟨?_, rfl, rfl, rfl, rfl, rfl⟩
    cases kill_ok (sh.foreground_pid : Int) .SIGTERM <;> simp [Event.signal_sent]

theorem ctrl_c_handler_interrupts_foreground_witness :
    (ctrl_c_handler (fun _ _ => false)
        { Shell.initial with foreground_pid := 7, background_pids := {5} }).1.filterMap
          Event.signal_sent
      = [(7, Signal.SIGTERM), (7, Signal.SIGKILL)]
    ∧ (ctrl_c_handler (fun _ _ => false)
        { Shell.initial with foreground_pid := 7, background_pids := {5} }).2.1
      = { Shell.initial with foreground_pid := 0, background_pids := {5} }
    ∧ ctrl_c_handler (fun _ _ => true) Shell.initial = ([], Shell.initial, .unwound) :=
  have h := ctrl_c_handler_interrupts_foreground (fun _ _ => false)
    { Shell.initial with foreground_pid := 7, background_pids := {5} }
  ⟨(h.2 (by decide)).1, (h.2 (by decide)).2.1,
    (ctrl_c_handler_interrupts_foreground (fun _ _ => true) Shell.initial).1 rfl⟩

/-- C13. `ctrl_z_handler` with an empty foreground slot unwinds, prints
nothing and leaves the state as it is.  With the pid `p` in the foreground
slot and the counter at `n` it prints an empty line and `[n] p`, sends
`SIGSTOP` to `p` and no other signal, and leaves a state in which `p` is added
to the background set, the foreground slot is 0 and the counter is `n + 1`
taken modulo `2^64`, that is `n + 1` unless `n` is `2^64 - 1`; nothing else in
the state changes. -/
theorem ctrl_z_handler_suspends_foreground (sh : Shell) :
    (sh.foreground_pid = 0 → ctrl_z_handler sh = ([], sh, .unwound))
    ∧ (sh.foreground_pid ≠ 0 →
        (ctrl_z_handler sh).1.filterMap Event.printed
          = [[], job_line sh.job_number sh.foreground_pid]
        ∧ (ctrl_z_handler sh).1.filterMap Event.signal_sent
          = [((sh.foreground_pid : Int), Signal.SIGSTOP)]
        ∧ (ctrl_z_handler sh).2.1.background_pids
          = insert sh.foreground_pid sh.background_pids
        ∧ (ctrl_z_handler sh).2.1.foreground_pid = 0
        ∧ (ctrl_z_handler sh).2.1.job_number = size_add sh.job_number 1
        ∧ (sh.job_number + 1 < SIZE_MOD → (ctrl_z_handler sh).2.1.job_number = sh.job_number + 1)
        ∧ (ctrl_z_handler sh).2.1.is_background = sh.is_background
        ∧ (ctrl_z_handler sh).2.1.fds = sh.fds
        ∧ (ctrl_z_handler sh).2.1.clock = sh.clock
        ∧ (ctrl_z_handler sh).2.2 = .resumed) := by
  constructor
  · intro h
    unfold ctrl_z_handler
    rw [if_pos h]
  · intro h
    unfold ctrl_z_handler
    rw [if_neg h]
    refine ⟨by simp [Event.printed], by simp [Event.signal_sent], rfl, rfl, rfl, ?_, rfl, rfl,
      rfl, rfl⟩
    intro hn
    exact size_add_one _ hn

theorem ctrl_z_handler_suspends_foreground_witness :
    (ctrl_z_handler { Shell.initial with foreground_pid := 7, job_number := 3 }).1
      = [.out [], .out "[3] 7".toList, .kill 7 .SIGSTOP]
    ∧ (ctrl_z_handler
        { Shell.initial with foreground_pid := 7, job_number := 3 }).2.1.background_pids = {7}
    ∧ (ctrl_z_handler
        { Shell.initial with foreground_pid := 7, job_number := 3 }).2.1.job_number = 4
    ∧ ctrl_z_handler Shell.initial = ([], Shell.initial, .unwound) :=
  have h := ctrl_z_handler_suspends_foreground
    { Shell.initial with foreground_pid := 7, job_number := 3 }
  ⟨by decide, (h.2 (by decide)).2.2.1, (h.2 (by decide)).2.2.2.2.2.1 (by decide),
    (ctrl_z_handler_suspends_foreground Shell.initial).1 rfl⟩

theorem child_signal_handler_frame : ∀ (returns : List Int) (sh : Shell),
    (child_signal_handler returns sh).background_pids
        = sh.background_pids \ (reaped_pids returns).toFinset
    ∧ (child_signal_handler returns sh).foreground_pid = sh.foreground_pid
    ∧ (child_signal_handler returns sh).job_number = sh.job_number
    ∧ (child_signal_handler returns sh).is_background = sh.is_background
    ∧ (child_signal_handler returns sh).fds = sh.fds
    ∧ (child_signal_handler returns sh).clock = sh.clock := by
  intro returns
  induction returns with
  | nil => intro sh; simp [child_signal_handler, reaped_pids]
  | cons pid rest ih =>
    intro sh
    unfold child_signal_handler
    by_cases hp : pid > 0
    · rw [if_pos hp]
      obtain ⟨h1, h2, h3, h4, h5, h6⟩ :=
        ih { sh with background_pids := sh.background_pids.erase pid.toNat }
      refine ⟨?_, h2, h3, h4, h5, h6⟩
      rw [h1]
      ext x
      simp only [reaped_pids, List.takeWhile_cons, hp, decide_True, if_true, List.map_cons,
        List.toFinset_cons, Finset.mem_sdiff, Finset.mem_erase, Finset.mem_insert, not_or]
      tauto
    · rw [if_neg hp]
      simp [reaped_pids, List.takeWhile_cons, hp]

/-- C14. `child_signal_handler` removes from the background set the pids
its reap loop got (the values of `waitpid` up to the first one that is not
positive) and no other: the new set is the old one without them.  The
foreground slot, the job counter and the rest of the state do not change, and
when none of the reaped pids is in the set the set does not change. -/
theorem child_signal_handler_removes_reaped (returns : List Int) (sh : Shell) :
    (∀ p, p ∈ (child_signal_handler returns sh).background_pids
        ↔ p ∈ sh.background_pids ∧ p ∉ reaped_pids returns)
    ∧ (child_signal_handler returns sh).foreground_pid = sh.foreground_pid
    ∧ (child_signal_handler returns sh).job_number = sh.job_number
    ∧ (child_signal_handler returns sh).is_background = sh.is_background
    ∧ (child_signal_handler returns sh).fds = sh.fds
    ∧ (child_signal_handler returns sh).clock = sh.clock
    ∧ ((∀ p ∈ reaped_pids returns, p ∉ sh.background_pids) →
        child_signal_handler returns sh = sh)
    ∧ child_signal_handler [12, 30, 0, 11]
        { Shell.initial with background_pids := {11, 12}, foreground_pid := 30 }
      = { Shell.initial with background_pids := {11}, foreground_pid := 30 } := by
  obtain ⟨h1, h2, h3, h4, h5, h6⟩ := child_signal_handler_frame returns sh
  refine ⟨?_, h2, h3, h4, h5, h6, ?_, by decide⟩
  · intro p
    rw [h1]
    simp
  · intro hnot
    have hb : (child_signal_handler returns sh).background_pids = sh.background_pids := by
      rw [h1]
      ext x
      simp only [Finset.mem_sdiff, List.mem_toFinset, and_iff_left_iff_imp]
      intro hx hr
      exact hnot x hr hx
    rcases hc : child_signal_handler returns sh with ⟨a, b, c, d, e, f⟩
    rw [hc] at h2 h3 h4 h5 h6 hb
    simp only at h2 h3 h4 h5 h6 hb
    subst h2 h3 h4 h5 h6 hb
    rfl

/-! ## Theorems: the job counter -/

theorem digitChar_ne_bracket (k : Nat) : Nat.digitChar k ≠ '[' := by
  by_cases h : k < 16
  · interval_cases k <;> decide
  · obtain ⟨m, rfl⟩ := Nat.exists_eq_add_of_le (Nat.le_of_not_lt h)
    rw [Nat.add_comm]
    simp [Nat.digitChar]

theorem toDigitsCore_head (b : Nat) : ∀ (fuel n : Nat) (ds : List Char),
    ds.head? ≠ some '[' → (Nat.toDigitsCore b fuel n ds).head? ≠ some '[' := by
  intro fuel
  induction fuel with
  | zero => intro n ds h; simpa [Nat.toDigitsCore] using h
  | succ fuel ih =>
    intro n ds h
    unfold Nat.toDigitsCore
    simp only []
    split
    · simp only [List.head?_cons, ne_eq, Option.some.injEq]
      exact digitChar_ne_bracket _
    · apply ih
      simp only [List.head?_cons, ne_eq, Option.some.injEq]
      exact digitChar_ne_bracket _

theorem show_int_not_announcement (i : Int) :
    (Event.out (show_int i)).is_announcement = false := by
  unfold Event.is_announcement show_int
  simp only [beq_eq_false_iff_ne, ne_eq]
  split
  · simp
  · exact toDigitsCore_head 10 _ _ [] (by simp)

theorem job_line_is_announcement (n pid : Nat) :
    (Event.out (job_line n pid)).is_announcement = true := by
  simp [Event.is_announcement, job_line]

theorem not_out_not_announcement (e : Event) (h : e.is_out = false) :
    e.is_announcement = false := by
  cases e <;> simp [Event.is_out] at h <;> rfl

theorem announce_all_append : ∀ (ps qs : List Nat) (n : Nat),
    (announce_all n (ps ++ qs)).1
        = (announce_all n ps).1 ++ (announce_all (announce_all n ps).2 qs).1
    ∧ (announce_all n (ps ++ qs)).2 = (announce_all (announce_all n ps).2 qs).2 := by
  intro ps
  induction ps with
  | nil => intro qs n; simp [announce_all]
  | cons p ps ih =>
    intro qs n
    obtain ⟨h1, h2⟩ := ih qs (size_add n 1)
    simp only [List.cons_append, announce_all]
    exact ⟨congrArg _ h1, h2⟩

theorem announce_all_no_wrap : ∀ (pids : List Nat) (n : Nat), n + pids.length < SIZE_MOD →
    (announce_all n pids).1
        = List.zipWith (fun m p => Event.out (job_line m p)) (List.range' n pids.length) pids
    ∧ (announce_all n pids).2 = n + pids.length := by
  intro pids
  induction pids with
  | nil => intro n _; simp [announce_all]
  | cons p ps ih =>
    intro n h
    simp only [List.length_cons] at h
    have h1 : size_add n 1 = n + 1 := size_add_one n (by omega)
    obtain ⟨h2, h3⟩ := ih (n + 1) (by omega)
    simp only [announce_all, h1, h2, h3, List.length_cons, List.range'_succ, List.zipWith_cons_cons,
      true_and]
    omega

theorem announces_of_silent (a b : Shell) (ev : List Event)
    (h : ∀ e ∈ ev, e.is_announcement = false) (hn : b.job_number = a.job_number) :
    announces a ev b := by
  refine ⟨[], ?_, by simpa [announce_all] using hn⟩
  simp only [announce_all, List.filter_eq_nil_iff]
  intro e he
  simp [h e he]

theorem announces_trans {a b c : Shell} {ev1 ev2 : List Event}
    (h1 : announces a ev1 b) (h2 : announces b ev2 c) : announces a (ev1 ++ ev2) c := by
  obtain ⟨ps, hp1, hp2⟩ := h1
  obtain ⟨qs, hq1, hq2⟩ := h2
  refine ⟨ps ++ qs, ?_, ?_⟩
  · rw [List.filter_append, hp1, hq1, hp2, (announce_all_append ps qs a.job_number).1]
  · rw [hq2, hp2, (announce_all_append ps qs a.job_number).2]

theorem announces_job_number {a a1 b b1 : Shell} {ev : List Event} (h : announces a ev b)
    (ha : a1.job_number = a.job_number) (hb : b1.job_number = b.job_number) :
    announces a1 ev b1 := by
  obtain ⟨ps, h1, h2⟩ := h
  exact ⟨ps, by rw [ha]; exact h1, by rw [ha, hb]; exact h2⟩

theorem delep_entries_loop_silent : ∀ (fuel : Nat) (ss : Str) (pids_lock pids_nolock : List Int)
    (ev : List Event), (∀ e ∈ ev, e.is_announcement = false) →
    ∀ e ∈ (delep_entries_loop fuel ss pids_lock pids_nolock ev).2.2,
      e.is_announcement = false := by
  intro fuel
  induction fuel with
  | zero => intro ss l n ev h; simpa [delep_entries_loop] using h
  | succ fuel ih =>
    intro ss l n ev h
    unfold delep_entries_loop
    split
    · exact h
    · split
      · exact ih _ _ _ _ h
      · split
        · exact ih _ _ _ _ h
        · simp only []
          split
          · apply ih
            intro e he
            simp only [List.mem_append, List.mem_singleton] at he
            rcases he with he | he
            · exact h e he
            · subst he; rfl
          · split
            · exact ih _ _ _ _ h
            · split
              · exact ih _ _ _ _ h
              · exact ih _ _ _ _ h

theorem kill_all_silent (env : Env) : ∀ (pids : List Int),
    ∀ e ∈ kill_all env pids, e.is_announcement = false := by
  intro pids
  induction pids with
  | nil => intro e he; simp [kill_all] at he
  | cons p ps ih =>
    intro e he
    unfold kill_all at he
    simp only [List.mem_append] at he
    rcases he with he | he
    · split at he
      · simp only [List.mem_cons, List.mem_singleton, List.not_mem_nil, or_false] at he
        rcases he with he | he
        · subst he; rfl
        · subst he; simp [Event.is_announcement]
      · simp only [List.mem_cons, List.mem_singleton, List.not_mem_nil, or_false] at he
        rcases he with he | he
        · subst he; rfl
        · subst he; rfl
    · exact ih e he

theorem delep_dialogue_silent (env : Env) (filename : Str) (pids_lock pids_nolock : List Int)
    (warnings : List Event) (hq : ∀ e ∈ warnings, e.is_announcement = false) :
    ∀ e ∈ delep_dialogue env filename pids_lock pids_nolock warnings,
      e.is_announcement = false := by
  have hk := kill_all_silent env
  have hm : ∀ l : List Int, ∀ e ∈ l.map (fun p => Event.out (show_int p)),
      e.is_announcement = false := by
    intro l e he
    simp only [List.mem_map] at he
    obtain ⟨p, _, rfl⟩ := he
    exact show_int_not_announcement p
  have hlist : ∀ e ∈
      [Event.out "Following PIDs have opened the given file in lock mode:".toList]
        ++ pids_lock.map (fun p => Event.out (show_int p))
        ++ [Event.out "Following PIDs have opened the given file in normal mode:".toList]
        ++ pids_nolock.map (fun p => Event.out (show_int p))
        ++ [Event.out "Do you want to kill all the processes using the file? (yes/no): ".toList],
      e.is_announcement = false := by
    intro e he
    simp only [List.mem_append, List.mem_singleton] at he
    rcases he with (((he | he) | he) | he) | he
    · subst he; decide
    · exact hm _ e he
    · subst he; decide
    · exact hm _ e he
    · subst he; decide
  unfold delep_dialogue
  simp only []
  intro e he
  split at he
  · simp only [List.mem_append, List.mem_singleton] at he
    rcases he with he | he
    · exact hq e he
    · subst he; decide
  · split at he
    · simp only [List.mem_append, List.mem_singleton] at he
      rcases he with (he | he) | he
      · exact hq e he
      · exact hlist e (by simpa only [List.mem_append, List.mem_singleton] using he)
      · subst he; decide
    · split at he
      · simp only [List.mem_append] at he
        rcases he with ((he | he) | he) | he
        · exact hq e he
        · exact hlist e (by simpa only [List.mem_append] using he)
        · exact hk _ e he
        · split at he
          · simp only [List.mem_cons, List.mem_singleton, List.not_mem_nil, or_false] at he
            rcases he with he | he
            · subst he; rfl
            · subst he; simp [Event.is_announcement]
          · simp only [List.mem_cons, List.mem_singleton, List.not_mem_nil, or_false] at he
            rcases he with he | he
            · subst he; rfl
            · subst he; rfl
      · simp only [List.mem_append, List.mem_singleton] at he
        rcases he with (he | he) | he
        · exact hq e he
        · exact hlist e (by simpa only [List.mem_append, List.mem_singleton] using he)
        · subst he; decide

theorem handle_delep_output_silent (env : Env) (pid : Nat) (filename : Str) :
    ∀ e ∈ handle_delep_output env pid filename, e.is_announcement = false := by
  unfold handle_delep_output
  split
  · intro e he
    simp only [List.mem_singleton] at he
    subst he; rfl
  · exact delep_dialogue_silent env filename _ _ _
      (delep_entries_loop_silent _ _ [] [] [] (by simp))

theorem handle_builtin_silent (env : Env) (c : Command) :
    ∀ e ∈ (handle_builtin_command env c).1, e.is_announcement = false := by
  unfold handle_builtin_command
  (repeat' split) <;> simp [Event.is_announcement]

theorem collect_delep_output_silent (env : Env) (comm_pipe : Int × Int) (c : Command)
    (pid : Nat) (sh : Shell) :
    ∀ e ∈ (collect_delep_output env comm_pipe c pid sh).1, e.is_announcement = false := by
  unfold collect_delep_output
  split
  · intro e he
    simp only [List.mem_append, List.mem_singleton] at he
    rcases he with (he | he) | he
    · subst he; rfl
    · split at he
      · simp only [List.mem_append, List.mem_singleton] at he
        rcases he with he | he
        · subst he; rfl
        · split at he
          · exact handle_delep_output_silent env pid _ e he
          · simp at he
      · simp at he
    · subst he; rfl
  · simp

theorem track_child_announces (pid : Nat) (sh : Shell) :
    announces sh (track_child pid sh).1 (track_child pid sh).2 := by
  unfold track_child
  cases hb : sh.is_background with
  | true =>
    refine ⟨[pid], ?_, ?_⟩
    · simp [announce_all, job_line_is_announcement]
    · simp [announce_all]
  | false =>
    exact announces_of_silent _ _ _ (by simp) (by simp)

theorem announces_of_closes_only {a b : Shell} {ev : List Event}
    (h : ∀ e ∈ ev, e.is_announcement = false) (hc : closes_only a b) : announces a ev b :=
  announces_of_silent a b ev h hc.1.1

theorem parent_after_fork_announces (env : Env) (n : Nat) (pipe_fds : List Int) (i : Nat)
    (comm_pipe : Int × Int) (c : Command) (pid : Nat) (sh : Shell) :
    announces sh (parent_after_fork env n pipe_fds i comm_pipe c pid sh).1
      (parent_after_fork env n pipe_fds i comm_pipe c pid sh).2 := by
  have h1 := track_child_announces pid sh
  have h2 : announces (track_child pid sh).2
      (close_used_pipe_ends n pipe_fds i (track_child pid sh).2).1
      (close_used_pipe_ends n pipe_fds i (track_child pid sh).2).2 :=
    announces_of_closes_only
      (fun e he => not_out_not_announcement e (close_used_pipe_ends_no_out n pipe_fds i _ e he))
      (close_used_pipe_ends_props n pipe_fds i _).2
  have h3 : announces (close_used_pipe_ends n pipe_fds i (track_child pid sh).2).2
      (collect_delep_output env comm_pipe c pid
        (close_used_pipe_ends n pipe_fds i (track_child pid sh).2).2).1
      (collect_delep_output env comm_pipe c pid
        (close_used_pipe_ends n pipe_fds i (track_child pid sh).2).2).2 :=
    announces_of_closes_only (collect_delep_output_silent env comm_pipe c pid _)
      (collect_delep_output_props env comm_pipe c pid _).2.1
  have h4 : announces (collect_delep_output env comm_pipe c pid
        (close_used_pipe_ends n pipe_fds i (track_child pid sh).2).2).2
      (Command.destroy c (collect_delep_output env comm_pipe c pid
        (close_used_pipe_ends n pipe_fds i (track_child pid sh).2).2).2).1
      (Command.destroy c (collect_delep_output env comm_pipe c pid
        (close_used_pipe_ends n pipe_fds i (track_child pid sh).2).2).2).2 :=
    announces_of_closes_only
      (fun e he => not_out_not_announcement e (destroy_no_out c _ e he))
      (destroy_props c _).2
  unfold parent_after_fork
  simp only []
  exact announces_trans (announces_trans (announces_trans h1 h2) h3) h4

theorem destroy_announces (c : Command) (sh : Shell) :
    announces sh (Command.destroy c sh).1 (Command.destroy c sh).2 :=
  announces_of_closes_only (fun e he => not_out_not_announcement e (destroy_no_out c _ e he))
    (destroy_props c _).2

theorem spawn_segment_announces (env : Env) (n : Nat) (pipe_fds : List Int) (i : Nat)
    (own : Command) (sh : Shell) (child_pids : List Nat) :
    announces sh (spawn_segment env n pipe_fds i own sh child_pids).1
      (spawn_segment env n pipe_fds i own sh child_pids).2.1 := by
  have hm := make_comm_pipe_props env i (wire_segment n pipe_fds i own) sh
  unfold spawn_segment
  simp only []
  rcases hmk : make_comm_pipe env i (wire_segment n pipe_fds i own) sh with ⟨ev1, sh1, r⟩
  rw [hmk] at hm
  have h1 : announces sh ev1 sh1 :=
    announces_of_silent _ _ _ (fun e he => not_out_not_announcement e (hm.1 e he).2) hm.2.1.1
  cases r with
  | none => exact announces_trans h1 (destroy_announces _ _)
  | some comm =>
    simp only []
    cases hf : env.fork sh1.clock with
    | none =>
      simp only []
      have h2 : announces sh1 [Event.fork_failed i] { sh1 with clock := sh1.clock + 1 } :=
        announces_of_silent _ _ _ (by simp [Event.is_announcement]) rfl
      exact announces_trans (announces_trans h1 h2) (destroy_announces _ _)
    | some pid =>
      simp only []
      have h2 : announces sh1
          [Event.fork i pid own (wire_segment n pipe_fds i own)
            (child_process env pipe_fds i comm (wire_segment n pipe_fds i own) sh1.fds)]
          { sh1 with clock := sh1.clock + 1 } :=
        announces_of_silent _ _ _ (by simp [Event.is_announcement]) rfl
      exact announces_trans (announces_trans h1 h2)
        (parent_after_fork_announces _ _ _ _ _ _ _ _)

theorem run_segment_announces (env : Env) (n : Nat) (pipe_fds : List Int) (i : Nat)
    (segment : Str) (sh : Shell) (child_pids : List Nat) :
    announces sh (run_segment env n pipe_fds i segment sh child_pids).1
      (run_segment env n pipe_fds i segment sh child_pids).2.1 := by
  have hc := construct_props env sh segment
  have hco := construct_no_out env sh segment
  unfold run_segment
  rcases hcon : Command.construct env sh segment with ⟨ev0, sh0, r⟩
  rw [hcon] at hc hco
  have h0 : announces sh ev0 sh0 :=
    announces_of_silent _ _ _ (fun e he => not_out_not_announcement e (hco e he)) hc.2.1.1
  cases r with
  | error f => exact h0
  | ok c0 =>
    simp only []
    have hb : ∀ e ∈ (if n = 1 then handle_builtin_command env (strip_ampersand c0)
        else ([], BuiltinResult.not_builtin)).1, e.is_announcement = false := by
      split
      · exact handle_builtin_silent env _
      · simp
    rcases hbr : (if n = 1 then handle_builtin_command env (strip_ampersand c0)
        else ([], BuiltinResult.not_builtin)) with ⟨evb, res⟩
    rw [hbr] at hb
    have h1 : announces sh0 evb { sh0 with is_background := wants_background c0 } :=
      announces_of_silent _ _ _ hb rfl
    cases res with
    | exits => exact announces_trans h0 h1
    | handled => exact announces_trans (announces_trans h0 h1) (destroy_announces _ _)
    | not_builtin =>
      simp only []
      have h2 := spawn_segment_announces env n pipe_fds i (strip_ampersand c0)
        { sh0 with is_background := wants_background c0 } child_pids
      have := announces_trans (announces_trans h0 h1) h2
      rw [List.append_assoc] at this ⊢
      exact this

theorem run_segments_announces (env : Env) (n : Nat) (pipe_fds : List Int) :
    ∀ (segments : List Str) (i : Nat) (sh : Shell) (child_pids : List Nat),
      announces sh (run_segments env n pipe_fds segments i sh child_pids).1
        (run_segments env n pipe_fds segments i sh child_pids).2.1 := by
  intro segments
  induction segments with
  | nil => intro i sh cp; exact announces_of_silent _ _ _ (by simp [run_segments]) rfl
  | cons segment rest ih =>
    intro i sh cp
    have hs := run_segment_announces env n pipe_fds i segment sh cp
    rcases hr : run_segment env n pipe_fds i segment sh cp with ⟨ev, sh1, pids1, flow⟩
    rw [hr] at hs
    by_cases hflow : flow = .next
    · subst hflow
      rw [run_segments_of_next env n pipe_fds i segment rest sh cp ev sh1 pids1 hr]
      exact announces_trans hs (ih (i + 1) sh1 pids1)
    · rw [run_segments_of_not_next env n pipe_fds i segment rest sh cp _ hr hflow]
      exact hs

theorem catch_block_announces (f : Failure) (pipe_fds : List Int) (child_pids : List Nat)
    (sh : Shell) :
    announces sh (catch_block f pipe_fds child_pids sh).1 (catch_block f pipe_fds child_pids sh).2 := by
  refine announces_of_silent _ _ _ ?_ (catch_block_same_jobs f pipe_fds child_pids sh).1
  intro e he
  simp only [catch_block, List.mem_append, List.mem_singleton, List.mem_map] at he
  rcases he with (he | ⟨_, _, he⟩) | ⟨_, _, he⟩ <;> subst he <;> rfl

theorem execute_pipeline_announces (env : Env) (sh : Shell) (commands : List Str) :
    announces sh (execute_pipeline env sh commands).events (execute_pipeline env sh commands).sh := by
  have hev := create_pipes_events env (size_sub commands.length 1) 0 sh []
  have hsj := create_pipes_same_jobs env (size_sub commands.length 1) 0 sh []
  rcases hp : create_pipes env (size_sub commands.length 1) 0 sh []
    with ⟨ev0, sh0, pipe_fds, ok⟩
  rw [hp] at hev hsj
  simp only at hev hsj
  have h0 : announces sh ev0 sh0 := by
    refine announces_of_silent _ _ _ ?_ hsj.1
    intro e he
    have := hev e he
    cases e <;> simp [Event.is_pipe_call] at this <;> rfl
  cases ok with
  | false =>
    rw [execute_pipeline_of_pipe_failure env sh commands ev0 sh0 pipe_fds hp]
    exact announces_trans h0 (catch_block_announces _ _ _ _)
  | true =>
    have hr := run_segments_announces env commands.length pipe_fds commands 0 sh0 []
    rcases hrun : run_segments env commands.length pipe_fds commands 0 sh0 []
      with ⟨ev1, s1, cp, flow⟩
    rw [hrun] at hr
    cases flow with
    | next =>
      rw [execute_pipeline_of_next env sh commands ev0 sh0 pipe_fds hp _ _ _ hrun]
      have hw : announces s1 (if !s1.is_background then cp.map Event.waitpid else [])
          { s1 with foreground_pid := 0 } := by
        refine announces_of_silent _ _ _ ?_ rfl
        intro e he
        split at he
        · simp only [List.mem_map] at he
          obtain ⟨_, _, rfl⟩ := he
          rfl
        · simp at he
      exact announces_trans (announces_trans h0 hr) hw
    | returned =>
      rw [execute_pipeline_of_returned env sh commands ev0 sh0 pipe_fds hp _ _ _ hrun]
      exact announces_trans h0 hr
    | exited =>
      rw [execute_pipeline_of_exited env sh commands ev0 sh0 pipe_fds hp _ _ _ hrun]
      exact announces_trans h0 hr
    | thrown f =>
      rw [execute_pipeline_of_thrown env sh commands ev0 sh0 pipe_fds hp _ _ _ f hrun]
      exact announces_trans (announces_trans h0 hr) (catch_block_announces _ _ _ _)

theorem after_handler_announces (a : Shell) (r : List Event × Shell × HandlerExit)
    (h : announces a r.1 r.2.1) : announces a (after_handler r).1 (after_handler r).2.1 := by
  obtain ⟨ev, sh, x⟩ := r
  cases x with
  | resumed => exact h
  | unwound =>
    have h2 : announces sh [Event.out []] sh :=
      announces_of_silent _ _ _ (by simp [Event.is_announcement]) rfl
    exact announces_trans h h2

theorem step_announces (step : Step) (sh : Shell) :
    announces sh (step.run sh).1 (step.run sh).2.1 := by
  cases step with
  | pipeline env commands => exact execute_pipeline_announces env sh commands
  | interrupt kill_ok =>
    apply after_handler_announces
    unfold ctrl_c_handler
    split
    · exact announces_of_silent _ _ _ (by simp) rfl
    · refine announces_of_silent _ _ _ ?_ rfl
      intro e he
      simp only [List.mem_append, List.mem_cons, List.mem_singleton, List.not_mem_nil,
        or_false] at he
      rcases he with (he | he) | he
      · subst he; rfl
      · subst he; rfl
      · split at he
        · simp at he
        · simp only [List.mem_singleton] at he
          subst he; rfl
  | suspend =>
    apply after_handler_announces
    unfold ctrl_z_handler
    split
    · exact announces_of_silent _ _ _ (by simp) rfl
    · refine ⟨[sh.foreground_pid], ?_, ?_⟩
      · have hk : (Event.kill (sh.foreground_pid : Int) .SIGSTOP).is_announcement = false := rfl
        have ho : (Event.out []).is_announcement = false := rfl
        simp [announce_all, List.filter, job_line_is_announcement, hk, ho]
      · simp [announce_all]
  | child_exit returns =>
    exact announces_of_silent _ _ _ (by simp [Step.run])
      (child_signal_handler_frame returns sh).2.2.1

theorem run_steps_cons_alive (step : Step) (steps : List Step) (sh : Shell) (ev : List Event)
    (sh1 : Shell) (h : step.run sh = (ev, sh1, true)) :
    run_steps (step :: steps) sh = (ev ++ (run_steps steps sh1).1, (run_steps steps sh1).2) := by
  conv_lhs => unfold run_steps
  rw [h]

theorem run_steps_cons_ended (step : Step) (steps : List Step) (sh : Shell) (ev : List Event)
    (sh1 : Shell) (h : step.run sh = (ev, sh1, false)) :
    run_steps (step :: steps) sh = (ev, sh1, false) := by
  conv_lhs => unfold run_steps
  rw [h]

theorem run_steps_append : ∀ (steps more : List Step) (sh : Shell),
    run_steps (steps ++ more) sh
      = (if (run_steps steps sh).2.2 = true then
          ((run_steps steps sh).1 ++ (run_steps more (run_steps steps sh).2.1).1,
            (run_steps more (run_steps steps sh).2.1).2)
         else run_steps steps sh) := by
  intro steps
  induction steps with
  | nil => intro more sh; simp [run_steps]
  | cons step steps ih =>
    intro more sh
    rcases hr : step.run sh with ⟨ev, sh1, alive⟩
    cases alive with
    | false =>
      rw [List.cons_append, run_steps_cons_ended step _ sh ev sh1 hr,
        run_steps_cons_ended step _ sh ev sh1 hr]
      simp
    | true =>
      rw [List.cons_append, run_steps_cons_alive step _ sh ev sh1 hr,
        run_steps_cons_alive step _ sh ev sh1 hr, ih more sh1]
      split <;> simp

theorem run_steps_announces : ∀ (steps : List Step) (sh : Shell),
    announces sh (run_steps steps sh).1 (run_steps steps sh).2.1 := by
  intro steps
  induction steps with
  | nil => intro sh; exact announces_of_silent _ _ _ (by simp [run_steps]) rfl
  | cons step steps ih =>
    intro sh
    have hs := step_announces step sh
    rcases hr : step.run sh with ⟨ev, sh1, alive⟩
    rw [hr] at hs
    cases alive with
    | false =>
      rw [run_steps_cons_ended step _ sh ev sh1 hr]
      exact hs
    | true =>
      rw [run_steps_cons_alive step _ sh ev sh1 hr]
      exact announces_trans hs (ih sh1)

/-- C11. Over every sequence of calls of `execute_pipeline` and deliveries of
`SIGINT`, `SIGTSTP` and `SIGCHLD`, from any state: the announcements `[n] pid`
in the trace are those of a list of jobs, each printed with the value of the
counter at that moment, after which the counter is raised by one (modulo
`2^64`), and nothing else changes the counter.  The announcements made up to
any point of the sequence are the first of those made by the whole sequence.
As long as the counter does not pass `2^64 - 1`, the numbers announced are
`n, n + 1, n + 2, ...` from the counter `n` of the starting state, so each is
greater than all the earlier ones, the counter ends at `n` plus the number of
announcements, and it never decreases. -/
theorem job_numbers_increase (steps more : List Step) (sh : Shell) :
    ∃ earlier later : List Nat,
      (run_steps steps sh).1.filter Event.is_announcement
          = (announce_all sh.job_number earlier).1
      ∧ (run_steps steps sh).2.1.job_number = (announce_all sh.job_number earlier).2
      ∧ (run_steps (steps ++ more) sh).1.filter Event.is_announcement
          = (announce_all sh.job_number (earlier ++ later)).1
      ∧ (run_steps (steps ++ more) sh).2.1.job_number
          = (announce_all sh.job_number (earlier ++ later)).2
      ∧ (sh.job_number + (earlier ++ later).length < SIZE_MOD →
          (run_steps (steps ++ more) sh).1.filter Event.is_announcement
              = List.zipWith (fun m p => Event.out (job_line m p))
                  (List.range' sh.job_number (earlier ++ later).length) (earlier ++ later)
          ∧ (run_steps steps sh).2.1.job_number = sh.job_number + earlier.length
          ∧ (run_steps (steps ++ more) sh).2.1.job_number
              = sh.job_number + earlier.length + later.length
          ∧ sh.job_number ≤ (run_steps steps sh).2.1.job_number
          ∧ (run_steps steps sh).2.1.job_number
              ≤ (run_steps (steps ++ more) sh).2.1.job_number) := by
  obtain ⟨ps, hp1, hp2⟩ := run_steps_announces steps sh
  have key : ∃ later : List Nat,
      (run_steps (steps ++ more) sh).1.filter Event.is_announcement
          = (announce_all sh.job_number (ps ++ later)).1
      ∧ (run_steps (steps ++ more) sh).2.1.job_number
          = (announce_all sh.job_number (ps ++ later)).2 := by
    rw [run_steps_append]
    split
    · obtain ⟨qs, hq1, hq2⟩ := run_steps_announces more (run_steps steps sh).2.1
      refine ⟨qs, ?_, ?_⟩
      · simp only []
        rw [List.filter_append, hp1, hq1, hp2, (announce_all_append ps qs sh.job_number).1]
      · simp only []
        rw [hq2, hp2, (announce_all_append ps qs sh.job_number).2]
    · exact ⟨[], by simpa using hp1, by simpa using hp2⟩
  obtain ⟨qs, hq1, hq2⟩ := key
  refine ⟨ps, qs, hp1, hp2, hq1, hq2, ?_⟩
  intro hn
  have hlen : (ps ++ qs).length = ps.length + qs.length := List.length_append _ _
  obtain ⟨ha1, ha2⟩ := announce_all_no_wrap (ps ++ qs) sh.job_number hn
  obtain ⟨_, hb2⟩ := announce_all_no_wrap ps sh.job_number (by omega)
  refine ⟨by rw [hq1, ha1], by rw [hp2, hb2], by rw [hq2, ha2]; omega, by rw [hp2, hb2]; omega,
    by rw [hp2, hb2, hq2, ha2]; omega⟩

theorem job_numbers_increase_witness :
    (∃ earlier later : List Nat,
      (run_steps [.pipeline Env.friendly ["sleep 5 &".toList],
            .pipeline Env.friendly ["a".toList, "b >".toList], .suspend]
          Shell.initial).1.filter Event.is_announcement
        = (announce_all 1 earlier).1
      ∧ (run_steps ([.pipeline Env.friendly ["sleep 5 &".toList],
            .pipeline Env.friendly ["a".toList, "b >".toList], .suspend]
            ++ [.child_exit [100, 0], .interrupt (fun _ _ => true),
                .pipeline Env.friendly ["make &".toList]])
          Shell.initial).1.filter Event.is_announcement
        = (announce_all 1 (earlier ++ later)).1)
    ∧ (run_steps ([.pipeline Env.friendly ["sleep 5 &".toList],
            .pipeline Env.friendly ["a".toList, "b >".toList], .suspend]
            ++ [.child_exit [100, 0], .interrupt (fun _ _ => true),
                .pipeline Env.friendly ["make &".toList]])
          Shell.initial).1.filter Event.is_announcement
        = [.out "[1] 100".toList, .out "[2] 102".toList, .out "[3] 103".toList]
    ∧ (run_steps ([.pipeline Env.friendly ["sleep 5 &".toList],
            .pipeline Env.friendly ["a".toList, "b >".toList], .suspend]
            ++ [.child_exit [100, 0], .interrupt (fun _ _ => true),
                .pipeline Env.friendly ["make &".toList]])
          Shell.initial).2.1.job_number = 4 := by
  obtain ⟨earlier, later, h1, _, h3, _⟩ :=
    job_numbers_increase
      [.pipeline Env.friendly ["sleep 5 &".toList],
        .pipeline Env.friendly ["a".toList, "b >".toList], .suspend]
      [.child_exit [100, 0], .interrupt (fun _ _ => true),
        .pipeline Env.friendly ["make &".toList]]
      Shell.initial
  exact ⟨⟨earlier, later, h1, h3⟩, by decide, by decide⟩

/-! ## Theorems: the failure path -/

/-- C15, at two failing inputs, from a shell with only the standard streams
open.  In `delep f` with `fork` failing, the side-channel pipe is created as
the descriptors 3 and 4, one error is reported, and when `execute_pipeline`
returns both descriptors are still open in the shell.  In `a > out | b` with
the second `fork` failing, the child of `a` is sent `SIGKILL`, one error is
reported and both ends of the pipe are closed, but descriptor 5, the file
`out` opened for `a`, is still open in the shell. -/
theorem descriptors_left_open_after_fork_failure :
    (execute_pipeline (Env.fork_fails_from 0) Shell.initial ["delep f".toList]).events
      = [.comm_pipe 0 3 4, .fork_failed 0, .err (.pipeline .fork_failure)]
    ∧ (execute_pipeline (Env.fork_fails_from 0) Shell.initial ["delep f".toList]).sh.fds
      = [(0, .inherited 0), (1, .inherited 1), (2, .inherited 2),
         (3, .comm_read 0), (4, .comm_write 0)]
    ∧ (execute_pipeline (Env.fork_fails_from 3) Shell.initial
        ["a > out".toList, "b".toList]).events.filter (fun e => !e.is_fork_call)
      = [.pipe 0 3 4, .opened "out".toList 5, .close 4, .close 4, .close 3,
         .err (.pipeline .fork_failure), .close 3, .close 4, .kill 102 .SIGKILL]
    ∧ (execute_pipeline (Env.fork_fails_from 3) Shell.initial
        ["a > out".toList, "b".toList]).events.filterMap Event.forked_pid = [102]
    ∧ (execute_pipeline (Env.fork_fails_from 3) Shell.initial
        ["a > out".toList, "b".toList]).sh.fds
      = [(0, .inherited 0), (1, .inherited 1), (2, .inherited 2), (5, .file_out "out".toList)] := by
  refine ⟨by decide, by decide, by decide, by decide, by decide⟩

/-! ## Theorems: post-processing of the lock-holder tool -/

theorem set_insert_mem (x y : Int) : ∀ l : List Int, y ∈ set_insert x l ↔ y = x ∨ y ∈ l := by
  intro l
  induction l with
  | nil => simp [set_insert]
  | cons z zs ih =>
    unfold set_insert
    split
    · simp
    · split
      · rename_i h
        subst h
        simp
      · simp only [List.mem_cons, ih]
        tauto

theorem set_insert_sorted (x : Int) : ∀ l : List Int, l.Pairwise (· < ·) →
    (set_insert x l).Pairwise (· < ·) := by
  intro l
  induction l with
  | nil => intro _; simp [set_insert]
  | cons z zs ih =>
    intro h
    obtain ⟨hz, hzs⟩ := List.pairwise_cons.mp h
    unfold set_insert
    split
    · rename_i hlt
      refine List.pairwise_cons.mpr ⟨?_, h⟩
      intro a ha
      simp only [List.mem_cons] at ha
      rcases ha with ha | ha
      · subst ha; exact hlt
      · exact lt_trans hlt (hz a ha)
    · split
      · exact h
      · rename_i h1 h2
        refine List.pairwise_cons.mpr ⟨?_, ih hzs⟩
        intro a ha
        rcases (set_insert_mem x a zs).mp ha with ha | ha
        · subst ha
          omega
        · exact hz a ha

theorem foldl_set_insert (l : List Int) : ∀ s : List Int, s.Pairwise (· < ·) →
    (l.foldl (fun s p => set_insert p s) s).Pairwise (· < ·)
    ∧ ∀ p, p ∈ l.foldl (fun s p => set_insert p s) s ↔ p ∈ s ∨ p ∈ l := by
  induction l with
  | nil => intro s hs; simp [hs]
  | cons x xs ih =>
    intro s hs
    obtain ⟨h1, h2⟩ := ih (set_insert x s) (set_insert_sorted x s hs)
    refine ⟨h1, ?_⟩
    intro p
    rw [List.foldl_cons, h2, set_insert_mem]
    simp only [List.mem_cons]
    tauto

theorem delep_entries_loop_sorted : ∀ (fuel : Nat) (ss : Str) (pids_lock pids_nolock : List Int)
    (ev : List Event), pids_lock.Pairwise (· < ·) → pids_nolock.Pairwise (· < ·) →
    (delep_entries_loop fuel ss pids_lock pids_nolock ev).1.Pairwise (· < ·)
    ∧ (delep_entries_loop fuel ss pids_lock pids_nolock ev).2.1.Pairwise (· < ·) := by
  intro fuel
  induction fuel with
  | zero => intro ss l n ev h1 h2; exact ⟨h1, h2⟩
  | succ fuel ih =>
    intro ss l n ev h1 h2
    unfold delep_entries_loop
    split
    · exact ⟨h1, h2⟩
    · split
      · exact ih _ _ _ _ h1 h2
      · split
        · exact ih _ _ _ _ h1 h2
        · simp only []
          split
          · exact ih _ _ _ _ h1 h2
          · split
            · exact ih _ _ _ _ (set_insert_sorted _ _ h1) h2
            · split
              · exact ih _ _ _ _ h1 (set_insert_sorted _ _ h2)
              · exact ih _ _ _ _ h1 h2

theorem delep_entries_loop_events : ∀ (fuel : Nat) (ss : Str) (pids_lock pids_nolock : List Int)
    (ev : List Event),
    ∀ e ∈ (delep_entries_loop fuel ss pids_lock pids_nolock ev).2.2,
      e ∈ ev ∨ ∃ pid_str, e = .err (.invalid_pid pid_str) := by
  intro fuel
  induction fuel with
  | zero => intro ss l n ev e he; exact Or.inl he
  | succ fuel ih =>
    intro ss l n ev
    unfold delep_entries_loop
    split
    · intro e he; exact Or.inl he
    · split
      · exact ih _ _ _ _
      · split
        · exact ih _ _ _ _
        · simp only []
          split
          · intro e he
            rcases ih _ _ _ _ e he with h | h
            · simp only [List.mem_append, List.mem_singleton] at h
              rcases h with h | h
              · exact Or.inl h
              · exact Or.inr ⟨_, h⟩
            · exact Or.inr h
          · split
            · exact ih _ _ _ _
            · split
              · exact ih _ _ _ _
              · exact ih _ _ _ _

theorem kill_all_filter (env : Env) : ∀ pids : List Int,
    (kill_all env pids).filter Event.is_kill_or_remove
      = pids.map (fun p => Event.kill p .SIGKILL) := by
  intro pids
  induction pids with
  | nil => rfl
  | cons p ps ih =>
    unfold kill_all
    rw [List.filter_append, ih]
    split <;> simp [List.filter, Event.is_kill_or_remove]

theorem filter_eq_nil_of_all {α : Type} (p : α → Bool) (l : List α)
    (h : ∀ e ∈ l, p e = false) : l.filter p = [] := by
  rw [List.filter_eq_nil_iff]
  intro e he
  simp [h e he]

theorem listing_filter (pids_lock pids_nolock : List Int) :
    ([Event.out "Following PIDs have opened the given file in lock mode:".toList]
        ++ pids_lock.map (fun p => Event.out (show_int p))
        ++ [Event.out "Following PIDs have opened the given file in normal mode:".toList]
        ++ pids_nolock.map (fun p => Event.out (show_int p))
        ++ [Event.out
              "Do you want to kill all the processes using the file? (yes/no): ".toList]).filter
      Event.is_kill_or_remove = [] := by
  apply filter_eq_nil_of_all
  intro e he
  simp only [List.mem_append, List.mem_singleton, List.mem_map] at he
  rcases he with (((rfl | ⟨_, _, rfl⟩) | rfl) | ⟨_, _, rfl⟩) | rfl <;> rfl

/-- C16. When the text read from the tool lists at least one pid:
with an answer other than `yes`, or no answer, `handle_delep_output` calls
neither `kill` nor `remove`; with the answer `yes` it sends `SIGKILL` once to
every pid of the two lists and to nothing else, in increasing order of pid,
and after the last of them calls `remove` on the file, once. -/
theorem delep_acts_only_on_yes (env : Env) (pid : Nat) (filename : Str)
    (hread : (env.comm_data pid).2 = false)
    (hlisted : (listed_pids (gather_chunks (env.comm_data pid).1)).1 ≠ []
      ∨ (listed_pids (gather_chunks (env.comm_data pid).1)).2 ≠ []) :
    (env.response ≠ some "yes".toList →
      (handle_delep_output env pid filename).filter Event.is_kill_or_remove = [])
    ∧ (env.response = some "yes".toList →
      ∃ all_pids : List Int,
        all_pids.Pairwise (· < ·)
        ∧ (∀ p, p ∈ all_pids ↔ p ∈ (listed_pids (gather_chunks (env.comm_data pid).1)).1
              ∨ p ∈ (listed_pids (gather_chunks (env.comm_data pid).1)).2)
        ∧ (handle_delep_output env pid filename).filter Event.is_kill_or_remove
            = all_pids.map (fun p => Event.kill p .SIGKILL) ++ [.remove filename]) := by
  have hsorted := delep_entries_loop_sorted ((gather_chunks (env.comm_data pid).1).length + 1)
    (gather_chunks (env.comm_data pid).1) [] [] [] List.Pairwise.nil List.Pairwise.nil
  have hwarn := delep_entries_loop_events ((gather_chunks (env.comm_data pid).1).length + 1)
    (gather_chunks (env.comm_data pid).1) [] [] []
  unfold listed_pids at hlisted ⊢
  unfold handle_delep_output
  rw [hread]
  simp only [Bool.false_eq_true, if_false]
  rcases hparsed : delep_entries_loop ((gather_chunks (env.comm_data pid).1).length + 1)
    (gather_chunks (env.comm_data pid).1) [] [] [] with ⟨L, N, W⟩
  rw [hparsed] at hsorted hwarn hlisted
  simp only at hsorted hwarn hlisted ⊢
  obtain ⟨hall_sorted, hall_mem⟩ := foldl_set_insert N L hsorted.1
  have hne : N.foldl (fun s p => set_insert p s) L ≠ [] := by
    intro h
    rcases hlisted with hl | hl
    · obtain ⟨x, hx⟩ := List.exists_mem_of_ne_nil L hl
      have := (hall_mem x).mpr (Or.inl hx)
      rw [h] at this
      simp at this
    · obtain ⟨x, hx⟩ := List.exists_mem_of_ne_nil N hl
      have := (hall_mem x).mpr (Or.inr hx)
      rw [h] at this
      simp at this
  have hW : W.filter Event.is_kill_or_remove = [] := by
    apply filter_eq_nil_of_all
    intro e he
    rcases hwarn e he with h | ⟨_, rfl⟩
    · simp at h
    · rfl
  have hL := listing_filter L N
  unfold delep_dialogue
  simp only []
  rw [if_neg hne]
  constructor
  · intro hresp
    cases hr : env.response with
    | none =>
      simp only []
      rw [List.filter_append, List.filter_append, hW, hL]
      rfl
    | some r =>
      rw [hr] at hresp
      have hry : r ≠ "yes".toList := fun h => hresp (by rw [h])
      simp only []
      rw [if_neg hry, List.filter_append, List.filter_append, hW, hL]
      rfl
  · intro hresp
    rw [hresp]
    simp only []
    rw [if_pos trivial]
    refine ⟨_, hall_sorted, hall_mem, ?_⟩
    rw [List.filter_append, List.filter_append, List.filter_append, hW, hL, kill_all_filter]
    split <;> rfl

theorem delep_acts_only_on_yes_witness :
    listed_pids "Lock:12,NoLock:7,Lock:3,".toList = ([3, 12], [7])
    ∧ (handle_delep_output (Env.answering "Lock:12,NoLock:7,Lock:3,".toList (some "y".toList))
          100 "f".toList).filter Event.is_kill_or_remove = []
    ∧ (handle_delep_output (Env.answering "Lock:12,NoLock:7,Lock:3,".toList (some "yes".toList))
          100 "f".toList).filter Event.is_kill_or_remove
        = [.kill 3 .SIGKILL, .kill 7 .SIGKILL, .kill 12 .SIGKILL, .remove "f".toList]
    ∧ ∃ all_pids : List Int,
        all_pids.Pairwise (· < ·)
        ∧ (handle_delep_output
            (Env.answering "Lock:12,NoLock:7,Lock:3,".toList (some "yes".toList))
            100 "f".toList).filter Event.is_kill_or_remove
          = all_pids.map (fun p => Event.kill p .SIGKILL) ++ [.remove "f".toList] :=
  ⟨by decide,
    (delep_acts_only_on_yes (Env.answering "Lock:12,NoLock:7,Lock:3,".toList (some "y".toList))
      100 "f".toList rfl (Or.inl (by decide))).1 (by decide),
    by decide,
    let ⟨all_pids, h1, _, h3⟩ :=
      (delep_acts_only_on_yes
        (Env.answering "Lock:12,NoLock:7,Lock:3,".toList (some "yes".toList))
        100 "f".toList rfl (Or.inl (by decide))).2 rfl
    ⟨all_pids, h1, h3⟩⟩

/-! ## Theorems: the lock-holder tool -/

theorem delep_scan_fds_eq (target : Str) (ht : target ≠ []) : ∀ fds : List FdEntry,
    delep_scan_fds target fds
      = (fds.find? (FdEntry.resolves_to target)).map (fun fd => check_file_lock fd.fdinfo) := by
  intro fds
  induction fds with
  | nil => rfl
  | cons fd rest ih =>
    unfold delep_scan_fds
    by_cases h1 : fd.name = ".".toList ∨ fd.name = "..".toList
    · rw [if_pos h1, ih]
      have : fd.resolves_to target = false := by
        rcases h1 with h | h <;> simp [FdEntry.resolves_to, h]
      rw [List.find?_cons, this]
    · rw [if_neg h1]
      rw [not_or] at h1
      by_cases h2 : fd.link = []
      · rw [if_pos h2, ih]
        have : fd.resolves_to target = false := by
          simp only [FdEntry.resolves_to, Bool.and_eq_false_iff, decide_eq_false_iff_not]
          right
          rw [h2]
          exact fun h => ht h.symm
        rw [List.find?_cons, this]
      · rw [if_neg h2]
        by_cases h3 : fd.link = target
        · rw [if_pos h3]
          have : fd.resolves_to target = true := by
            simp only [FdEntry.resolves_to, Bool.and_eq_true, decide_eq_true_eq]
            exact ⟨⟨h1.1, h1.2⟩, h3⟩
          rw [List.find?_cons, this]
          rfl
        · rw [if_neg h3, ih]
          have : fd.resolves_to target = false := by
            simp [FdEntry.resolves_to, h3]
          rw [List.find?_cons, this]

theorem is_valid_pid_not_dot (name : Str) (h : is_valid_pid name = true) :
    name ≠ ".".toList ∧ name ≠ "..".toList := by
  constructor <;> (intro hn; rw [hn] at h; revert h; decide)

/-- The tool puts a process in `lock_pids` when it holds the file and the
first of its descriptors on the file shows a lock, in `nolock_pids` when it
holds the file and that descriptor shows none. -/
theorem delep_scan_eq (target : Str) (ht : target ≠ []) :
    ∀ (proc : List ProcEntry) (lock_pids nolock_pids : List Str),
      delep_scan target proc lock_pids nolock_pids
        = (lock_pids ++ (proc.filter
              (fun e => e.holds target && e.first_has_lock target)).map ProcEntry.name,
           nolock_pids ++ (proc.filter
              (fun e => e.holds target && !e.first_has_lock target)).map ProcEntry.name) := by
  intro proc
  induction proc with
  | nil => intro L N; simp [delep_scan]
  | cons e rest ih =>
    intro L N
    unfold delep_scan
    by_cases h1 : e.is_dir = false ∨ e.name = ".".toList ∨ e.name = "..".toList
    · rw [if_pos h1, ih]
      have : e.holds target = false := by
        rcases h1 with h | h | h
        · simp [ProcEntry.holds, h]
        · have hv : is_valid_pid e.name = false := by rw [h]; decide
          simp [ProcEntry.holds, hv]
        · have hv : is_valid_pid e.name = false := by rw [h]; decide
          simp [ProcEntry.holds, hv]
      simp [List.filter_cons, this]
    · rw [if_neg h1]
      simp only [not_or, Bool.not_eq_false] at h1
      by_cases h2 : is_valid_pid e.name = false
      · rw [if_pos h2, ih]
        have : e.holds target = false := by simp [ProcEntry.holds, h2]
        simp [List.filter_cons, this]
      · rw [if_neg h2]
        simp only [Bool.not_eq_false] at h2
        cases hf : e.fds with
        | none =>
          simp only []
          rw [ih]
          have : e.holds target = false := by simp [ProcEntry.holds, ProcEntry.descriptors, hf]
          simp [List.filter_cons, this]
        | some fds =>
          simp only []
          rw [delep_scan_fds_eq target ht]
          cases hfind : fds.find? (FdEntry.resolves_to target) with
          | none =>
            simp only [Option.map_none']
            rw [ih]
            have : e.holds target = false := by
              simp only [ProcEntry.holds, ProcEntry.descriptors, hf, Bool.and_eq_false_iff]
              right
              rw [List.find?_eq_none] at hfind
              simp only [List.any_eq_false]
              intro x hx
              exact hfind x hx
            simp [List.filter_cons, this]
          | some fd =>
            have hholds : e.holds target = true := by
              simp only [ProcEntry.holds, ProcEntry.descriptors, hf, h1.1, h2, Bool.true_and,
                List.any_eq_true]
              exact ⟨fd, List.mem_of_find?_eq_some hfind, List.find?_some hfind⟩
            have hfirst : e.first_has_lock target = check_file_lock fd.fdinfo := by
              simp [ProcEntry.first_has_lock, ProcEntry.descriptors, hf, hfind]
            simp only [Option.map_some']
            cases hl : check_file_lock fd.fdinfo with
            | true =>
              simp only []
              rw [ih]
              simp [List.filter_cons, hholds, hfirst, hl]
            | false =>
              simp only []
              rw [ih]
              simp [List.filter_cons, hholds, hfirst, hl]

theorem map_filter_nodup (proc : List ProcEntry) (p q : ProcEntry → Bool)
    (hpq : ∀ e, p e = true → q e = true → False)
    (hn : (proc.map ProcEntry.name).Nodup) :
    ((proc.filter p).map ProcEntry.name ++ (proc.filter q).map ProcEntry.name).Nodup := by
  rw [List.nodup_append]
  refine ⟨hn.sublist ((List.filter_sublist proc).map _),
    hn.sublist ((List.filter_sublist proc).map _), ?_⟩
  intro x hx hy
  simp only [List.mem_map, List.mem_filter] at hx hy
  obtain ⟨e1, ⟨he1, hp⟩, rfl⟩ := hx
  obtain ⟨e2, ⟨he2, hq⟩, hname⟩ := hy
  have : e2 = e1 := List.inj_on_of_nodup_map hn he2 he1 hname
  subst this
  exact hpq _ hp hq

/-- C17. For every path and every process table, the tool puts into
`lock_pids` the processes that hold the file and whose first descriptor on
the file shows a lock, and into `nolock_pids` the other processes that hold
the file; what it writes is `Lock:<pid>,` for the former followed by
`NoLock:<pid>,` for the latter.  So a process gets a token exactly when one
of its descriptors resolves to the path, no process gets two tokens, and
the tokens of either kind are the same, up to their order, whatever the order
of the processes.  But whether the token is `Lock` depends on the first
descriptor only: process 100, which has the file open twice and holds a lock
through the second descriptor, is reported as `NoLock`. -/
theorem delep_tokens_follow_first_descriptor :
    (∀ (target : Str) (proc : List ProcEntry), target ≠ [] →
      delep (.ok proc) target
          = delep_result (delep_scan target proc [] []).1 (delep_scan target proc [] []).2
      ∧ (delep_scan target proc [] []).1
          = (proc.filter (fun e => e.holds target && e.first_has_lock target)).map ProcEntry.name
      ∧ (delep_scan target proc [] []).2
          = (proc.filter (fun e => e.holds target && !e.first_has_lock target)).map
              ProcEntry.name
      ∧ (∀ pid, pid ∈ (delep_scan target proc [] []).1 ++ (delep_scan target proc [] []).2
          ↔ ∃ e ∈ proc, e.name = pid ∧ e.holds target = true)
      ∧ ((proc.map ProcEntry.name).Nodup →
          ((delep_scan target proc [] []).1 ++ (delep_scan target proc [] []).2).Nodup)
      ∧ (∀ proc1, proc.Perm proc1 →
          (delep_scan target proc [] []).1.Perm (delep_scan target proc1 [] []).1
          ∧ (delep_scan target proc [] []).2.Perm (delep_scan target proc1 [] []).2))
    ∧ proc_locked_second.map
          (fun e => (e.name, e.holds "/tmp/f".toList, e.has_lock "/tmp/f".toList))
        = [("100".toList, true, true), ("200".toList, true, false)]
    ∧ delep (.ok proc_locked_second) "/tmp/f".toList = "NoLock:100,NoLock:200,".toList := by
  refine ⟨?_, by decide, by decide⟩
  intro target proc ht
  have hscan := delep_scan_eq target ht
  refine ⟨?_, ?_, ?_, ?_, ?_, ?_⟩
  · unfold delep
    rw [if_neg ht]
  · rw [hscan]; simp
  · rw [hscan]; simp
  · intro pid
    rw [hscan]
    simp only [List.nil_append, List.mem_append, List.mem_map, List.mem_filter,
      Bool.and_eq_true, Bool.not_eq_true']
    constructor
    · rintro (⟨e, ⟨he, hh, _⟩, rfl⟩ | ⟨e, ⟨he, hh, _⟩, rfl⟩)
      · exact ⟨e, he, rfl, hh⟩
      · exact ⟨e, he, rfl, hh⟩
    · rintro ⟨e, he, rfl, hh⟩
      cases hl : e.first_has_lock target
      · exact Or.inr ⟨e, ⟨he, hh, hl⟩, rfl⟩
      · exact Or.inl ⟨e, ⟨he, hh, hl⟩, rfl⟩
  · intro hn
    rw [hscan]
    simp only [List.nil_append]
    apply map_filter_nodup _ _ _ _ hn
    intro e h1 h2
    simp only [Bool.and_eq_true, Bool.not_eq_true'] at h1 h2
    rw [h1.2] at h2
    exact absurd h2.2 (by decide)
  · intro proc1 hperm
    rw [hscan, hscan]
    simp only [List.nil_append]
    exact ⟨(hperm.filter _).map _, (hperm.filter _).map _⟩

/-! ## Theorems: the process inspector -/

theorem count_entry_total (pid : Int) (below : Int → Option Int) (entry : Int × statusMap)
    (count : Int) (hc : 0 ≤ count)
    (hbelow : ∀ ppid parent, entry.2.lookup "PPid".toList = some ppid →
      stoi ppid = some parent → parent = pid → ∃ k, below entry.1 = some k ∧ 0 ≤ k) :
    ∃ k, count_entry pid below (some count) entry = some k ∧ 0 ≤ k := by
  unfold count_entry
  simp only []
  cases hl : entry.2.lookup "PPid".toList with
  | none => exact ⟨count, rfl, hc⟩
  | some ppid =>
    simp only []
    cases hs : stoi ppid with
    | none => exact ⟨count, rfl, hc⟩
    | some parent =>
      simp only []
      by_cases hp : parent = pid
      · rw [if_pos hp]
        obtain ⟨k, hk, hk0⟩ := hbelow ppid parent hl hs hp
        rw [hk]
        exact ⟨count + 1 + k, rfl, by omega⟩
      · rw [if_neg hp]
        exact ⟨count, rfl, hc⟩

theorem foldl_count_entry_total (pid : Int) (below : Int → Option Int) :
    ∀ (l : List (Int × statusMap)) (count : Int), 0 ≤ count →
      (∀ entry ∈ l, ∀ ppid parent, entry.2.lookup "PPid".toList = some ppid →
        stoi ppid = some parent → parent = pid → ∃ k, below entry.1 = some k ∧ 0 ≤ k) →
      ∃ k, l.foldl (count_entry pid below) (some count) = some k ∧ 0 ≤ k := by
  intro l
  induction l with
  | nil => intro count hc _; exact ⟨count, rfl, hc⟩
  | cons e rest ih =>
    intro count hc h
    obtain ⟨k, hk, hk0⟩ := count_entry_total pid below e count hc (h e (List.mem_cons_self _ _))
    rw [List.foldl_cons, hk]
    exact ih k hk0 (fun entry he => h entry (List.mem_cons_of_mem _ he))

/-- When the parent pointers of the table have no cycle, `countChildren`
returns within a depth that exceeds the height of the process. -/
theorem countChildren_total (pidMap : pid_Map) (height : Int → Nat)
    (hacyclic : ∀ entry ∈ pidMap, ∀ ppid parent, entry.2.lookup "PPid".toList = some ppid →
      stoi ppid = some parent → height entry.1 < height parent) :
    ∀ (fuel : Nat) (pid : Int), height pid < fuel →
      ∃ k, countChildren pidMap fuel pid = some k ∧ 0 ≤ k := by
  intro fuel
  induction fuel with
  | zero => intro pid h; omega
  | succ fuel ih =>
    intro pid h
    unfold countChildren
    apply foldl_count_entry_total pid _ pidMap 0 (le_refl _)
    intro entry he ppid parent hl hs hp
    have := hacyclic entry he ppid parent hl hs
    rw [hp] at this
    exact ih entry.1 (by omega)

theorem candidate_pids_props (pidMap : pid_Map) (sbpid : Int) (hpos : 0 < sbpid) :
    sbpid ∈ candidate_pids pidMap sbpid ∧ ∀ p ∈ candidate_pids pidMap sbpid, 0 < p := by
  unfold candidate_pids
  split
  · simp [hpos]
  · split
    · simp [hpos]
    · rename_i parent _
      split
      · rename_i hparent
        split
        · simp [hpos, hparent]
        · split
          · simp [hpos, hparent]
          · rename_i gp _
            split
            · rename_i hgp
              simp [hpos, hparent, hgp]
            · simp [hpos, hparent]
      · simp [hpos]

theorem foldl_insert_if (p : Int → Bool) : ∀ (l s : List Int),
    s.Pairwise (· < ·) →
    (l.foldl (fun s pid => if p pid = true then set_insert pid s else s) s).Pairwise (· < ·)
    ∧ ∀ x, x ∈ l.foldl (fun s pid => if p pid = true then set_insert pid s else s) s
        ↔ x ∈ s ∨ (x ∈ l ∧ p x = true) := by
  intro l
  induction l with
  | nil => intro s hs; simp [hs]
  | cons y ys ih =>
    intro s hs
    rw [List.foldl_cons]
    by_cases hy : p y = true
    · rw [if_pos hy]
      obtain ⟨h1, h2⟩ := ih (set_insert y s) (set_insert_sorted y s hs)
      refine ⟨h1, ?_⟩
      intro x
      rw [h2, set_insert_mem]
      simp only [List.mem_cons]
      constructor
      · rintro ((h | h) | h)
        · exact Or.inr ⟨Or.inl h, by rw [h]; exact hy⟩
        · exact Or.inl h
        · exact Or.inr ⟨Or.inr h.1, h.2⟩
      · rintro (h | ⟨h | h, hp⟩)
        · exact Or.inl (Or.inr h)
        · exact Or.inl (Or.inl h)
        · exact Or.inr ⟨h, hp⟩
    · rw [if_neg hy]
      obtain ⟨h1, h2⟩ := ih s hs
      refine ⟨h1, ?_⟩
      intro x
      rw [h2]
      simp only [List.mem_cons]
      constructor
      · rintro (h | h)
        · exact Or.inl h
        · exact Or.inr ⟨Or.inr h.1, h.2⟩
      · rintro (h | ⟨h | h, hp⟩)
        · exact Or.inl h
        · rw [h] at hp; exact absurd hp hy
        · exact Or.inr ⟨h, hp⟩

theorem same_name_pids_mem (pidMap : pid_Map) (sbpid : Int) (x : Int) :
    x ∈ same_name_pids pidMap sbpid
      ↔ x ∈ candidate_pids pidMap sbpid
        ∧ get_process_field pidMap x "Name".toList
            = get_process_field pidMap sbpid "Name".toList := by
  have h := (foldl_insert_if
    (fun pid => decide (get_process_field pidMap pid "Name".toList
      = get_process_field pidMap sbpid "Name".toList))
    (candidate_pids pidMap sbpid) [] List.Pairwise.nil).2 x
  simp only [decide_eq_true_eq, List.not_mem_nil, false_or] at h
  exact h

theorem most_children_props (pidMap : pid_Map) (fuel : Nat) :
    ∀ (l : List Int) (acc : Int × Int),
      (∀ p ∈ l, ∃ k, countChildren pidMap fuel p = some k ∧ 0 ≤ k) →
      ∃ res, most_children pidMap fuel l acc = some res
        ∧ (res = acc ∨ (res.1 ∈ l ∧ countChildren pidMap fuel res.1 = some res.2))
        ∧ acc.2 ≤ res.2
        ∧ ∀ p ∈ l, ∃ k, countChildren pidMap fuel p = some k ∧ k ≤ res.2 := by
  intro l
  induction l with
  | nil => intro acc _; exact ⟨acc, rfl, Or.inl rfl, le_refl _, by simp⟩
  | cons x xs ih =>
    intro acc h
    obtain ⟨k, hk, _⟩ := h x (List.mem_cons_self _ _)
    unfold most_children
    rw [hk]
    simp only []
    by_cases hgt : k > acc.2
    · rw [if_pos hgt]
      obtain ⟨res, h1, h2, h3, h4⟩ := ih (x, k) (fun p hp => h p (List.mem_cons_of_mem _ hp))
      refine ⟨res, h1, ?_, ?_, ?_⟩
      · rcases h2 with h2 | h2
        · right
          rw [h2]
          exact ⟨List.mem_cons_self _ _, hk⟩
        · exact Or.inr ⟨List.mem_cons_of_mem _ h2.1, h2.2⟩
      · simp only at h3
        omega
      · intro p hp
        simp only [List.mem_cons] at hp
        rcases hp with hp | hp
        · subst hp
          exact ⟨k, hk, h3⟩
        · exact h4 p hp
    · rw [if_neg hgt]
      obtain ⟨res, h1, h2, h3, h4⟩ := ih acc (fun p hp => h p (List.mem_cons_of_mem _ hp))
      refine ⟨res, h1, ?_, h3, ?_⟩
      · rcases h2 with h2 | h2
        · exact Or.inl h2
        · exact Or.inr ⟨List.mem_cons_of_mem _ h2.1, h2.2⟩
      · intro p hp
        simp only [List.mem_cons] at hp
        rcases hp with hp | hp
        · subst hp
          exact ⟨k, hk, by omega⟩
        · exact h4 p hp

/-- For a target `sbpid > 0` and a process table whose parent pointers have
no cycle, `suggest_malicious_process` returns a pid that is positive, is in
the list `candidate_pids` and has the same `Name` as the target; it passes
the sleeping test of the code when one of the same-name members of the list
does, and has the largest descendant count among them when none does. -/
theorem suggestion_among_candidates (pidMap : pid_Map) (fuel : Nat) (sbpid : Int)
    (height : Int → Nat) (hpos : 0 < sbpid)
    (hacyclic : ∀ entry ∈ pidMap, ∀ ppid parent, entry.2.lookup "PPid".toList = some ppid →
      stoi ppid = some parent → height entry.1 < height parent)
    (hfuel : ∀ pid, height pid < fuel) :
    ∃ r, suggest_malicious_process pidMap fuel sbpid = some r
      ∧ 0 < r
      ∧ r ∈ candidate_pids pidMap sbpid
      ∧ get_process_field pidMap r "Name".toList = get_process_field pidMap sbpid "Name".toList
      ∧ ((∃ c ∈ candidate_pids pidMap sbpid,
            get_process_field pidMap c "Name".toList
              = get_process_field pidMap sbpid "Name".toList
            ∧ is_sleeping pidMap c = true) →
          is_sleeping pidMap r = true)
      ∧ ((∀ c ∈ candidate_pids pidMap sbpid,
            get_process_field pidMap c "Name".toList
              = get_process_field pidMap sbpid "Name".toList →
            is_sleeping pidMap c = false) →
          ∃ most, countChildren pidMap fuel r = some most
            ∧ ∀ c ∈ candidate_pids pidMap sbpid,
                get_process_field pidMap c "Name".toList
                  = get_process_field pidMap sbpid "Name".toList →
                ∃ k, countChildren pidMap fuel c = some k ∧ k ≤ most) := by
  obtain ⟨hself, hcpos⟩ := candidate_pids_props pidMap sbpid hpos
  have hmem := same_name_pids_mem pidMap sbpid
  have htotal := countChildren_total pidMap height hacyclic fuel
  unfold suggest_malicious_process
  cases hfind : (same_name_pids pidMap sbpid).find? (is_sleeping pidMap) with
  | some r =>
    simp only []
    have hr := (hmem r).mp (List.mem_of_find?_eq_some hfind)
    have hs : is_sleeping pidMap r = true := List.find?_some hfind
    refine ⟨r, rfl, hcpos r hr.1, hr.1, hr.2, fun _ => hs, ?_⟩
    intro hnone
    rw [hnone r hr.1 hr.2] at hs
    exact absurd hs (by decide)
  | none =>
    simp only []
    rw [List.find?_eq_none] at hfind
    obtain ⟨res, h1, h2, h3, h4⟩ := most_children_props pidMap fuel (same_name_pids pidMap sbpid)
      (0, -1) (fun p _ => htotal p (hfuel p))
    rw [h1]
    simp only []
    have hsb : sbpid ∈ same_name_pids pidMap sbpid := (hmem sbpid).mpr ⟨hself, rfl⟩
    obtain ⟨k0, hk0, hk0le⟩ := h4 sbpid hsb
    obtain ⟨k1, hk1, hk1pos⟩ := htotal sbpid (hfuel sbpid)
    rw [hk0] at hk1
    simp only [Option.some.injEq] at hk1
    have hres : res.1 ∈ same_name_pids pidMap sbpid
        ∧ countChildren pidMap fuel res.1 = some res.2 := by
      rcases h2 with h2 | h2
      · rw [h2] at hk0le
        simp only at hk0le
        omega
      · exact h2
    have hr := (hmem res.1).mp hres.1
    have hrpos := hcpos res.1 hr.1
    rw [if_pos hrpos]
    refine ⟨res.1, rfl, hrpos, hr.1, hr.2, ?_, ?_⟩
    · rintro ⟨c, hc, hname, hsleep⟩
      have := hfind c ((hmem c).mpr ⟨hc, hname⟩)
      rw [hsleep] at this
      exact absurd rfl this
    · intro _
      exact ⟨res.2, hres.2, fun c hc hname => h4 c ((hmem c).mpr ⟨hc, hname⟩)⟩

theorem candidate_pids_eq_chain (pidMap : pid_Map) (sbpid : Int) :
    candidate_pids pidMap sbpid = ancestor_chain pidMap 3 sbpid := by
  have hnil : stoi [] = none := by decide
  unfold candidate_pids
  simp only [ancestor_chain, parent_pid]
  by_cases h1 : get_process_field pidMap sbpid "PPid".toList = []
  · rw [if_pos h1, h1, hnil]
  · rw [if_neg h1]
    cases hs : stoi (get_process_field pidMap sbpid "PPid".toList) with
    | none => rfl
    | some parent =>
      simp only []
      by_cases hp : parent > 0
      · rw [if_pos hp, if_pos hp]
        simp only []
        by_cases h2 : get_process_field pidMap parent "PPid".toList = []
        · rw [if_pos h2, h2, hnil]
        · rw [if_neg h2]
          cases hs2 : stoi (get_process_field pidMap parent "PPid".toList) with
          | none => rfl
          | some grandparent =>
            simp only []
            by_cases hg : grandparent > 0
            · rw [if_pos hg, if_pos hg]
              simp only []
              split <;> rfl
            · rw [if_neg hg, if_neg hg]
      · rw [if_neg hp, if_neg hp]

theorem is_sleeping_iff (pidMap : pid_Map) (pid : Int) :
    is_sleeping pidMap pid = true
      ↔ (get_process_field pidMap pid "State".toList).head? = some 'S' := by
  unfold is_sleeping
  cases get_process_field pidMap pid "State".toList with
  | nil => simp
  | cons x xs => simp

/-- C18, as the code has it.  For a target `sbpid > 0` and a process table
whose parent pointers have no cycle (so that `countChildren` returns),
`suggest_malicious_process` returns a positive pid taken from the first three
members of the ancestor chain of the target (the target, its parent and its
grandparent) that has the same `Name` as the target.  When one of these
same-name candidates has a `State` that begins with `S`, the result has such a
`State`; when none has, the descendant count of the result is the largest
among these same-name candidates. -/
theorem suggestion_among_target_parent_grandparent (pidMap : pid_Map) (fuel : Nat)
    (sbpid : Int) (height : Int → Nat) (hpos : 0 < sbpid)
    (hacyclic : ∀ entry ∈ pidMap, ∀ ppid parent, entry.2.lookup "PPid".toList = some ppid →
      stoi ppid = some parent → height entry.1 < height parent)
    (hfuel : ∀ pid, height pid < fuel) :
    ∃ r, suggest_malicious_process pidMap fuel sbpid = some r
      ∧ 0 < r
      ∧ r ∈ ancestor_chain pidMap 3 sbpid
      ∧ get_process_field pidMap r "Name".toList = get_process_field pidMap sbpid "Name".toList
      ∧ ((∃ c ∈ ancestor_chain pidMap 3 sbpid,
            get_process_field pidMap c "Name".toList
              = get_process_field pidMap sbpid "Name".toList
            ∧ (get_process_field pidMap c "State".toList).head? = some 'S') →
          (get_process_field pidMap r "State".toList).head? = some 'S')
      ∧ ((∀ c ∈ ancestor_chain pidMap 3 sbpid,
            get_process_field pidMap c "Name".toList
              = get_process_field pidMap sbpid "Name".toList →
            (get_process_field pidMap c "State".toList).head? ≠ some 'S') →
          ∃ most, countChildren pidMap fuel r = some most
            ∧ ∀ c ∈ ancestor_chain pidMap 3 sbpid,
                get_process_field pidMap c "Name".toList
                  = get_process_field pidMap sbpid "Name".toList →
                ∃ k, countChildren pidMap fuel c = some k ∧ k ≤ most) := by
  obtain ⟨r, h1, h2, h3, h4, h5, h6⟩ :=
    suggestion_among_candidates pidMap fuel sbpid height hpos hacyclic hfuel
  rw [candidate_pids_eq_chain] at h3 h5 h6
  refine ⟨r, h1, h2, h3, h4, ?_, ?_⟩
  · rintro ⟨c, hc, hname, hstate⟩
    exact (is_sleeping_iff pidMap r).mp
      (h5 ⟨c, hc, hname, (is_sleeping_iff pidMap c).mpr hstate⟩)
  · intro hnone
    apply h6
    intro c hc hname
    cases hs : is_sleeping pidMap c with
    | false => rfl
    | true => exact absurd ((is_sleeping_iff pidMap c).mp hs) (hnone c hc hname)

theorem suggestion_among_target_parent_grandparent_witness :
    ancestor_chain table_sleeping 3 20 = [20, 10, 1]
    ∧ [1, 10, 20].map (fun pid => get_process_field table_sleeping pid "State".toList)
      = ["T (stopped)".toList, "S (sleeping)".toList, "T (stopped)".toList]
    ∧ [1, 10, 20].map (countChildren table_sleeping 6) = [some 4, some 3, some 0]
    ∧ suggest_malicious_process table_sleeping 6 20 = some 10
    ∧ suggest_malicious_process table_bash 6 20 = some 1
    ∧ ∃ r, suggest_malicious_process table_sleeping 6 20 = some r
        ∧ 0 < r
        ∧ r ∈ ancestor_chain table_sleeping 3 20
        ∧ (get_process_field table_sleeping r "State".toList).head? = some 'S' := by
  refine ⟨by decide, by decide, by decide, by decide, by decide, ?_⟩
  obtain ⟨r, h1, h2, h3, _, h5, _⟩ := suggestion_among_target_parent_grandparent
    table_sleeping 6 20 height_bash (by decide)
    (by
      intro entry he ppid parent hl hs
      have hall : table_sleeping.all (fun entry =>
          match entry.2.lookup "PPid".toList with
          | none => true
          | some ppid =>
            match stoi ppid with
            | none => true
            | some parent => decide (height_bash entry.1 < height_bash parent)) = true := by
        decide
      have := List.all_eq_true.mp hall entry he
      rw [hl] at this
      simp only at this
      rw [hs] at this
      simpa using this)
    (by
      intro pid
      unfold height_bash
      split_ifs <;> omega)
  exact ⟨r, h1, h2, h3, h5 ⟨10, by decide, by decide, by decide⟩⟩

/-- C18 fails as stated.  In `table_chain` the ancestor chain of 4 is 4, 3, 2,
1, all named `bash`, and 1 is sleeping; the code looks no further than the
grandparent 2, finds no sleeping process among 4, 3 and 2, and returns 2,
which has the most descendants of the three and is running. -/
theorem sleeping_ancestor_beyond_grandparent_is_missed :
    ancestor_chain table_chain 10 4 = [4, 3, 2, 1]
    ∧ (ancestor_chain table_chain 10 4).map
        (fun pid => get_process_field table_chain pid "Name".toList)
      = ["bash".toList, "bash".toList, "bash".toList, "bash".toList]
    ∧ get_process_field table_chain 1 "State".toList = "S (sleeping)".toList
    ∧ candidate_pids table_chain 4 = [4, 3, 2]
    ∧ suggest_malicious_process table_chain 6 4 = some 2
    ∧ get_process_field table_chain 2 "State".toList = "R (running)".toList := by
  refine ⟨by decide, by decide, by decide, by decide, by decide, by decide⟩

/-! ## Theorems: `|` after a backslash -/

theorem pieces_ne_nil (d : Char) (s : Str) : pieces d s ≠ [] := by
  induction s with
  | nil => simp [pieces]
  | cons c cs ih =>
    unfold pieces
    split
    · simp
    · split <;> simp

theorem pieces_append_delim (d : Char) (a b : Str) :
    pieces d (a ++ d :: b) = pieces d a ++ pieces d b := by
  induction a with
  | nil => simp [pieces]
  | cons c cs ih =>
    by_cases hc : c = d
    · rw [List.cons_append]
      simp only [pieces, if_pos hc]
      rw [ih, List.cons_append]
    · have hne := pieces_ne_nil d cs
      rcases hp : pieces d cs with _ | ⟨p, ps⟩
      · exact absurd hp hne
      · rw [List.cons_append]
        simp only [pieces, if_neg hc]
        rw [ih, hp]
        rfl

theorem pieces_append_other (d c : Char) (hc : c ≠ d) (a : Str) :
    ∃ init last, pieces d a = init ++ [last] ∧ pieces d (a ++ [c]) = init ++ [last ++ [c]] := by
  induction a with
  | nil => exact ⟨[], [], by simp [pieces], by simp [pieces, hc]⟩
  | cons x xs ih =>
    obtain ⟨init, last, h1, h2⟩ := ih
    by_cases hx : x = d
    · refine ⟨[] :: init, last, ?_, ?_⟩
      · simp only [pieces, if_pos hx]
        rw [h1, List.cons_append]
      · rw [List.cons_append]
        simp only [pieces, if_pos hx]
        rw [h2, List.cons_append]
    · cases init with
      | nil =>
        refine ⟨[], x :: last, ?_, ?_⟩
        · simp only [pieces, if_neg hx]
          rw [h1]
          rfl
        · rw [List.cons_append]
          simp only [pieces, if_neg hx]
          rw [h2]
          rfl
      | cons p ps =>
        refine ⟨(x :: p) :: ps, last, ?_, ?_⟩
        · simp only [pieces, if_neg hx]
          rw [h1]
          rfl
        · rw [List.cons_append]
          simp only [pieces, if_neg hx]
          rw [h2]
          rfl

theorem dropWhile_append_singleton (p : Char → Bool) (c : Char) (hc : p c = false) (q : Str) :
    (q ++ [c]).dropWhile p = q.dropWhile p ++ [c] := by
  induction q with
  | nil => simp [List.dropWhile, hc]
  | cons x xs ih =>
    by_cases hx : p x = true
    · simp only [List.cons_append, List.dropWhile_cons, hx, if_true]
      exact ih
    · simp [List.dropWhile_cons, hx]

theorem strip_blanks_append_singleton (c : Char) (hc : in_set blanks c = false) (q : Str) :
    strip_blanks (q ++ [c]) = q.dropWhile (in_set blanks) ++ [c] := by
  unfold strip_blanks
  rw [dropWhile_append_singleton _ c hc, List.reverse_append]
  simp [List.dropWhile_cons, hc]

theorem parse_pipeline_append_bar (a b : Str) :
    parse_pipeline (a ++ '|' :: b) = parse_pipeline a ++ parse_pipeline b := by
  simp only [parse_pipeline_eq_spec, parse_pipeline_spec, pieces_append_delim, List.map_append,
    List.filter_append]

theorem pieces_no_delim (d : Char) (s : Str) : ∀ p ∈ pieces d s, d ∉ p := by
  induction s with
  | nil => simp [pieces]
  | cons c cs ih =>
    by_cases hc : c = d
    · simp only [pieces, if_pos hc]
      intro p hp
      simp only [List.mem_cons] at hp
      rcases hp with hp | hp
      · subst hp; simp
      · exact ih p hp
    · simp only [pieces, if_neg hc]
      rcases hq : pieces d cs with _ | ⟨q, qs⟩
      · simp only [List.mem_singleton]
        intro p hp
        subst hp
        simpa using fun h => hc h.symm
      · rw [hq] at ih
        intro p hp
        simp only [List.mem_cons] at hp
        rcases hp with hp | hp
        · subst hp
          have := ih q (List.mem_cons_self _ _)
          simp only [List.mem_cons, not_or]
          exact ⟨fun h => hc h.symm, this⟩
        · exact ih p (List.mem_cons_of_mem _ hp)

theorem strip_blanks_subset (s : Str) : ∀ c ∈ strip_blanks s, c ∈ s := by
  intro c hc
  unfold strip_blanks at hc
  rw [List.mem_reverse] at hc
  have h1 := (List.dropWhile_sublist _).subset hc
  rw [List.mem_reverse] at h1
  exact (List.dropWhile_sublist _).subset h1

/-- C20, amended.  `parse_pipeline` splits at every `|`, whatever stands
before it: the segments of `a|b` are the segments of `a` followed by the
segments of `b`, no segment contains a `|`, and when the `|` comes right after
a backslash the segment that ends there keeps the backslash as its last
character. -/
theorem bar_after_backslash_ends_segment (a b : Str) :
    parse_pipeline (a ++ '|' :: b) = parse_pipeline a ++ parse_pipeline b
    ∧ parse_pipeline (a ++ '\\' :: '|' :: b) = parse_pipeline (a ++ ['\\']) ++ parse_pipeline b
    ∧ (∃ init last, parse_pipeline (a ++ ['\\']) = init ++ [last ++ ['\\']])
    ∧ ∀ seg ∈ parse_pipeline a, '|' ∉ seg := by
  refine ⟨parse_pipeline_append_bar a b, ?_, ?_, ?_⟩
  · have := parse_pipeline_append_bar (a ++ ['\\']) b
    simpa using this
  · obtain ⟨init, last, _, h2⟩ := pieces_append_other '|' '\\' (by decide) a
    rw [parse_pipeline_eq_spec]
    unfold parse_pipeline_spec
    rw [h2, List.map_append, List.filter_append, List.map_singleton,
      strip_blanks_append_singleton '\\' (by decide)]
    refine ⟨((init.map strip_blanks).filter (fun s => decide (s ≠ []))),
      last.dropWhile (in_set blanks), ?_⟩
    simp
  · intro seg hseg
    rw [parse_pipeline_eq_spec] at hseg
    unfold parse_pipeline_spec at hseg
    simp only [List.mem_filter, List.mem_map] at hseg
    obtain ⟨⟨p, hp, rfl⟩, _⟩ := hseg
    intro h
    exact pieces_no_delim '|' a p hp (strip_blanks_subset p _ h)

/-- C20 fails as stated.  `echo a\|b` yields two segments, `echo a\` and `b`. -/
theorem escaped_bar_splits :
    parse_pipeline "echo a\\|b".toList = ["echo a\\".toList, "b".toList] := by
  decide

/-! ## Theorems: start-up -/

theorem execute_pipeline_outcome (env : Env) (sh : Shell) (commands : List Str) :
    (execute_pipeline env sh commands).outcome = .returned
    ∨ (execute_pipeline env sh commands).outcome = .shell_exit 0 := by
  rcases hp : create_pipes env (size_sub commands.length 1) 0 sh []
    with ⟨ev0, sh0, pipe_fds, ok⟩
  cases ok with
  | false =>
    rw [execute_pipeline_of_pipe_failure env sh commands ev0 sh0 pipe_fds hp]
    exact Or.inl rfl
  | true =>
    rcases hrun : run_segments env commands.length pipe_fds commands 0 sh0 []
      with ⟨ev1, s1, cp, flow⟩
    cases flow with
    | next =>
      rw [execute_pipeline_of_next env sh commands ev0 sh0 pipe_fds hp _ _ _ hrun]
      exact Or.inl rfl
    | returned =>
      rw [execute_pipeline_of_returned env sh commands ev0 sh0 pipe_fds hp _ _ _ hrun]
      exact Or.inl rfl
    | exited =>
      rw [execute_pipeline_of_exited env sh commands ev0 sh0 pipe_fds hp _ _ _ hrun]
      exact Or.inr rfl
    | thrown f =>
      rw [execute_pipeline_of_thrown env sh commands ev0 sh0 pipe_fds hp _ _ _ f hrun]
      exact Or.inl rfl

theorem main_loop_props (env : Env) : ∀ (inputs : List Str) (sh : Shell),
    (main_loop env inputs sh).2 = 0
    ∧ (main_loop env inputs sh).1.head? = some .readline := by
  intro inputs
  induction inputs with
  | nil => intro sh; exact ⟨rfl, rfl⟩
  | cons input inputs ih =>
    intro sh
    unfold main_loop
    split
    · exact ⟨(ih sh).1, rfl⟩
    · split
      · split
        · rename_i status hout
          rcases execute_pipeline_outcome env sh (parse_pipeline (delim_remove input))
            with h | h
          · rw [h] at hout
            exact absurd hout (by simp)
          · rw [h] at hout
            simp only [Outcome.shell_exit.injEq] at hout
            exact ⟨hout.symm, rfl⟩
        · exact ⟨(ih _).1, rfl⟩
      · exact ⟨(ih sh).1, rfl⟩

/-- C19, amended.  When `sigaction` fails for a signal,
`setup_signal_handlers` prints the `perror` line for it and returns, and
`main` goes on into the loop all the same: the trace is the installation of
the handlers followed by the loop from the initial state, `readline` is
called, and the exit status is 0 whatever `sigaction` answered. -/
theorem shell_runs_on_when_sigaction_fails (sigaction_ok : TrappedSignal → Bool) (env : Env)
    (inputs : List Str) :
    (main sigaction_ok env inputs).2 = 0
    ∧ MainEvent.readline ∈ (main sigaction_ok env inputs).1
    ∧ (∀ sig, sigaction_ok sig = false →
        MainEvent.perror_sigaction sig ∈ (main sigaction_ok env inputs).1)
    ∧ (main sigaction_ok env inputs).1
        = setup_signal_handlers sigaction_ok ++ (main_loop env inputs Shell.initial).1
    ∧ (main sigaction_ok env inputs).2 = (main (fun _ => true) env inputs).2 := by
  obtain ⟨h1, h2⟩ := main_loop_props env inputs Shell.initial
  refine ⟨h1, ?_, ?_, rfl, rfl⟩
  · unfold main
    simp only [List.mem_append]
    right
    exact List.mem_of_mem_head? h2
  · intro sig hsig
    unfold main setup_signal_handlers install_handler
    simp only [List.mem_append]
    left
    cases sig
    · left; left; rw [hsig]; simp
    · left; right; rw [hsig]; simp
    · right; rw [hsig]; simp

/-- C19 fails as stated.  With all three installations failing and the one
line `pwd` typed before the end of input, the shell prints the three `perror`
lines, enters the loop, runs `pwd`, prints `exit` at the end of input and
exits with status 0. -/
theorem sigaction_failure_is_not_fatal :
    main (fun _ => false) Env.friendly ["pwd".toList]
      = ([.sigaction .SIGINT, .perror_sigaction .SIGINT,
          .sigaction .SIGTSTP, .perror_sigaction .SIGTSTP,
          .sigaction .SIGCHLD, .perror_sigaction .SIGCHLD,
          .readline, .shell (.write 1 "/".toList), .shell (.write 1 "\n".toList),
          .readline, .shell (.out "exit".toList)], 0) := by
  decide

/-! ## Theorems: the output of the lock-holder tool, read back -/

theorem digit_props (c : Char) (h : c.isDigit = true) :
    isspace c = false ∧ c ≠ '-' ∧ c ≠ '+' ∧ c ≠ ',' ∧ c ≠ ':' := by
  have key : ∀ d : Char, d.isDigit = false → c ≠ d := by
    intro d hd heq
    rw [heq, hd] at h
    exact absurd h (by decide)
  refine ⟨?_, key _ (by decide), key _ (by decide), key _ (by decide), key _ (by decide)⟩
  simp only [isspace, Bool.or_eq_false_iff, decide_eq_false_iff_not]
  exact ⟨⟨⟨⟨⟨key _ (by decide), key _ (by decide)⟩, key _ (by decide)⟩, key _ (by decide)⟩,
    key _ (by decide)⟩, key _ (by decide)⟩

theorem is_decimal_pid_iff (s : Str) :
    is_decimal_pid s = true
      ↔ s ≠ [] ∧ (∀ c ∈ s, c.isDigit = true) ∧ decimal s ≤ 2147483647 := by
  simp [is_decimal_pid, and_assoc]

theorem stoi_of_decimal (s : Str) (h : is_decimal_pid s = true) :
    stoi s = some (Int.ofNat (decimal s)) := by
  obtain ⟨hne, hdig, hrange⟩ := (is_decimal_pid_iff s).mp h
  cases s with
  | nil => exact absurd rfl hne
  | cons c cs =>
    obtain ⟨hsp, hminus, hplus, _, _⟩ := digit_props c (hdig c (List.mem_cons_self _ _))
    have hdrop : (c :: cs).dropWhile isspace = c :: cs := by
      simp [List.dropWhile_cons, hsp]
    have htake : (c :: cs).takeWhile Char.isDigit = c :: cs :=
      List.takeWhile_eq_self_iff.mpr hdig
    have hm : stoi.match_1 (fun _ => Bool × List Char) (c :: cs) (fun r => (true, r))
        (fun r => (false, r)) (fun _ => (false, c :: cs)) = (false, c :: cs) := by
      split
      · rename_i heq
        simp only [List.cons.injEq] at heq
        exact absurd heq.1 hminus
      · rename_i heq
        simp only [List.cons.injEq] at heq
        exact absurd heq.1 hplus
      · rfl
    have hd : (c :: cs).foldl (fun a d => 10 * a + (d.toNat - 48)) 0 = decimal (c :: cs) := rfl
    unfold stoi
    simp only [hdrop, hm, htake, hd]
    rw [if_neg (by simp)]
    simp only [Bool.false_eq_true, if_false]
    rw [if_neg]
    · rfl
    · intro hor
      rcases hor with hlt | hgt
      · have : (0 : Int) ≤ ((decimal (c :: cs) : Nat) : Int) := Int.ofNat_nonneg _
        omega
      · have : ((decimal (c :: cs) : Nat) : Int) ≤ 2147483647 := by exact_mod_cast hrange
        omega

theorem getline_token (tok rest : Str) (h : ',' ∉ tok) :
    getline (tok ++ ',' :: rest) ',' = some (tok, rest) := by
  have h1 : ∀ t : Str, ',' ∉ t → (t ++ ',' :: rest).takeWhile (fun c => c != ',') = t := by
    intro t
    induction t with
    | nil => intro _; simp [List.takeWhile_cons]
    | cons x xs ih =>
      intro ht
      simp only [List.mem_cons, not_or] at ht
      have hx : (x != ',') = true := by simpa using fun heq => ht.1 heq.symm
      rw [List.cons_append, List.takeWhile_cons, hx, if_pos rfl, ih ht.2]
  have h2 : ∀ t : Str, ',' ∉ t →
      (t ++ ',' :: rest).dropWhile (fun c => c != ',') = ',' :: rest := by
    intro t
    induction t with
    | nil => intro _; simp [List.dropWhile_cons]
    | cons x xs ih =>
      intro ht
      simp only [List.mem_cons, not_or] at ht
      have hx : (x != ',') = true := by simpa using fun heq => ht.1 heq.symm
      rw [List.cons_append, List.dropWhile_cons, hx, if_pos rfl, ih ht.2]
  unfold getline
  cases hd : tok ++ ',' :: rest with
  | nil => simp at hd
  | cons y ys =>
    simp only []
    rw [← hd, h1 tok h, h2 tok h]
    rfl

theorem decimal_pid_no_comma (pid : Str) (h : is_decimal_pid pid = true) : ',' ∉ pid := by
  intro hmem
  have := ((is_decimal_pid_iff pid).mp h).2.1 _ hmem
  exact absurd this (by decide)

/-- One round of the parsing loop on a `Lock:<pid>,` token. -/
theorem delep_entries_loop_lock (fuel : Nat) (pid rest : Str) (pids_lock pids_nolock : List Int)
    (ev : List Event) (h : is_decimal_pid pid = true) :
    delep_entries_loop (fuel + 1) (("Lock:".toList ++ pid ++ [',']) ++ rest)
        pids_lock pids_nolock ev
      = delep_entries_loop fuel rest (set_insert (Int.ofNat (decimal pid)) pids_lock)
          pids_nolock ev := by
  have hform : ("Lock:".toList ++ pid ++ [',']) ++ rest = ("Lock:".toList ++ pid) ++ ',' :: rest := by
    simp
  have hnc : ',' ∉ "Lock:".toList ++ pid := by
    intro hmem
    rcases List.mem_append.mp hmem with hm | hm
    · revert hm; decide
    · exact decimal_pid_no_comma pid h hm
  have hg := getline_token ("Lock:".toList ++ pid) rest hnc
  have h1 : "Lock:".toList ++ pid ≠ [] := by simp
  have h2 : (!("Lock:".toList ++ pid).contains ':') = false := by simp
  have h3 : ("Lock:".toList ++ pid).takeWhile (fun c => c != ':') = "Lock".toList := by
    simp [List.takeWhile_cons]
  have h4 : (("Lock:".toList ++ pid).dropWhile (fun c => c != ':')).drop 1 = pid := by
    simp [List.dropWhile_cons]
  rw [hform]
  conv_lhs => unfold delep_entries_loop
  rw [hg]
  simp only []
  rw [if_neg h1, h2]
  simp only [Bool.false_eq_true, if_false, h3, h4, stoi_of_decimal pid h, if_true]

/-- One round of the parsing loop on a `NoLock:<pid>,` token. -/
theorem delep_entries_loop_nolock (fuel : Nat) (pid rest : Str)
    (pids_lock pids_nolock : List Int) (ev : List Event) (h : is_decimal_pid pid = true) :
    delep_entries_loop (fuel + 1) (("NoLock:".toList ++ pid ++ [',']) ++ rest)
        pids_lock pids_nolock ev
      = delep_entries_loop fuel rest pids_lock
          (set_insert (Int.ofNat (decimal pid)) pids_nolock) ev := by
  have hform : ("NoLock:".toList ++ pid ++ [',']) ++ rest
      = ("NoLock:".toList ++ pid) ++ ',' :: rest := by
    simp
  have hnc : ',' ∉ "NoLock:".toList ++ pid := by
    intro hmem
    rcases List.mem_append.mp hmem with hm | hm
    · revert hm; decide
    · exact decimal_pid_no_comma pid h hm
  have hg := getline_token ("NoLock:".toList ++ pid) rest hnc
  have h1 : "NoLock:".toList ++ pid ≠ [] := by simp
  have h2 : (!("NoLock:".toList ++ pid).contains ':') = false := by simp
  have h3 : ("NoLock:".toList ++ pid).takeWhile (fun c => c != ':') = "NoLock".toList := by
    simp [List.takeWhile_cons]
  have h4 : (("NoLock:".toList ++ pid).dropWhile (fun c => c != ':')).drop 1 = pid := by
    simp [List.dropWhile_cons]
  rw [hform]
  conv_lhs => unfold delep_entries_loop
  rw [hg]
  simp only []
  rw [if_neg h1, h2]
  simp only [Bool.false_eq_true, if_false, h3, h4, stoi_of_decimal pid h]
  rw [if_neg (by decide)]
  simp only [if_true]

theorem delep_entries_loop_nil (fuel : Nat) (pids_lock pids_nolock : List Int)
    (ev : List Event) :
    delep_entries_loop fuel [] pids_lock pids_nolock ev = (pids_lock, pids_nolock, ev) := by
  cases fuel with
  | zero => rfl
  | succ n => rfl

/-- The loop reads a run of `Lock:<pid>,` tokens into the first set. -/
theorem delep_entries_loop_locks (pids : List Str)
    (h : ∀ s ∈ pids, is_decimal_pid s = true) :
    ∀ (fuel : Nat) (rest : Str) (pids_lock pids_nolock : List Int) (ev : List Event),
      delep_entries_loop (fuel + pids.length)
          (pids.flatMap (fun pid => "Lock:".toList ++ pid ++ [',']) ++ rest)
          pids_lock pids_nolock ev
        = delep_entries_loop fuel rest
            (pids.foldl (fun s pid => set_insert (Int.ofNat (decimal pid)) s) pids_lock)
            pids_nolock ev := by
  induction pids with
  | nil => intro fuel rest pids_lock pids_nolock ev; rfl
  | cons x xs ih =>
    intro fuel rest pids_lock pids_nolock ev
    have hx := h x (List.mem_cons_self _ _)
    have hxs : ∀ s ∈ xs, is_decimal_pid s = true := fun s hs => h s (List.mem_cons_of_mem _ hs)
    rw [List.flatMap_cons, List.append_assoc, List.length_cons, ← Nat.add_assoc,
      delep_entries_loop_lock _ x _ _ _ _ hx, ih hxs, List.foldl_cons]

/-- The loop reads a run of `NoLock:<pid>,` tokens into the second set. -/
theorem delep_entries_loop_nolocks (pids : List Str)
    (h : ∀ s ∈ pids, is_decimal_pid s = true) :
    ∀ (fuel : Nat) (rest : Str) (pids_lock pids_nolock : List Int) (ev : List Event),
      delep_entries_loop (fuel + pids.length)
          (pids.flatMap (fun pid => "NoLock:".toList ++ pid ++ [',']) ++ rest)
          pids_lock pids_nolock ev
        = delep_entries_loop fuel rest pids_lock
            (pids.foldl (fun s pid => set_insert (Int.ofNat (decimal pid)) s) pids_nolock)
            ev := by
  induction pids with
  | nil => intro fuel rest pids_lock pids_nolock ev; rfl
  | cons x xs ih =>
    intro fuel rest pids_lock pids_nolock ev
    have hx := h x (List.mem_cons_self _ _)
    have hxs : ∀ s ∈ xs, is_decimal_pid s = true := fun s hs => h s (List.mem_cons_of_mem _ hs)
    rw [List.flatMap_cons, List.append_assoc, List.length_cons, ← Nat.add_assoc,
      delep_entries_loop_nolock _ x _ _ _ _ hx, ih hxs, List.foldl_cons]

theorem tokens_length (tag : Str) (pids : List Str) :
    pids.length ≤ (pids.flatMap (fun pid => tag ++ pid ++ [','])).length := by
  induction pids with
  | nil => simp
  | cons x xs ih =>
    rw [List.flatMap_cons, List.length_append, List.length_cons]
    have : 1 ≤ (tag ++ x ++ [',']).length := by
      simp only [List.length_append, List.length_singleton]
      omega
    omega

/-- The parsing loop of `handle_delep_output` on the text `delep` builds. -/
theorem delep_entries_loop_result (lock_pids nolock_pids : List Str)
    (h : ∀ s ∈ lock_pids ++ nolock_pids, is_decimal_pid s = true) :
    delep_entries_loop ((delep_result lock_pids nolock_pids).length + 1)
        (delep_result lock_pids nolock_pids) [] [] []
      = (pid_set lock_pids, pid_set nolock_pids, []) := by
  have hL : ∀ s ∈ lock_pids, is_decimal_pid s = true :=
    fun s hs => h s (List.mem_append_left _ hs)
  have hN : ∀ s ∈ nolock_pids, is_decimal_pid s = true :=
    fun s hs => h s (List.mem_append_right _ hs)
  have hlen : nolock_pids.length + lock_pids.length
      ≤ (delep_result lock_pids nolock_pids).length + 1 := by
    have h1 := tokens_length "Lock:".toList lock_pids
    have h2 := tokens_length "NoLock:".toList nolock_pids
    unfold delep_result
    rw [List.length_append]
    omega
  obtain ⟨k, hk⟩ := Nat.exists_eq_add_of_le hlen
  have hfuel : (delep_result lock_pids nolock_pids).length + 1
      = (k + nolock_pids.length) + lock_pids.length := by omega
  rw [hfuel]
  conv_lhs => rw [delep_result]
  rw [delep_entries_loop_locks lock_pids hL]
  have hnil : nolock_pids.flatMap (fun pid => "NoLock:".toList ++ pid ++ [','])
      = nolock_pids.flatMap (fun pid => "NoLock:".toList ++ pid ++ [',']) ++ [] := by simp
  rw [hnil, delep_entries_loop_nolocks nolock_pids hN, delep_entries_loop_nil]
  rfl

theorem pid_set_props (pids : List Str) :
    (pid_set pids).Pairwise (· < ·)
      ∧ ∀ p, p ∈ pid_set pids ↔ ∃ s ∈ pids, Int.ofNat (decimal s) = p := by
  have hmap : pid_set pids
      = (pids.map (fun s => Int.ofNat (decimal s))).foldl (fun s p => set_insert p s) [] := by
    unfold pid_set
    rw [List.foldl_map]
  obtain ⟨h1, h2⟩ := foldl_set_insert (pids.map (fun s => Int.ofNat (decimal s))) []
    List.Pairwise.nil
  rw [hmap]
  refine ⟨h1, ?_⟩
  intro p
  rw [h2 p]
  simp

theorem delep_result_no_nul (lock_pids nolock_pids : List Str)
    (h : ∀ s ∈ lock_pids ++ nolock_pids, is_decimal_pid s = true) :
    ∀ c ∈ delep_result lock_pids nolock_pids, c ≠ '\x00' := by
  have hdig : ∀ s, is_decimal_pid s = true → ∀ c ∈ s, c ≠ '\x00' := by
    intro s hs c hc heq
    have hd := ((is_decimal_pid_iff s).mp hs).2.1 c hc
    rw [heq] at hd
    exact absurd hd (by decide)
  intro c hc
  unfold delep_result at hc
  rcases List.mem_append.mp hc with hm | hm
  · obtain ⟨s, hs, hcs⟩ := List.mem_flatMap.mp hm
    rcases List.mem_append.mp hcs with hm2 | hm2
    · rcases List.mem_append.mp hm2 with hm3 | hm3
      · intro heq
        rw [heq] at hm3
        revert hm3
        decide
      · exact hdig s (h s (List.mem_append_left _ hs)) c hm3
    · intro heq
      rw [heq] at hm2
      revert hm2
      decide
  · obtain ⟨s, hs, hcs⟩ := List.mem_flatMap.mp hm
    rcases List.mem_append.mp hcs with hm2 | hm2
    · rcases List.mem_append.mp hm2 with hm3 | hm3
      · intro heq
        rw [heq] at hm3
        revert hm3
        decide
      · exact hdig s (h s (List.mem_append_right _ hs)) c hm3
    · intro heq
      rw [heq] at hm2
      revert hm2
      decide

theorem gather_chunks_flatten (chunks : List Str)
    (h : ∀ c ∈ chunks.flatten, c ≠ '\x00') : gather_chunks chunks = chunks.flatten := by
  induction chunks with
  | nil => rfl
  | cons x xs ih =>
    have hx : x.takeWhile (fun c => c != '\x00') = x := by
      apply List.takeWhile_eq_self_iff.mpr
      intro c hc
      have := h c (by simp [hc])
      simpa using this
    have hxs : ∀ c ∈ xs.flatten, c ≠ '\x00' := by
      intro c hc
      exact h c (by simp [hc])
    have ih2 := ih hxs
    unfold gather_chunks at ih2 ⊢
    rw [List.flatMap_cons, hx, ih2, List.flatten_cons]

/-- C21.  The text `delep` builds and the parser of `handle_delep_output` round-trip.
For two lists of decimal pid strings within the range of `int`, the loop of
`handle_delep_output` reads the text `Lock:<pid>,` ... `NoLock:<pid>,` ...
into exactly the set of the pids of the first list and the set of the pids
of the second list, with no warning; the two sets are increasing lists that
hold the values of the strings and nothing else; however the text is cut
into chunks by `read`, the shell goes on with these two sets.  When the tool
writes nothing, the shell prints `No process has the file open` and does
nothing else: no prompt, no `kill`, no `remove`. -/
theorem delep_output_round_trip (lock_pids nolock_pids : List Str)
    (h : ∀ s ∈ lock_pids ++ nolock_pids, is_decimal_pid s = true) :
    delep_entries_loop ((delep_result lock_pids nolock_pids).length + 1)
        (delep_result lock_pids nolock_pids) [] [] []
      = (pid_set lock_pids, pid_set nolock_pids, [])
    ∧ listed_pids (delep_result lock_pids nolock_pids)
      = (pid_set lock_pids, pid_set nolock_pids)
    ∧ ((pid_set lock_pids).Pairwise (· < ·)
        ∧ ∀ p, p ∈ pid_set lock_pids ↔ ∃ s ∈ lock_pids, Int.ofNat (decimal s) = p)
    ∧ ((pid_set nolock_pids).Pairwise (· < ·)
        ∧ ∀ p, p ∈ pid_set nolock_pids ↔ ∃ s ∈ nolock_pids, Int.ofNat (decimal s) = p)
    ∧ (∀ (env : Env) (pid : Nat) (filename : Str) (chunks : List Str),
        env.comm_data pid = (chunks, false) →
        chunks.flatten = delep_result lock_pids nolock_pids →
        handle_delep_output env pid filename
          = delep_dialogue env filename (pid_set lock_pids) (pid_set nolock_pids) [])
    ∧ (∀ (env : Env) (pid : Nat) (filename : Str) (chunks : List Str),
        env.comm_data pid = (chunks, false) →
        chunks.flatten = delep_result [] [] →
        handle_delep_output env pid filename = [.out "No process has the file open".toList]
        ∧ (handle_delep_output env pid filename).filter Event.is_kill_or_remove = []
        ∧ Event.out "Do you want to kill all the processes using the file? (yes/no): ".toList
            ∉ handle_delep_output env pid filename) := by
  have hloop := delep_entries_loop_result lock_pids nolock_pids h
  have hlink : ∀ (L N : List Str), (∀ s ∈ L ++ N, is_decimal_pid s = true) →
      ∀ (env : Env) (pid : Nat) (filename : Str) (chunks : List Str),
        env.comm_data pid = (chunks, false) →
        chunks.flatten = delep_result L N →
        handle_delep_output env pid filename
          = delep_dialogue env filename (pid_set L) (pid_set N) [] := by
    intro L N hLN env pid filename chunks hdata hflat
    have hg : gather_chunks chunks = delep_result L N := by
      rw [gather_chunks_flatten chunks (by rw [hflat]; exact delep_result_no_nul L N hLN), hflat]
    unfold handle_delep_output
    rw [hdata]
    simp only [Bool.false_eq_true, if_false]
    rw [hg, delep_entries_loop_result L N hLN]
  refine ⟨hloop, ?_, pid_set_props lock_pids, pid_set_props nolock_pids,
    hlink lock_pids nolock_pids h, ?_⟩
  · unfold listed_pids
    rw [hloop]
  · intro env pid filename chunks hdata hflat
    have he := hlink [] [] (by simp) env pid filename chunks hdata hflat
    have hd : delep_dialogue env filename (pid_set []) (pid_set []) []
        = [.out "No process has the file open".toList] := rfl
    rw [he, hd]
    refine ⟨rfl, rfl, ?_⟩
    simp only [List.mem_singleton, Event.out.injEq]
    decide

theorem delep_output_round_trip_witness :
    (∀ s ∈ ["12".toList, "3".toList, "12".toList] ++ ["7".toList],
        is_decimal_pid s = true)
    ∧ delep_result ["12".toList, "3".toList, "12".toList] ["7".toList]
        = "Lock:12,Lock:3,Lock:12,NoLock:7,".toList
    ∧ listed_pids "Lock:12,Lock:3,Lock:12,NoLock:7,".toList = ([3, 12], [7])
    ∧ handle_delep_output
        (Env.answering "Lock:12,Lock:3,Lock:12,NoLock:7,".toList (some "no".toList)) 0
        "f".toList
        = delep_dialogue
            (Env.answering "Lock:12,Lock:3,Lock:12,NoLock:7,".toList (some "no".toList))
            "f".toList [3, 12] [7] [] := by
  have hyp : ∀ s ∈ ["12".toList, "3".toList, "12".toList] ++ ["7".toList],
      is_decimal_pid s = true := by decide
  have hthm := delep_output_round_trip ["12".toList, "3".toList, "12".toList] ["7".toList] hyp
  refine ⟨hyp, rfl, hthm.2.1, ?_⟩
  exact hthm.2.2.2.2.1
    (Env.answering "Lock:12,Lock:3,Lock:12,NoLock:7,".toList (some "no".toList)) 0
    "f".toList ["Lock:12,Lock:3,Lock:12,NoLock:7,".toList] rfl rfl

/-! ## Theorems: the foreground slot when `execute_pipeline` returns -/

theorem run_segment_returned (env : Env) (n : Nat) (pipe_fds : List Int) (i : Nat)
    (segment : Str) (sh : Shell) (child_pids : List Nat)
    (h : (run_segment env n pipe_fds i segment sh child_pids).2.2.2 = .returned
      ∨ (run_segment env n pipe_fds i segment sh child_pids).2.2.2 = .exited) :
    same_jobs (run_segment env n pipe_fds i segment sh child_pids).2.1 sh := by
  have hc := construct_props env sh segment
  unfold run_segment at h ⊢
  rcases hcon : Command.construct env sh segment with ⟨ev0, sh0, r⟩
  rw [hcon] at hc h
  cases r with
  | error f => simp at h
  | ok c0 =>
    simp only [] at h ⊢
    rcases hbr : (if n = 1 then handle_builtin_command env (strip_ampersand c0)
        else ([], BuiltinResult.not_builtin)) with ⟨evb, res⟩
    rw [hbr] at h
    cases res with
    | exits => exact same_jobs_trans ⟨rfl, rfl, rfl⟩ hc.2.1
    | handled =>
      exact same_jobs_trans (destroy_props _ _).2.1 (same_jobs_trans ⟨rfl, rfl, rfl⟩ hc.2.1)
    | not_builtin =>
      simp only [] at h
      have := spawn_segment_flow env n pipe_fds i (strip_ampersand c0)
        { sh0 with is_background := wants_background c0 } child_pids
      rcases h with h | h
      · exact absurd h this.1
      · exact absurd h this.2

theorem catch_block_reports (f : Failure) (pipe_fds : List Int) (child_pids : List Nat)
    (sh : Shell) : Event.err (.pipeline f) ∈ (catch_block f pipe_fds child_pids sh).1 := by
  simp [catch_block]

/-- C22.  When no `Pipeline execution error` is reported, `execute_pipeline`
ends with the foreground slot at 0 (after the wait of a pipeline, or without
one for a background pipeline) or as it was before the call (after a
built-in); so from a state with an empty slot the slot is empty afterwards.
On the error path the slot is not reset: for the line `a | b >`, where the
second segment does not parse, `execute_pipeline` returns with the pid 101 of the
child of `a` in the slot, and a `SIGINT` at the next prompt makes
`ctrl_c_handler` send `SIGTERM` to 101 instead of unwinding. -/
theorem foreground_slot_kept_on_error_path :
    (∀ (env : Env) (sh : Shell) (commands : List Str),
      (∀ e ∈ (execute_pipeline env sh commands).events, e.is_pipeline_error = false) →
      (execute_pipeline env sh commands).sh.foreground_pid = 0
      ∨ (execute_pipeline env sh commands).sh.foreground_pid = sh.foreground_pid)
    ∧ (execute_pipeline Env.friendly Shell.initial (parse_pipeline "a | b >".toList)).outcome = .returned
    ∧ (execute_pipeline Env.friendly Shell.initial (parse_pipeline "a | b >".toList)).events.filterMap
        Event.forked_pid = [101]
    ∧ (execute_pipeline Env.friendly Shell.initial (parse_pipeline "a | b >".toList)).sh.foreground_pid
        = 101
    ∧ (ctrl_c_handler (fun _ _ => true)
        (execute_pipeline Env.friendly Shell.initial (parse_pipeline "a | b >".toList)).sh).1
        = [.out [], .kill 101 .SIGTERM]
    ∧ (ctrl_c_handler (fun _ _ => true)
        (execute_pipeline Env.friendly Shell.initial (parse_pipeline "a | b >".toList)).sh).2.2
        = .resumed := by
  refine ⟨?_, by decide, by decide, by decide, by decide, by decide⟩
  intro env sh commands hnone
  have hsj := create_pipes_same_jobs env (size_sub commands.length 1) 0 sh []
  rcases hp : create_pipes env (size_sub commands.length 1) 0 sh []
    with ⟨ev0, sh0, pipe_fds, ok⟩
  rw [hp] at hsj
  simp only at hsj
  cases ok with
  | false =>
    exfalso
    rw [execute_pipeline_of_pipe_failure env sh commands ev0 sh0 pipe_fds hp] at hnone
    have := hnone _ (List.mem_append_right _ (catch_block_reports .pipe_creation pipe_fds [] sh0))
    simp [Event.is_pipeline_error] at this
  | true =>
    rcases hrun : run_segments env commands.length pipe_fds commands 0 sh0 []
      with ⟨ev1, s1, cp, flow⟩
    have hfinal : (flow = .returned ∨ flow = .exited) → same_jobs s1 sh0 := by
      intro hflow
      by_cases hn : commands.length = 1
      · obtain ⟨segment, hseg⟩ := List.length_eq_one.mp hn
        subst hseg
        have hne : (run_segment env 1 pipe_fds 0 segment sh0 []).2.2.2 ≠ .next := by
          intro hnext
          rcases hr : run_segment env 1 pipe_fds 0 segment sh0 [] with ⟨a, b, c, d⟩
          rw [hr] at hnext
          simp only at hnext
          subst hnext
          rw [show [segment].length = 1 from rfl,
            run_segments_of_next env 1 pipe_fds 0 segment [] sh0 [] a b c hr] at hrun
          simp only [run_segments, Prod.mk.injEq] at hrun
          rcases hflow with h | h <;> (rw [h] at hrun; simp at hrun)
        rw [show [segment].length = 1 from rfl,
          run_segments_of_not_next env 1 pipe_fds 0 segment [] sh0 [] _ rfl hne] at hrun
        have hret := run_segment_returned env 1 pipe_fds 0 segment sh0 []
        rw [hrun] at hret
        exact hret hflow
      · have := run_segments_flow env commands.length pipe_fds hn commands 0 sh0 []
        rw [hrun] at this
        rcases hflow with h | h
        · exact absurd h this.1
        · exact absurd h this.2
    cases flow with
    | next =>
      rw [execute_pipeline_of_next env sh commands ev0 sh0 pipe_fds hp _ _ _ hrun]
      exact Or.inl rfl
    | returned =>
      rw [execute_pipeline_of_returned env sh commands ev0 sh0 pipe_fds hp _ _ _ hrun]
      exact Or.inr ((hfinal (Or.inl rfl)).2.1.trans hsj.2.1)
    | exited =>
      rw [execute_pipeline_of_exited env sh commands ev0 sh0 pipe_fds hp _ _ _ hrun]
      exact Or.inr ((hfinal (Or.inr rfl)).2.1.trans hsj.2.1)
    | thrown f =>
      exfalso
      rw [execute_pipeline_of_thrown env sh commands ev0 sh0 pipe_fds hp _ _ _ f hrun] at hnone
      have := hnone _ (List.mem_append_right _ (catch_block_reports f pipe_fds cp s1))
      simp [Event.is_pipeline_error] at this

/-! ## Theorems: descriptor numbers in the child -/

/-- C23, at the failing input `a | b > out`, from a shell with only the
standard streams open and lowest-free numbering.  The pipe is the descriptors
3 and 4.  After the fork for `a` the shell closes 4, so the file `out` of `b`
is opened as descriptor 4, the number still recorded in `pipe_fds[1]`.  The
child of `b`, with input 3 and output 4, closes `pipe_fds[1]` as an unused
pipe end; `dup2 (4, 1)` then fails and the child gives up without running
`b`, with no descriptor 4 in its table. -/
theorem child_closes_reused_descriptor :
    (execute_pipeline Env.friendly Shell.initial
        (parse_pipeline "a | b > out".toList)).events.filter Event.is_descriptor_call
      = [.pipe 0 3 4, .close 4, .close 4, .opened "out".toList 4, .close 3, .close 3, .close 4]
    ∧ (execute_pipeline Env.friendly Shell.initial
        (parse_pipeline "a | b > out".toList)).events.filterMap Event.child_outcome
      = [(0, 0, 4, .exec "a".toList ["a".toList]
            [(0, .inherited 0), (2, .inherited 2), (4, .pipe_write 0), (1, .pipe_write 0)]),
         (1, 3, 4, .gave_up
            [(1, .inherited 1), (2, .inherited 2), (3, .pipe_read 0), (0, .pipe_read 0)])] := by
  refine ⟨by decide, by decide⟩

end MiniShell
